import Mathlib

/-!
Shallow embedding of `push2310.c`, the push2310 game engine.

The game state is the C `Game` record.  The board is the C `char**`: a list of
rows, each row the characters of one C string (without its terminating NUL).
Every logical cell `(r, j)` occupies two characters of row `r`: the weight
digit at character index `2 * j` and the occupancy marker at `2 * j + 1`.

Reading or writing outside the stored characters is undefined in C; the
embedding makes every function that indexes the board return `Option`, with
`none` standing for such an access (the terminating NUL of a row counts as
outside: on a board whose rows hold `2 * columns` characters the program only
addresses it through an out-of-range move).  The `long`/`int` fields and loop
counters are modelled as `Int`: every arithmetic expression of the program is
an index into the board or a count of board cells.  Output to the terminal is
not modelled.
-/

namespace Push2310

/-! ## Data model -/

/-- Modelled from the spec: the `ExitCodes` enumeration of the absent header
`push2310.h`, one constructor per status of the exit/status taxonomy.
`EXIT_NORMAL` is the zero status: the callers test the returned status for
being non-zero. -/
inductive ExitCodes where
  | EXIT_NORMAL
  | EXIT_ARGS
  | EXIT_PLAYER_TYPE
  | EXIT_FILE_READ
  | EXIT_FILE_CONTENTS
  | EXIT_FULL_BOARD
  | EXIT_EOF
  deriving DecidableEq, Repr

/-- The C `Game` record (its declaration is in the absent header; the fields
are the ones `push2310.c` uses). -/
structure Game where
  rows : Int
  columns : Int
  currentPlayer : Char
  playerTypeO : Char
  playerTypeX : Char
  rowMove : Int
  columnMove : Int
  board : List (List Char)
  deriving DecidableEq, Repr

/-- Modelled from the spec: macro `MOVE_INDEX` of the absent header, the
character index of the occupancy marker of the column named by the move
(`push_move` spells the cell one step right of it `2 * (columnMove + 1) + 1`). -/
def MOVE_INDEX (g : Game) : Int := 2 * g.columnMove + 1

/-- Modelled from the spec: macro `LAST_CELL_COLUMN` of the absent header, the
occupancy index of the last logical column. -/
def LAST_CELL_COLUMN (g : Game) : Int := 2 * g.columns - 1

/-- Modelled from the spec: macro `SCORE_COLUMN_OF_LAST_CELL` of the absent
header, the weight index of the last logical column. -/
def SCORE_COLUMN_OF_LAST_CELL (g : Game) : Int := 2 * g.columns - 2

/-- Modelled from the spec: macro `LAST_INTERIOR_CELL_COLUMN` of the absent
header, the occupancy index of the last interior column. -/
def LAST_INTERIOR_CELL_COLUMN (g : Game) : Int := 2 * g.columns - 3

/-- Modelled from the spec: macro `SECOND_LAST_INTERIOR_CELL_COLUMN` of the
absent header, the occupancy index two columns in from the right edge. -/
def SECOND_LAST_INTERIOR_CELL_COLUMN (g : Game) : Int := 2 * g.columns - 5

/-- The C expression `board[r][c]` read from one row. -/
def readRow (row : List Char) (c : Int) : Option Char :=
  if c < 0 then none else row[c.toNat]?

/-- The C expression `game->board[r][c]` as a read: `none` outside the board. -/
def readCell (b : List (List Char)) (r c : Int) : Option Char :=
  if r < 0 then none
  else
    match b[r.toNat]? with
    | none => none
    | some row => readRow row c

/-- The C assignment `game->board[r][c] = ch`: `none` outside the board. -/
def writeCell (b : List (List Char)) (r c : Int) (ch : Char) :
    Option (List (List Char)) :=
  if r < 0 ∨ c < 0 then none
  else
    match b[r.toNat]? with
    | none => none
    | some row =>
      if c.toNat < row.length then some (b.set r.toNat (row.set c.toNat ch))
      else none

/-- The C expression `(game->currentPlayer == 'X') ? 'O' : 'X'`. -/
def otherPlayer (p : Char) : Char := if p = 'X' then 'O' else 'X'

/-! ## Pushing moves -/

/-- The search loops of `push_up`, `push_down`, `push_left`, `push_right`:
`for (i = start; ...; i += step) if (cell(i) == '.') { emptyCellCounter++;
break; }` run for at most `n` iterations.  `some (some i)` is a break at `i`,
`some none` the loop running to its end with `emptyCellCounter == 0`. -/
def scanLine (cell : Int → Option Char) (step : Int) :
    Int → Nat → Option (Option Int)
  | _, 0 => some none
  | i, n + 1 =>
    match cell i with
    | none => none
    | some ch => if ch = '.' then some (some i) else scanLine cell step (i + step) n

/-- The shifting loops of the four push functions:
`for (i = start; ...; i += d) board[pos i] = board[pos (i + d)];` run for `n`
iterations, where `pos` gives the board indices the loop variable stands for. -/
def shiftLine (pos : Int → Int × Int) (d : Int) :
    List (List Char) → Int → Nat → Option (List (List Char))
  | b, _, 0 => some b
  | b, i, n + 1 =>
    match readCell b (pos (i + d)).1 (pos (i + d)).2 with
    | none => none
    | some ch =>
      match writeCell b (pos i).1 (pos i).2 ch with
      | none => none
      | some b1 => shiftLine pos d b1 (i + d) n

/-- The common tail of the four push functions once the line is shifted: the
cell next to the triggering edge receives the mover and the player is swapped. -/
def finishPush (g : Game) (b1 : Option (List (List Char))) (r c : Int) : Option Game :=
  match b1 with
  | none => none
  | some b1 =>
    match writeCell b1 r c g.currentPlayer with
    | none => none
    | some b2 => some { g with board := b2, currentPlayer := otherPlayer g.currentPlayer }

/-- Function `push_up`: search `r = rows - 3` down to `0` (that is `rows - 2`
iterations) for an empty cell in column `MOVE_INDEX`; when found, the loop
`for (row = r; row < rows - 2; row++)` copies each cell from the one below. -/
def push_up (g : Game) : Option Game :=
  match scanLine (fun r => readCell g.board r (MOVE_INDEX g)) (-1) (g.rows - 3)
      (g.rows - 2).toNat with
  | none => none
  | some none => some g
  | some (some r) =>
    finishPush g
      (shiftLine (fun row => (row, MOVE_INDEX g)) 1 g.board r (g.rows - 2 - r).toNat)
      (g.rows - 2) (MOVE_INDEX g)

/-- Function `push_down`: search `r = 2` up to `rows - 1` for an empty cell in
column `MOVE_INDEX`; when found, the loop `for (row = r; row > 1; row--)`
copies each cell from the one above. -/
def push_down (g : Game) : Option Game :=
  match scanLine (fun r => readCell g.board r (MOVE_INDEX g)) 1 2
      (g.rows - 2).toNat with
  | none => none
  | some none => some g
  | some (some r) =>
    finishPush g
      (shiftLine (fun row => (row, MOVE_INDEX g)) (-1) g.board r (r - 1).toNat)
      1 (MOVE_INDEX g)

/-- Function `push_left`: search `c = SECOND_LAST_INTERIOR_CELL_COLUMN` down to
`0`, one character at a time, for an empty cell in row `rowMove`; when found,
the loop `for (col = c; col < LAST_INTERIOR_CELL_COLUMN; col += 2)` copies each
character from the one two places right. -/
def push_left (g : Game) : Option Game :=
  match scanLine (fun c => readCell g.board g.rowMove c) (-1)
      (SECOND_LAST_INTERIOR_CELL_COLUMN g)
      (SECOND_LAST_INTERIOR_CELL_COLUMN g + 1).toNat with
  | none => none
  | some none => some g
  | some (some c) =>
    finishPush g
      (shiftLine (fun col => (g.rowMove, col)) 2 g.board c
        ((LAST_INTERIOR_CELL_COLUMN g - c + 1) / 2).toNat)
      g.rowMove (LAST_INTERIOR_CELL_COLUMN g)

/-- Function `push_right`: search `c = MOVE_INDEX + 4` up to `2 * columns - 1`,
one character at a time, for an empty cell in row `rowMove`; when found, the
loop `for (col = c; col > MOVE_INDEX + 2; col -= 2)` copies each character
from the one two places left. -/
def push_right (g : Game) : Option Game :=
  match scanLine (fun c => readCell g.board g.rowMove c) 1 (MOVE_INDEX g + 4)
      (2 * g.columns - (MOVE_INDEX g + 4)).toNat with
  | none => none
  | some none => some g
  | some (some c) =>
    finishPush g
      (shiftLine (fun col => (g.rowMove, col)) (-2) g.board c
        ((c - (MOVE_INDEX g + 2) + 1) / 2).toNat)
      g.rowMove (MOVE_INDEX g + 2)

/-- The C condition `edge && cell != '.'` of `push_move`: the cell is read only
when the move is on that edge. -/
def edgeAndOccupied (edge : Bool) (cell : Option Char) : Option Bool :=
  if edge then
    match cell with
    | none => none
    | some ch => some (ch != '.')
  else some false

/-- Function `push_move`: pick the direction from the edge the move names
(bottom, top, right, left, in this order), provided the interior cell next to
that edge is not empty. -/
def push_move (g : Game) : Option Game :=
  match edgeAndOccupied (g.rowMove == g.rows - 1)
      (readCell g.board (g.rows - 2) (MOVE_INDEX g)) with
  | none => none
  | some true => push_up g
  | some false =>
    match edgeAndOccupied (g.rowMove == 0) (readCell g.board 1 (MOVE_INDEX g)) with
    | none => none
    | some true => push_down g
    | some false =>
      match edgeAndOccupied (g.columnMove == g.columns - 1)
          (readCell g.board g.rowMove (LAST_INTERIOR_CELL_COLUMN g)) with
      | none => none
      | some true => push_left g
      | some false =>
        match edgeAndOccupied (g.columnMove == 0)
            (readCell g.board g.rowMove (2 * (g.columnMove + 1) + 1)) with
        | none => none
        | some true => push_right g
        | some false => some g

/-! ## Applying a move -/

/-- The `else if` arm of `play_move`: no parse error, the move on exactly one
border axis and the named cell empty, then `push_move`; otherwise nothing. -/
def play_move_push (rowMoveErrors columnMoveErrors : String) (g : Game) : Option Game :=
  if rowMoveErrors = "" ∧ columnMoveErrors = "" ∧
      ((g.rowMove == 0 || g.rowMove == g.rows - 1) !=
        (g.columnMove == 0 || g.columnMove == g.columns - 1)) = true then
    match readCell g.board g.rowMove (MOVE_INDEX g) with
    | none => none
    | some ch => if ch = '.' then push_move g else some g
  else some g

/-- Function `play_move`.  The two error strings are what `strtol` left
unparsed; `*rowMoveErrors == 0` is the string being empty.  The conditions
are evaluated left to right, the board being read only when the ones before
it hold. -/
def play_move (rowMoveErrors columnMoveErrors : String) (g : Game) : Option Game :=
  if rowMoveErrors = "" ∧ columnMoveErrors = "" ∧
      g.rowMove > 0 ∧ g.rowMove < g.rows - 1 ∧
      g.columnMove > 0 ∧ g.columnMove < g.columns - 1 then
    match readCell g.board g.rowMove (MOVE_INDEX g) with
    | none => none
    | some ch =>
      if ch = '.' then
        match writeCell g.board g.rowMove (MOVE_INDEX g) g.currentPlayer with
        | none => none
        | some b1 =>
          some { g with board := b1, currentPlayer := otherPlayer g.currentPlayer }
      else play_move_push rowMoveErrors columnMoveErrors g
  else play_move_push rowMoveErrors columnMoveErrors g

/-! ## Validating a loaded board -/

/-- The three counters of `file_contents_error_handler`. -/
structure Counters where
  borderZeroCounter : Int
  interiorZeroCounter : Int
  invalidCharCounter : Int
  deriving DecidableEq, Repr

/-- The C loop `for (i = start; i < start + n; i++) body(i)` over a state. -/
def forUpTo {σ : Type} (body : Int → σ → Option σ) : Nat → Int → σ → Option σ
  | 0, _, s => some s
  | n + 1, i, s =>
    match body i s with
    | none => none
    | some s1 => forUpTo body n (i + 1) s1

/-- The C condition both validators apply to a character that is not `0`:
`!(c % 2 || isdigit(x)) || ((c % 2) && x != '.' && x != 'O' && x != 'X')`. -/
def invalidAt (c : Int) (x : Char) : Bool :=
  (!(c % 2 != 0 || x.isDigit)) || (c % 2 != 0 && x != '.' && x != 'O' && x != 'X')

/-- Function `validate_interior`. -/
def validate_interior (r c : Int) (g : Game) (k : Counters) : Option Counters :=
  if r ≠ 0 ∧ r ≠ g.rows - 1 ∧ c ≠ 0 ∧ c ≠ SCORE_COLUMN_OF_LAST_CELL g then
    match readCell g.board r c with
    | none => none
    | some x =>
      if x = '0' then some { k with interiorZeroCounter := k.interiorZeroCounter + 1 }
      else if invalidAt c x = true then
        some { k with invalidCharCounter := k.invalidCharCounter + 1 }
      else some k
  else some k

/-- Function `validate_border`. -/
def validate_border (r c : Int) (g : Game) (k : Counters) : Option Counters :=
  if r = 0 ∨ r = g.rows - 1 then
    match readCell g.board r c with
    | none => none
    | some x =>
      if x = '0' then some { k with borderZeroCounter := k.borderZeroCounter + 1 }
      else if invalidAt c x = true ∧ c > 1 ∧ c < SCORE_COLUMN_OF_LAST_CELL g then
        some { k with invalidCharCounter := k.invalidCharCounter + 1 }
      else some k
  else if c = 0 ∨ c = SCORE_COLUMN_OF_LAST_CELL g then
    match readCell g.board r c with
    | none => none
    | some x =>
      if x = '0' then some { k with borderZeroCounter := k.borderZeroCounter + 1 }
      else if invalidAt c x = true then
        some { k with invalidCharCounter := k.invalidCharCounter + 1 }
      else some k
  else some k

/-- The corner test in the loop body of `file_contents_error_handler`: a corner
character that is not a blank sets `borderZeroCounter` to `-1`. -/
def cornerCheck (r c : Int) (g : Game) (k : Counters) : Option Counters :=
  if (r = 0 ∨ r = g.rows - 1) ∧
      (c = 0 ∨ c = 1 ∨ c = LAST_CELL_COLUMN g ∨ c = SCORE_COLUMN_OF_LAST_CELL g) then
    match readCell g.board r c with
    | none => none
    | some x => if x ≠ ' ' then some { k with borderZeroCounter := -1 } else some k
  else some k

/-- The loop body of `file_contents_error_handler` at character `(r, c)`. -/
def cellStep (g : Game) (r c : Int) (k : Counters) : Option Counters :=
  match validate_interior r c g k with
  | none => none
  | some k1 =>
    match validate_border r c g k1 with
    | none => none
    | some k2 => cornerCheck r c g k2

/-- The two nested loops of `file_contents_error_handler`:
`for (r = 0; r < rows; r++) for (c = 0; c < columns * 2; c++)`. -/
def scanBoard (g : Game) : Option Counters :=
  forUpTo (fun r k => forUpTo (fun c k1 => cellStep g r c k1) (2 * g.columns).toNat 0 k)
    g.rows.toNat 0 ⟨0, 0, 0⟩

/-- Function `file_contents_error_handler`.  The strings are what `strtol` left
unparsed of the two dimensions; `exitStatus` is the status on entry, which is
returned when nothing is wrong.  After the loops `r` is `rows` and `c` is
`2 * columns` unless a dimension is negative (when no row is scanned `c` is
never assigned, and the first disjunct `rows < 3` already holds). -/
def file_contents_error_handler (g : Game) (rowErrors columnErrors : String)
    (exitStatus : ExitCodes) : Option ExitCodes :=
  match scanBoard g with
  | none => none
  | some k =>
    if g.rows < 3 ∨ g.columns < 3 ∨ g.currentPlayer ≠ g.currentPlayer.toUpper ∨
        k.borderZeroCounter ≠ 2 * (g.rows + g.columns) - 8 ∨
        k.interiorZeroCounter ≠ 0 ∨ (g.rows.toNat : Int) ≠ g.rows ∨
        ((2 * g.columns).toNat : Int) ≠ g.columns * 2 ∨ k.invalidCharCounter ≠ 0 ∨
        (g.currentPlayer ≠ 'X' ∧ g.currentPlayer ≠ 'O') ∨
        rowErrors ≠ "" ∨ columnErrors ≠ "" then
      some ExitCodes.EXIT_FILE_CONTENTS
    else some exitStatus

/-- Number of non-corner border weight positions in the rows above row `r`. -/
def rowsBefore (g : Game) (r : Int) : Int :=
  if r ≤ 0 then 0
  else if r ≤ g.rows - 1 then (g.columns - 2) + 2 * (r - 1)
  else 2 * (g.columns - 2) + 2 * (g.rows - 2)

/-- Number of non-corner border weight positions of row `r` left of character `c`. -/
def colsBefore (g : Game) (r c : Int) : Int :=
  if r = 0 ∨ r = g.rows - 1 then (if c ≤ 2 then 0 else min ((c - 1) / 2) (g.columns - 2))
  else (if c > 0 then 1 else 0) + (if c > 2 * g.columns - 2 then 1 else 0)

/-- Number of non-corner border weight positions that the two loops of
`file_contents_error_handler` have passed when they stand at character `(r, c)`. -/
def borderBefore (g : Game) (r c : Int) : Int := rowsBefore g r + colsBefore g r c

/-- Character `(r1, c1)` has been passed when the loops stand at `(r, c)`. -/
def Before (g : Game) (r c r1 c1 : Int) : Prop :=
  0 ≤ r1 ∧ 0 ≤ c1 ∧ c1 < 2 * g.columns ∧ (r1 < r ∨ (r1 = r ∧ c1 < c))

/-- Character `x` at `(r, c)` changes neither `interiorZeroCounter` nor
`invalidCharCounter`. -/
def LocalOK (g : Game) (r c : Int) (x : Char) : Prop :=
  ((0 < r ∧ r < g.rows - 1 ∧ c ≠ 0 ∧ c ≠ 2 * g.columns - 2) →
    x ≠ '0' ∧ invalidAt c x = false) ∧
  ((((r = 0 ∨ r = g.rows - 1) ∧ 2 ≤ c ∧ c ≤ 2 * g.columns - 3) ∨
      (0 < r ∧ r < g.rows - 1 ∧ (c = 0 ∨ c = 2 * g.columns - 2))) →
    x = '0' ∨ invalidAt c x = false)

/-- Character `x` at `(r, c)` is a blank if the position is in a corner and
`0` if it is the weight position of a non-corner border cell. -/
def BorderOK (g : Game) (r c : Int) (x : Char) : Prop :=
  (((r = 0 ∨ r = g.rows - 1) ∧ (c < 2 ∨ 2 * g.columns - 2 ≤ c)) → x = ' ') ∧
  ((((r = 0 ∨ r = g.rows - 1) ∧ 2 ≤ c ∧ c ≤ 2 * g.columns - 3 ∧ c % 2 = 0) ∨
      (0 < r ∧ r < g.rows - 1 ∧ (c = 0 ∨ c = 2 * g.columns - 2))) → x = '0')

/-- A game record holding a loaded board, with `O` to move. -/
def loaded (rows columns : Int) (board : List String) : Game :=
  { rows := rows, columns := columns, currentPlayer := 'O', playerTypeO := 'H',
    playerTypeX := 'H', rowMove := 0, columnMove := 0,
    board := board.map String.toList }

/-! ## Board predicates used by the statements -/

/-- The occupancy marker of logical cell `(r, j)`. -/
def occ (b : List (List Char)) (r j : Int) : Option Char := readCell b r (2 * j + 1)

/-- The weight character of logical cell `(r, j)`. -/
def weight (b : List (List Char)) (r j : Int) : Option Char := readCell b r (2 * j)

/-- Logical cell `(r, j)` is one of the four corners. -/
def IsCorner (g : Game) (r j : Int) : Prop :=
  (r = 0 ∨ r = g.rows - 1) ∧ (j = 0 ∨ j = g.columns - 1)

/-- Logical cell `(r, j)` is strictly inside the border. -/
def IsInterior (g : Game) (r j : Int) : Prop :=
  0 < r ∧ r < g.rows - 1 ∧ 0 < j ∧ j < g.columns - 1

instance (g : Game) (r j : Int) : Decidable (IsCorner g r j) := by
  unfold IsCorner; infer_instance

instance (g : Game) (r j : Int) : Decidable (IsInterior g r j) := by
  unfold IsInterior; infer_instance

/-- The board holds exactly `rows` rows of exactly `2 * columns` characters. -/
def Shaped (g : Game) : Prop :=
  (g.board.length : Int) = g.rows ∧ ∀ row ∈ g.board, (row.length : Int) = 2 * g.columns

/-- A board of the data model: at least 3 by 3, corners two blanks, every other
cell a weight digit followed by an occupancy marker `.`, `O` or `X`. -/
def PlayBoard (g : Game) : Prop :=
  3 ≤ g.rows ∧ 3 ≤ g.columns ∧ Shaped g ∧
  ∀ r : Int, 0 ≤ r → r < g.rows → ∀ j : Int, 0 ≤ j → j < g.columns →
    if IsCorner g r j then weight g.board r j = some ' ' ∧ occ g.board r j = some ' '
    else (∃ w, weight g.board r j = some w ∧ w.isDigit = true) ∧
      (occ g.board r j = some '.' ∨ occ g.board r j = some 'O' ∨
        occ g.board r j = some 'X')

/-- A well-formed board: at least 3 by 3, corners two blanks, every border cell
`0.`, every interior cell a weight `1`-`9` followed by `.`, `O` or `X`. -/
def WellFormed (g : Game) : Prop :=
  3 ≤ g.rows ∧ 3 ≤ g.columns ∧ Shaped g ∧
  ∀ r : Int, 0 ≤ r → r < g.rows → ∀ j : Int, 0 ≤ j → j < g.columns →
    if IsCorner g r j then weight g.board r j = some ' ' ∧ occ g.board r j = some ' '
    else if IsInterior g r j then
      (∃ w, weight g.board r j = some w ∧ '1' ≤ w ∧ w ≤ '9') ∧
      (occ g.board r j = some '.' ∨ occ g.board r j = some 'O' ∨
        occ g.board r j = some 'X')
    else weight g.board r j = some '0' ∧ occ g.board r j = some '.'

/-- Every interior cell holds a weight `1`-`9` and an occupancy `.`, `O` or `X`. -/
def InteriorValid (g : Game) : Prop :=
  ∀ r j : Int, IsInterior g r j →
    (∃ w, weight g.board r j = some w ∧ '1' ≤ w ∧ w ≤ '9') ∧
    (occ g.board r j = some '.' ∨ occ g.board r j = some 'O' ∨ occ g.board r j = some 'X')

/-- The current player is one of the two players. -/
def ValidPlayer (g : Game) : Prop := g.currentPlayer = 'O' ∨ g.currentPlayer = 'X'

/-- The move names a border cell that is not a corner. -/
def OnBorder (g : Game) : Prop :=
  ((g.rowMove = 0 ∨ g.rowMove = g.rows - 1) ∧ 0 < g.columnMove ∧
      g.columnMove < g.columns - 1) ∨
  ((g.columnMove = 0 ∨ g.columnMove = g.columns - 1) ∧ 0 < g.rowMove ∧
      g.rowMove < g.rows - 1)

instance (g : Game) : Decidable (Shaped g) := by
  unfold Shaped; infer_instance

instance (g : Game) : Decidable (PlayBoard g) := by
  unfold PlayBoard; infer_instance

instance (g : Game) : Decidable (WellFormed g) := by
  unfold WellFormed; infer_instance

instance (g : Game) : Decidable (ValidPlayer g) := by
  unfold ValidPlayer; infer_instance

instance (g : Game) : Decidable (OnBorder g) := by
  unfold OnBorder; infer_instance

/-- Number of slots of the line the move targets: `rows` for a column (move on
the top or bottom edge), `columns` for a row. -/
def lineLen (g : Game) : Int :=
  if g.rowMove = 0 ∨ g.rowMove = g.rows - 1 then g.rows else g.columns

/-- Logical cell at distance `i` from the triggering edge along the targeted
line: slot `0` is the border cell the move names, slot `1` the interior cell
next to it, slot `lineLen - 1` the border cell at the opposite end. -/
def slot (g : Game) (i : Int) : Int × Int :=
  if g.rowMove = g.rows - 1 then (g.rows - 1 - i, g.columnMove)
  else if g.rowMove = 0 then (i, g.columnMove)
  else if g.columnMove = g.columns - 1 then (g.rowMove, g.columns - 1 - i)
  else (g.rowMove, i)

/-- Character position of the occupancy marker of slot `i` of the targeted line. -/
def slotIndex (g : Game) (i : Int) : Int × Int := ((slot g i).1, 2 * (slot g i).2 + 1)

/-- Board `b1` is board `g.board` after a push whose first empty slot is `k`:
slot `1` holds the mover, every slot `2..k` holds what the slot one step nearer
the triggering edge held, and every other character of the board is unchanged. -/
def PushedTo (g : Game) (k : Int) (b1 : List (List Char)) : Prop :=
  readCell b1 (slotIndex g 1).1 (slotIndex g 1).2 = some g.currentPlayer ∧
  (∀ i : Int, 2 ≤ i → i ≤ k →
    readCell b1 (slotIndex g i).1 (slotIndex g i).2 =
      readCell g.board (slotIndex g (i - 1)).1 (slotIndex g (i - 1)).2) ∧
  (∀ r c : Int, (∀ i : Int, 1 ≤ i → i ≤ k → slotIndex g i ≠ (r, c)) →
    readCell b1 r c = readCell g.board r c)

/-- One for a stone marker, zero for any other character. -/
def stoneOf (ch : Char) : Nat := if ch = 'O' ∨ ch = 'X' then 1 else 0

/-- Number of cells of one row whose occupancy marker is `O` or `X`. -/
def rowStones : List Char → Nat
  | _ :: o :: rest => stoneOf o + rowStones rest
  | _ => 0

/-- Total number of stones on the board: the cells, border included, whose
occupancy marker is `O` or `X`. -/
def stoneCount (b : List (List Char)) : Nat := (b.map rowStones).sum

/-- What a push function does on the targeted line: either no slot from two
steps in up to the opposite border is empty and the game is returned as it
was, or the first empty such slot `k` exists and the line is pushed up to it
with the player swapped. -/
def PushOutcome (g : Game) (res : Option Game) : Prop :=
  ((∀ i : Int, 2 ≤ i → i ≤ lineLen g - 1 →
      readCell g.board (slotIndex g i).1 (slotIndex g i).2 ≠ some '.') ∧ res = some g) ∨
  (∃ k : Int, 2 ≤ k ∧ k ≤ lineLen g - 1 ∧
    readCell g.board (slotIndex g k).1 (slotIndex g k).2 = some '.' ∧
    (∀ i : Int, 2 ≤ i → i < k →
      readCell g.board (slotIndex g i).1 (slotIndex g i).2 ≠ some '.') ∧
    ∃ b2, res = some { g with board := b2, currentPlayer := otherPlayer g.currentPlayer } ∧
      PushedTo g k b2 ∧ stoneCount b2 = stoneCount g.board + stoneOf g.currentPlayer ∧
      b2.map List.length = g.board.map List.length)

/-- The game with the candidate move `(r, c)` stored in it, as `human_move` and
the automated strategies leave it for `play_move`. -/
def withMove (g : Game) (r c : Int) : Game := { g with rowMove := r, columnMove := c }

/-- Lines with a stone on a border end are full: whenever a non-corner border
cell is occupied, every interior cell of the line ending at it is occupied. -/
def BorderInv (g : Game) : Prop :=
  ∀ rb jb ri ji : Int, 0 ≤ rb → rb < g.rows → 0 ≤ jb → jb < g.columns →
    ¬ IsCorner g rb jb → ¬ IsInterior g rb jb → IsInterior g ri ji →
    (((rb = 0 ∨ rb = g.rows - 1) ∧ ji = jb) ∨ ((jb = 0 ∨ jb = g.columns - 1) ∧ ri = rb)) →
    occ g.board rb jb ≠ some '.' → occ g.board ri ji ≠ some '.'

/-- The invariant of play: a board of the data model, a valid player, and full
lines behind every occupied border cell. -/
def GameInv (g : Game) : Prop := PlayBoard g ∧ ValidPlayer g ∧ BorderInv g

/-- The states reachable in play: a well-formed board with a valid current
player, and every state `play_move` returns from a reachable state for any
candidate move and any pair of parse strings. -/
inductive Reachable : Game → Prop where
  | start (g : Game) : WellFormed g → ValidPlayer g → Reachable g
  | move (g g2 : Game) (re ce : String) (r c : Int) :
      Reachable g → play_move re ce (withMove g r c) = some g2 → Reachable g2

/-- A 3 by 3 board file with a stone on the top border cell. -/
def borderStoneGame : Game := loaded 3 3 ["  0X  ", "0.5.0.", "  0.  "]

/-- A 3 by 3 board file whose top-left corner holds `X` and whose top border
cell is written `00`. -/
def cornerGame : Game := loaded 3 3 ["X 00  ", "0.5.0.", "  0.  "]

/-- A well-formed 3 by 3 game whose only interior cell holds a stone. -/
def smallGame : Game := loaded 3 3 ["  0.  ", "0.5X0.", "  0.  "]

/-- The state `play_move` returns from `smallGame` for the move `(0, 1)`: the
stone has been pushed onto the bottom border cell. -/
def pushedGame : Game :=
  { rows := 3, columns := 3, currentPlayer := 'X', playerTypeO := 'H', playerTypeX := 'H',
    rowMove := 0, columnMove := 1,
    board := ["  0.  ".toList, "0.5O0.".toList, "  0X  ".toList] }

/-- A small well-formed game used to instantiate the statements:
4 rows, 5 columns, O to move. -/
def sampleGame : Game :=
  { rows := 4, columns := 5, currentPlayer := 'O', playerTypeO := 'H', playerTypeX := 'H',
    rowMove := 0, columnMove := 0,
    board := ["  0.0.0.  ".toList, "0.1X2.3O0.".toList, "0.4X5O6.0.".toList,
      "  0.0.0.  ".toList] }

/-- The sample game with the move `(r, c)` recorded in it. -/
def sampleMove (r c : Int) : Game := { sampleGame with rowMove := r, columnMove := c }

/-! ## Automated moves of type 0 and the full-board test -/

/-- Modelled from the spec: macro `COLUMN_MOVE` of the absent header, the logical
column of the occupancy index `c` held by the loop variable of the function that
uses it (`type_one_highest_cell` spells the same column `maxColumn / 2` from the
weight index). -/
def COLUMN_MOVE (c : Int) : Int := (c - 1) / 2

/-- Modelled from the spec: macro `SCORE_COLUMN_OF_LAST_INTERIOR_CELL` of the
absent header, the weight index of the last interior column. -/
def SCORE_COLUMN_OF_LAST_INTERIOR_CELL (g : Game) : Int := 2 * g.columns - 4

/-- The variables a move source leaves for `play_game`: the `move` string, the
two `strtol` remainders, and the game with `rowMove` and `columnMove` set. -/
structure Turn where
  move : String
  rowMoveErrors : String
  columnMoveErrors : String
  game : Game
  deriving DecidableEq, Repr

/-- The assignments every automated move ends with: `*move = "automated"`,
`rowMove` and `columnMove`, and both error strings set to the empty string. -/
def automated (g : Game) (r c : Int) : Turn :=
  { move := "automated", rowMoveErrors := "", columnMoveErrors := "", game := withMove g r c }

/-- Two nested search loops with `return` at the first empty cell: the outer
`for (r = start; ...; r += step)` runs the inner search `rowScan r`; `some (some
(r, c))` is the return at `(r, c)`, `some none` both loops running to their end. -/
def scanRows (rowScan : Int → Option (Option Int)) (step : Int) :
    Int → Nat → Option (Option (Int × Int))
  | _, 0 => some none
  | r, n + 1 =>
    match rowScan r with
    | none => none
    | some (some c) => some (some (r, c))
    | some none => scanRows rowScan step (r + step) n

/-- Function `type_zero_move`.  For player `O` of type `0`: `for (r = 1; r < rows
- 1; r++) for (c = 3; c < SCORE_COLUMN_OF_LAST_CELL; c++)`; for player `X` of
type `0`: `for (r = rows - 2; r > 0; r--) for (c = LAST_INTERIOR_CELL_COLUMN;
c > 2; c--)`.  `some none` is the function returning without assigning a move. -/
def type_zero_move (g : Game) : Option (Option Turn) :=
  if g.currentPlayer = 'O' ∧ g.playerTypeO = '0' then
    match scanRows (fun r => scanLine (fun c => readCell g.board r c) 1 3
        (SCORE_COLUMN_OF_LAST_CELL g - 3).toNat) 1 1 (g.rows - 2).toNat with
    | none => none
    | some none => some none
    | some (some (r, c)) => some (some (automated g r (COLUMN_MOVE c)))
  else if g.currentPlayer = 'X' ∧ g.playerTypeX = '0' then
    match scanRows (fun r => scanLine (fun c => readCell g.board r c) (-1)
        (LAST_INTERIOR_CELL_COLUMN g) (LAST_INTERIOR_CELL_COLUMN g - 2).toNat)
        (-1) (g.rows - 2) (g.rows - 2).toNat with
    | none => none
    | some none => some none
    | some (some (r, c)) => some (some (automated g r (COLUMN_MOVE c)))
  else some none

/-- Function `check_board_full`: `EXIT_NORMAL` at the first `.` met by `for (r =
1; r < rows - 1; r++) for (c = 3; c < SCORE_COLUMN_OF_LAST_CELL; c++)`,
`EXIT_FULL_BOARD` when there is none. -/
def check_board_full (g : Game) : Option ExitCodes :=
  match scanRows (fun r => scanLine (fun c => readCell g.board r c) 1 3
      (SCORE_COLUMN_OF_LAST_CELL g - 3).toNat) 1 1 (g.rows - 2).toNat with
  | none => none
  | some none => some ExitCodes.EXIT_FULL_BOARD
  | some (some _) => some ExitCodes.EXIT_NORMAL

/-- The part of `main` between loading the board and `play_game`: the status of
`file_contents_error_handler` if it is not the normal one, else
`EXIT_FULL_BOARD` if `check_board_full` reports a full board, else the normal
status with which play starts. -/
def load_status (g : Game) (rowErrors columnErrors : String) : Option ExitCodes :=
  match file_contents_error_handler g rowErrors columnErrors ExitCodes.EXIT_NORMAL with
  | none => none
  | some ExitCodes.EXIT_NORMAL =>
    (match check_board_full g with
    | none => none
    | some ExitCodes.EXIT_NORMAL => some ExitCodes.EXIT_NORMAL
    | some _ => some ExitCodes.EXIT_FULL_BOARD)
  | some st => some st

/-- The sample game with both players of kind `t` and `p` to move. -/
def autoGame (t p : Char) : Game :=
  { sampleGame with playerTypeO := t, playerTypeX := t, currentPlayer := p }

/-- A well-formed 3 by 4 game with no Empty interior cell. -/
def fullGame : Game := loaded 3 4 ["  0.0.  ", "0.5X3O0.", "  0.0.  "]

/-! ## Scores and the outcome -/

/-- The C library test `isspace` in the C locale. -/
def isspace (ch : Char) : Bool :=
  ch = ' ' || ch = '\t' || ch = '\n' || ch = '\x0b' || ch = '\x0c' || ch = '\r'

/-- The value of a decimal digit character. -/
def digitValue (ch : Char) : Int := (ch.toNat : Int) - 48

/-- The digit loop of `atoi` and `strtol`: the value of the leading run of
decimal digits of `s`, continued from `acc`. -/
def digitsValue : List Char → Int → Int
  | [], acc => acc
  | ch :: rest, acc =>
    if ch.isDigit = true then digitsValue rest (acc * 10 + digitValue ch) else acc

/-- The C library function `atoi` on the characters from a position up to the
terminating NUL: leading white space, an optional sign, then decimal digits. -/
def atoi (s : List Char) : Int :=
  match s.dropWhile isspace with
  | '-' :: rest => - digitsValue rest 0
  | '+' :: rest => digitsValue rest 0
  | s1 => digitsValue s1 0

/-- The C expression `atoi(&game->board[r][c])`: `none` when the pointer is
outside the row (the position of the terminating NUL is inside). -/
def atoiAt (b : List (List Char)) (r c : Int) : Option Int :=
  if r < 0 ∨ c < 0 then none
  else
    match b[r.toNat]? with
    | none => none
    | some row => if c.toNat ≤ row.length then some (atoi (row.drop c.toNat)) else none

/-- The loop body of `current_score_calc` at character `(r, c)`; the state is
the pair `(*scoreO, *scoreX)`. -/
def scoreStep (g : Game) (r c : Int) (s : Int × Int) : Option (Int × Int) :=
  match readCell g.board r c with
  | none => none
  | some ch =>
    if ch = 'O' then
      match atoiAt g.board r (c - 1) with
      | none => none
      | some v => some (s.1 + v, s.2)
    else if ch = 'X' then
      match atoiAt g.board r (c - 1) with
      | none => none
      | some v => some (s.1, s.2 + v)
    else some s

/-- Function `current_score_calc`: `for (r = 0; r < rows; r++) for (c = 0; c <
columns * 2; c++)` from `(0, 0)`; the result is `(*scoreO, *scoreX)`. -/
def current_score_calc (g : Game) : Option (Int × Int) :=
  forUpTo (fun r s => forUpTo (fun c s1 => scoreStep g r c s1) (2 * g.columns).toNat 0 s)
    g.rows.toNat 0 (0, 0)

/-- The sum `f 0 + f 1 + ... + f (n - 1)`. -/
def sumUpTo (f : Int → Int) : Nat → Int
  | 0 => 0
  | n + 1 => sumUpTo f n + f n

/-- The test `board[a] != '.' || board[b] == '.' || board[c] != '.'` that makes
the line loops of the type 1 player `continue`, with the short-circuit order of
the reads. -/
def pushGuard (g : Game) (a b c : Int × Int) : Option Bool :=
  match readCell g.board a.1 a.2 with
  | none => none
  | some x =>
    if x ≠ '.' then some true
    else
      match readCell g.board b.1 b.2 with
      | none => none
      | some y =>
        if y = '.' then some true
        else
          match readCell g.board c.1 c.2 with
          | none => none
          | some z => some (decide (z ≠ '.'))

/-- The inner loop of the four `type_one_push_*` functions over the loop
variable `i`: `cellAt i` is the occupancy position tested, `colAt i` and `pushAt
i` the two positions passed to `atoi`; the state is `(scoreCol, scorePush)`. -/
def walkLine (g : Game) (opponent : Char) (cellAt colAt pushAt : Int → Int × Int)
    (step : Int) : Nat → Int → Int × Int → Option (Int × Int)
  | 0, _, s => some s
  | n + 1, i, s =>
    match readCell g.board (cellAt i).1 (cellAt i).2 with
    | none => none
    | some ch =>
      if ch = opponent then
        match atoiAt g.board (colAt i).1 (colAt i).2 with
        | none => none
        | some a =>
          match atoiAt g.board (pushAt i).1 (pushAt i).2 with
          | none => none
          | some p => walkLine g opponent cellAt colAt pushAt step n (i + step) (s.1 + a, s.2 + p)
      else if ch = '.' then some s
      else walkLine g opponent cellAt colAt pushAt step n (i + step) s

/-- One iteration of the line loop of a `type_one_push_*` function: `some true`
when the body reaches `return 1`, that is the guard does not `continue` and
after the walk `scorePush < scoreCol`. -/
def lineAdvantage (g : Game) (opponent : Char) (a b c : Int × Int)
    (cellAt colAt pushAt : Int → Int × Int) (step : Int) (n : Nat) (start : Int) :
    Option Bool :=
  match pushGuard g a b c with
  | none => none
  | some true => some false
  | some false =>
    match walkLine g opponent cellAt colAt pushAt step n start (0, 0) with
    | none => none
    | some s => some (decide (s.2 < s.1))

/-- A line loop with `return 1` at the first line whose body succeeds: `some
(some i)` is that value of the loop variable, `some none` is `return 0`. -/
def firstLine (adv : Int → Option Bool) (step : Int) : Nat → Int → Option (Option Int)
  | 0, _ => some none
  | n + 1, i =>
    match adv i with
    | none => none
    | some true => some (some i)
    | some false => firstLine adv step n (i + step)

/-- The loop body of `type_one_push_down` at character column `c`; the walk is
`for (r = 0; r < rows - 2; r++)`. -/
def downAdvantage (g : Game) (opponent : Char) (c : Int) : Option Bool :=
  lineAdvantage g opponent (0, c) (1, c) (g.rows - 1, c)
    (fun r => (r + 1, c)) (fun r => (r + 1, c - 1)) (fun r => (r + 2, c - 1))
    1 (g.rows - 2).toNat 0

/-- The loop body of `type_one_push_left` at row `r`; the walk is `for (c =
LAST_CELL_COLUMN; c > 4; c -= 2)`. -/
def leftAdvantage (g : Game) (opponent : Char) (r : Int) : Option Bool :=
  lineAdvantage g opponent (r, LAST_CELL_COLUMN g) (r, LAST_INTERIOR_CELL_COLUMN g) (r, 1)
    (fun c => (r, c - 2)) (fun c => (r, c - 3)) (fun c => (r, c - 5))
    (-2) ((LAST_CELL_COLUMN g - 3) / 2).toNat (LAST_CELL_COLUMN g)

/-- The loop body of `type_one_push_up` at character column `c`; the walk is
`for (r = rows - 1; r > 1; r--)`. -/
def upAdvantage (g : Game) (opponent : Char) (c : Int) : Option Bool :=
  lineAdvantage g opponent (g.rows - 1, c) (g.rows - 2, c) (0, c)
    (fun r => (r - 1, c)) (fun r => (r - 1, c - 1)) (fun r => (r - 2, c - 1))
    (-1) (g.rows - 2).toNat (g.rows - 1)

/-- The loop body of `type_one_push_right` at row `r`; the walk is `for (c = 1;
c < SCORE_COLUMN_OF_LAST_INTERIOR_CELL; c += 2)`. -/
def rightAdvantage (g : Game) (opponent : Char) (r : Int) : Option Bool :=
  lineAdvantage g opponent (r, 1) (r, 3) (r, LAST_CELL_COLUMN g)
    (fun c => (r, c + 2)) (fun c => (r, c + 1)) (fun c => (r, c + 3))
    2 (SCORE_COLUMN_OF_LAST_INTERIOR_CELL g / 2).toNat 1

/-- Function `type_one_push_down`: `for (c = 3; c < SCORE_COLUMN_OF_LAST_CELL; c
+= 2)`; `some (some t)` is `return 1` with the move set, `some none` is `return
0`. -/
def type_one_push_down (g : Game) (opponent : Char) : Option (Option Turn) :=
  match firstLine (downAdvantage g opponent) 2 ((SCORE_COLUMN_OF_LAST_CELL g - 2) / 2).toNat 3 with
  | none => none
  | some none => some none
  | some (some c) => some (some (automated g 0 (COLUMN_MOVE c)))

/-- Function `type_one_push_left`: `for (r = 1; r < rows - 1; r++)`. -/
def type_one_push_left (g : Game) (opponent : Char) : Option (Option Turn) :=
  match firstLine (leftAdvantage g opponent) 1 (g.rows - 2).toNat 1 with
  | none => none
  | some none => some none
  | some (some r) => some (some (automated g r (g.columns - 1)))

/-- Function `type_one_push_up`: `for (c = LAST_INTERIOR_CELL_COLUMN; c > 2; c
-= 2)`. -/
def type_one_push_up (g : Game) (opponent : Char) : Option (Option Turn) :=
  match firstLine (upAdvantage g opponent) (-2) ((LAST_INTERIOR_CELL_COLUMN g - 1) / 2).toNat
      (LAST_INTERIOR_CELL_COLUMN g) with
  | none => none
  | some none => some none
  | some (some c) => some (some (automated g (g.rows - 1) (COLUMN_MOVE c)))

/-- Function `type_one_push_right`: `for (r = rows - 2; r > 0; r--)`. -/
def type_one_push_right (g : Game) (opponent : Char) : Option (Option Turn) :=
  match firstLine (rightAdvantage g opponent) (-1) (g.rows - 2).toNat (g.rows - 2) with
  | none => none
  | some none => some none
  | some (some r) => some (some (automated g r 0))


/-- A counted loop whose body may `return`: `Sum.inl s` continues with state
`s`, `Sum.inr v` leaves the enclosing function with `v`. -/
def loopRet {σ ρ : Type} (body : Int → σ → Option (σ ⊕ ρ)) (step : Int) :
    Nat → Int → σ → Option (σ ⊕ ρ)
  | 0, _, s => some (Sum.inl s)
  | n + 1, i, s =>
    match body i s with
    | none => none
    | some (Sum.inr v) => some (Sum.inr v)
    | some (Sum.inl s1) => loopRet body step n (i + step) s1

/-- The body of the first loop nest of `type_one_highest_cell` at `(r, c)`. The
state is `maxScore` with `(maxRow, maxColumn)`, the latter `none` while the two
locals are still uninitialised; a `return` carries `(rowMove, columnMove)`. -/
def highestStep (g : Game) (tied : Bool) (r c : Int) (s : Int × Option (Int × Int)) :
    Option ((Int × Option (Int × Int)) ⊕ (Int × Int)) :=
  match readCell g.board r (c + 1) with
  | none => none
  | some ch =>
    if ch = '.' then
      match atoiAt g.board r c with
      | none => none
      | some v =>
        if s.1 < v then
          if tied = true then some (Sum.inr (r, c / 2)) else some (Sum.inl (v, some (r, c)))
        else some (Sum.inl s)
    else some (Sum.inl s)

/-- The body of the second loop nest of `type_one_highest_cell` at `(r, c)`. -/
def firstEmptyStep (g : Game) (r c : Int) (s : Unit) : Option (Unit ⊕ (Int × Int)) :=
  match readCell g.board r (c + 1) with
  | none => none
  | some ch => if ch = '.' then some (Sum.inr (r, c / 2)) else some (Sum.inl s)

/-- The loop nest `for (r = 1; r < rows - 1; r++) for (c = 2; c <
SCORE_COLUMN_OF_LAST_CELL; c += 2)` of `type_one_highest_cell`. -/
def interiorLoop {σ : Type} (g : Game) (body : Int → Int → σ → Option (σ ⊕ (Int × Int)))
    (s : σ) : Option (σ ⊕ (Int × Int)) :=
  loopRet (fun r s1 => loopRet (body r) 2 ((SCORE_COLUMN_OF_LAST_CELL g - 1) / 2).toNat 2 s1)
    1 (g.rows - 2).toNat 1 s

/-- Function `type_one_highest_cell`. The result is `none` when the last block
reads `maxRow` and `maxColumn` without either having been assigned. -/
def type_one_highest_cell (g : Game) : Option Turn :=
  match current_score_calc g with
  | none => none
  | some (currentScoreO, currentScoreX) =>
    match readCell g.board 1 3 with
    | none => none
    | some ch =>
      match (if ch = '.' then atoiAt g.board 1 2 else some 0) with
      | none => none
      | some maxScore =>
        match interiorLoop g (highestStep g (decide (currentScoreO = currentScoreX)))
            (maxScore, none) with
        | none => none
        | some (Sum.inr (r, j)) => some (automated g r j)
        | some (Sum.inl (_, maxPos)) =>
          match (if currentScoreO = currentScoreX then interiorLoop g (firstEmptyStep g) ()
              else some (Sum.inl ())) with
          | none => none
          | some (Sum.inr (r, j)) => some (automated g r j)
          | some (Sum.inl _) =>
            match maxPos with
            | none => none
            | some (maxRow, maxColumn) => some (automated g maxRow (maxColumn / 2))

/-- Function `type_one_move`: the four push searches in order, then the
placement search. -/
def type_one_move (g : Game) (opponent : Char) : Option Turn :=
  match type_one_push_down g opponent with
  | none => none
  | some (some t) => some t
  | some none =>
    match type_one_push_left g opponent with
    | none => none
    | some (some t) => some t
    | some none =>
      match type_one_push_up g opponent with
      | none => none
      | some (some t) => some t
      | some none =>
        match type_one_push_right g opponent with
        | none => none
        | some (some t) => some t
        | some none => type_one_highest_cell g

/-- A well-formed 4 by 4 game, `O` to move after `X` has placed one stone: no
push is advantageous and the scores differ. -/
def greedyGame : Game :=
  loaded 4 4 ["  0.0.  ", "0.9.1X0.", "0.2.3.0.", "  0.0.  "]

/-- A well-formed 4 by 5 game, `O` to move, where pushing the `X` stones down
lowers the score of `X` by 1 in column 1 and by 9 in column 3, and pushes left,
up and right lower it as well. -/
def pushChoiceGame : Game :=
  loaded 4 5 ["  0.0.0.  ", "0.2X1.9X0.", "0.1.1X5X0.", "  0.0.0.  "]


/-- Some logical column offers an advantageous push-down: the loop body of
`type_one_push_down` succeeds on it. -/
def DownOffers (g : Game) (opponent : Char) : Prop :=
  ∃ j : Int, 1 ≤ j ∧ j < g.columns - 1 ∧ downAdvantage g opponent (2 * j + 1) = some true

/-- Some row offers an advantageous push-left. -/
def LeftOffers (g : Game) (opponent : Char) : Prop :=
  ∃ r : Int, 1 ≤ r ∧ r < g.rows - 1 ∧ leftAdvantage g opponent r = some true

/-- Some logical column offers an advantageous push-up. -/
def UpOffers (g : Game) (opponent : Char) : Prop :=
  ∃ j : Int, 1 ≤ j ∧ j < g.columns - 1 ∧ upAdvantage g opponent (2 * j + 1) = some true

/-- Some row offers an advantageous push-right. -/
def RightOffers (g : Game) (opponent : Char) : Prop :=
  ∃ r : Int, 1 ≤ r ∧ r < g.rows - 1 ∧ rightAdvantage g opponent r = some true


/-! ## Text input: lines, tokens and numbers -/

/-- The largest value of the C type `long` on the 64-bit target. -/
def LONG_MAX : Int := 2 ^ 63 - 1

/-- The smallest value of the C type `long` on the 64-bit target. -/
def LONG_MIN : Int := -(2 ^ 63)

/-- The C library function `strtol(s, &end, 10)`: the value, clamped to the
range of `long`, and the text `end` points at. Leading white space and one
sign are skipped; without a digit the value is 0 and `end` is `s`. -/
def strtol (s : List Char) : Int × List Char :=
  let s1 := s.dropWhile isspace
  let s2 :=
    match s1 with
    | '-' :: r => r
    | '+' :: r => r
    | _ => s1
  if s2.head?.map Char.isDigit = some true then
    let v := if s1.head? = some '-' then - digitsValue s2 0 else digitsValue s2 0
    (max LONG_MIN (min LONG_MAX v), s2.dropWhile Char.isDigit)
  else (0, s)

/-- The C library function `strtok` with the delimiter `" "` on the text it is
given or has saved: the next token and the text saved for the next call, `none`
being the NULL result. -/
def strtok (s : List Char) : Option (List Char × List Char) :=
  match s.dropWhile (fun ch => ch = ' ') with
  | [] => none
  | s1 => some (s1.takeWhile (fun ch => ch ≠ ' '), (s1.dropWhile (fun ch => ch ≠ ' ')).drop 1)

/-- Function `space_counter`: the number of blanks in the string. -/
def space_counter (input : List Char) : Int := (input.count ' ' : Nat)

/-- The loop of `read_line` from `position = result.length`: `acc` is the
buffer so far, latest character first. -/
def readLineLoop (size : Nat) (eofFlag : Bool) :
    List Char → List Char → Option (List Char × List Char × Bool)
  | [], acc =>
    if acc.length = 0 then some ("test_EOF".toList, [], eofFlag)
    else some (acc.reverse, [], true)
  | next :: rest, acc =>
    if next = '\n' then some (acc.reverse, rest, eofFlag)
    else if acc.length < size then readLineLoop size eofFlag rest (next :: acc)
    else none

/-- Function `read_line` on the unread characters of a file: the line without
its newline, the characters left unread and the end-of-file flag. The result is
`none` when a character is stored past the `size` bytes of the buffer, and the
sentinel text `test_EOF` when the file ends before any character. -/
def read_line (file : List Char) (size : Nat) (eofFlag : Bool) :
    Option (List Char × List Char × Bool) :=
  readLineLoop size eofFlag file []

/-! ## Human moves and saving -/

/-- The output of `%ld` for a non-negative value. -/
def natText (n : Nat) : List Char :=
  if n = 0 then ['0'] else (Nat.digits 10 n).reverse.map (fun d => Char.ofNat (48 + d))

/-- The output of the C format `%ld`. -/
def printLong (n : Int) : List Char :=
  if n < 0 then '-' :: natText (-n).toNat else natText n.toNat

/-- The loop `for (r = 0; r < rows; r++) fprintf(saveFile, "%s\n", board[r])`
of `save_game`, from row `r` for `n` more rows. -/
def saveRows (b : List (List Char)) : Nat → Int → Option (List Char)
  | 0, _ => some []
  | n + 1, r =>
    if r < 0 then none
    else
      match b[r.toNat]? with
      | none => none
      | some row =>
        match saveRows b n (r + 1) with
        | none => none
        | some text => some (row ++ '\n' :: text)

/-- The text `save_game` writes to the save file: the line `rows columns`, the
current player, then every board row. -/
def saveText (g : Game) : Option (List Char) :=
  match saveRows g.board g.rows.toNat 0 with
  | none => none
  | some text =>
    some (printLong g.rows ++ ' ' :: printLong g.columns ++ '\n' :: g.currentPlayer :: '\n' ::
      text)

/-- Function `save_game`. The flag `opened` says whether `fopen` succeeds; the
result is the turn handed to `play_move` and the text written, if any. -/
def save_game (move : List Char) (g : Game) (opened : Bool) :
    Option (Turn × Option (List Char)) :=
  let t : Turn :=
    { move := String.mk move, rowMoveErrors := "", columnMoveErrors := "",
      game := withMove g 0 0 }
  if move.length > 1 then
    if opened = true then
      match saveText t.game with
      | none => none
      | some text => some (t, some text)
    else some (t, none)
  else some (t, none)

/-- Function `human_move` on the line read from the user. The result is `none`
when `strtol` is handed the NULL result of `strtok`. -/
def human_move (move : List Char) (g : Game) (opened : Bool) :
    Option (Turn × Option (List Char)) :=
  if move = [] ∨ (move.head? ≠ some 's' ∧
      (move.head? = some ' ' ∨ ¬ (move.getLast?.map Char.isDigit = some true) ∨
        move.head? = some '\t' ∨ space_counter move ≠ 1)) then
    some ({ move := String.mk move,
            rowMoveErrors := if move = "automated".toList then "automatedHuman" else "",
            columnMoveErrors := "", game := withMove g (-1) (-1) }, none)
  else if move.head? ≠ some 's' then
    match strtok move with
    | none => none
    | some (rowToken, saved) =>
      match strtok saved with
      | none => none
      | some (columnToken, _) =>
        some ({ move := String.mk move, rowMoveErrors := String.mk (strtol rowToken).2,
                columnMoveErrors := String.mk (strtol columnToken).2,
                game := withMove g (strtol rowToken).1 (strtol columnToken).1 }, none)
  else save_game move g opened


/-! ## Loading a saved game -/

/-- The variables of `main` that the loader fills in: the game, the unread
part of the game file, the two `strtol` end strings (`none` while the pointer is
still NULL) and the end-of-file flag. -/
structure LoadState where
  game : Game
  file : List Char
  rowErrors : Option String
  columnErrors : Option String
  eofFlag : Bool
  deriving DecidableEq, Repr

/-- Function `file_setup` on an opened game file, from `rowErrors =
columnErrors = 0` and `eofFlag = 0`. The result is `none` when `read_line`
overruns its buffer or `strtol` is handed the NULL result of `strtok`. -/
def file_setup (file : List Char) (g : Game) : Option LoadState :=
  match read_line file 81 false with
  | none => none
  | some (rowsAndColumns, file1, eof1) =>
    if space_counter rowsAndColumns ≠ 1 then
      some { game := { g with rows := 1, columns := 1 }, file := file1, rowErrors := none,
             columnErrors := none, eofFlag := eof1 }
    else if eof1 = false ∧ rowsAndColumns ≠ "test_EOF".toList then
      match strtok rowsAndColumns with
      | none => none
      | some (rowToken, saved) =>
        match read_line file1 1 eof1 with
        | none => none
        | some (currentPlayerRead, file2, eof2) =>
          some
            { game :=
                { g with
                  rows := (strtol rowToken).1
                  columns :=
                    match strtok saved with
                    | some (columnsVerify, _) => (strtol columnsVerify).1
                    | none => 1
                  currentPlayer :=
                    match currentPlayerRead with
                    | [ch] => ch
                    | _ => 'f' }
              file := file2
              rowErrors := some (String.mk (strtol rowToken).2)
              columnErrors :=
                match strtok saved with
                | some (columnsVerify, _) => some (String.mk (strtol columnsVerify).2)
                | none => none
              eofFlag := eof2 }
    else
      some { game := g, file := file1, rowErrors := none, columnErrors := none,
             eofFlag := eof1 }

/-- The loop of `init_board` for `n` more rows: each row is read by `read_line`
with a buffer of `size` bytes. The result is `none` when a row comes back as the
sentinel `test_EOF`, the row then being an uninitialised buffer. -/
def readRows (size : Nat) : Nat → List Char → Bool → Option (List (List Char) × List Char × Bool)
  | 0, file, eofFlag => some ([], file, eofFlag)
  | n + 1, file, eofFlag =>
    match read_line file size eofFlag with
    | none => none
    | some (row, file1, eof1) =>
      if row = "test_EOF".toList then none
      else
        match readRows size n file1 eof1 with
        | none => none
        | some (rows, file2, eof2) => some (row :: rows, file2, eof2)

/-- Function `init_board`: `rows` rows, each read into a buffer of `2 * columns
+ 1` bytes (a `size_t`, so modulo `2 ^ 64`); the flag is cleared at the end. -/
def init_board (st : LoadState) : Option LoadState :=
  match readRows ((2 * st.game.columns + 1) % 2 ^ 64).toNat st.game.rows.toNat st.file
      st.eofFlag with
  | none => none
  | some (rows, file1, _) =>
    some { st with game := { st.game with board := rows }, file := file1, eofFlag := false }

/-- The call of `file_contents_error_handler` in `main` with the two end
strings as pointers: the strings are the last two tests of the condition, read
only when every test before them passes, and reading through a NULL pointer is
`none`. -/
def handlerAfterLoad (g : Game) (rowErrors columnErrors : Option String) : Option ExitCodes :=
  match file_contents_error_handler g "" "" ExitCodes.EXIT_NORMAL with
  | some ExitCodes.EXIT_NORMAL =>
    (match rowErrors with
    | none => none
    | some re =>
      if re ≠ "" then some ExitCodes.EXIT_FILE_CONTENTS
      else
        match columnErrors with
        | none => none
        | some ce => file_contents_error_handler g re ce ExitCodes.EXIT_NORMAL)
  | other => other

/-- The loading part of `main` on an opened game file: `file_setup`,
`init_board`, then `file_contents_error_handler`; the result is the status and
the game as loaded. -/
def loadGame (file : List Char) (g : Game) : Option (ExitCodes × Game) :=
  match file_setup file g with
  | none => none
  | some st =>
    match init_board st with
    | none => none
    | some st1 =>
      match handlerAfterLoad st1.game st1.rowErrors st1.columnErrors with
      | none => none
      | some status => some (status, st1.game)


/-- The weights of a well-formed board: `0` on every non-corner border cell and
`1`-`9` on every interior cell. -/
def WeightsOK (g : Game) : Prop :=
  ∀ r j : Int, 0 ≤ r → r < g.rows → 0 ≤ j → j < g.columns → ¬ IsCorner g r j →
    if IsInterior g r j then ∃ w, weight g.board r j = some w ∧ '1' ≤ w ∧ w ≤ '9'
    else weight g.board r j = some '0'


/-- A well-formed 4 by 4 game without stones: the scores are tied and cell
`(1, 1)` is Empty with a smaller weight than cell `(1, 2)`. -/
def tiedGame : Game :=
  loaded 4 4 ["  0.0.  ", "0.2.5.0.", "0.3.4.0.", "  0.0.  "]

/-- The game `greedyGame` with `X` to move and both players of type 1. -/
def stuckGame : Game :=
  { greedyGame with currentPlayer := 'X', playerTypeO := '1', playerTypeX := '1' }


/-- The weight of logical cell `(r, j)` as a number, zero where the board has no
such cell. -/
def weightValue (b : List (List Char)) (r j : Int) : Int :=
  match weight b r j with
  | some w => digitValue w
  | none => 0


/-- The step result of a search loop: return the hit, or go on with the state. -/
def searchStep {σ ρ : Type} (s : σ) : Option ρ → σ ⊕ ρ
  | some v => Sum.inr v
  | none => Sum.inl s


/-- The value `maxScore` starts from in `type_one_highest_cell`: the weight of
cell `(1, 1)` when that cell is Empty, else zero. -/
def seedScore (g : Game) : Int :=
  if occ g.board 1 1 = some '.' then weightValue g.board 1 1 else 0


/-! ## The push evaluation of the type 1 player along the targeted line -/

/-- The sums `(scoreCol, scorePush)` the walk of `type_one_push_down` ends
with at character column `c`. -/
def downScores (g : Game) (opponent : Char) (c : Int) : Option (Int × Int) :=
  walkLine g opponent (fun r => (r + 1, c)) (fun r => (r + 1, c - 1)) (fun r => (r + 2, c - 1))
    1 (g.rows - 2).toNat 0 (0, 0)

/-- The sums the walk of `type_one_push_left` ends with at row `r`. -/
def leftScores (g : Game) (opponent : Char) (r : Int) : Option (Int × Int) :=
  walkLine g opponent (fun c => (r, c - 2)) (fun c => (r, c - 3)) (fun c => (r, c - 5))
    (-2) ((LAST_CELL_COLUMN g - 3) / 2).toNat (LAST_CELL_COLUMN g) (0, 0)

/-- The sums the walk of `type_one_push_up` ends with at character column `c`. -/
def upScores (g : Game) (opponent : Char) (c : Int) : Option (Int × Int) :=
  walkLine g opponent (fun r => (r - 1, c)) (fun r => (r - 1, c - 1)) (fun r => (r - 2, c - 1))
    (-1) (g.rows - 2).toNat (g.rows - 1) (0, 0)

/-- The sums the walk of `type_one_push_right` ends with at row `r`. -/
def rightScores (g : Game) (opponent : Char) (r : Int) : Option (Int × Int) :=
  walkLine g opponent (fun c => (r, c + 2)) (fun c => (r, c + 1)) (fun c => (r, c + 3))
    2 (SCORE_COLUMN_OF_LAST_INTERIOR_CELL g / 2).toNat 1 (0, 0)

/-- The loop body of the `type_one_push_*` function that scans the line of the
border cell `(rowMove, columnMove)`: up for the last row, down for row 0, left
for the last column, right for column 0. -/
def moveAdvantage (g : Game) (opponent : Char) : Option Bool :=
  if g.rowMove = g.rows - 1 then upAdvantage g opponent (MOVE_INDEX g)
  else if g.rowMove = 0 then downAdvantage g opponent (MOVE_INDEX g)
  else if g.columnMove = g.columns - 1 then leftAdvantage g opponent g.rowMove
  else rightAdvantage g opponent g.rowMove

/-- The sums `(scoreCol, scorePush)` of the walk along the line of the border
cell `(rowMove, columnMove)`. -/
def moveScores (g : Game) (opponent : Char) : Option (Int × Int) :=
  if g.rowMove = g.rows - 1 then upScores g opponent (MOVE_INDEX g)
  else if g.rowMove = 0 then downScores g opponent (MOVE_INDEX g)
  else if g.columnMove = g.columns - 1 then leftScores g opponent g.rowMove
  else rightScores g opponent g.rowMove

/-- The weight under slot `i` of the targeted line if an opponent stone stands
there, else zero. -/
def stayScore (g : Game) (opponent : Char) (i : Int) : Int :=
  if occ g.board (slot g i).1 (slot g i).2 = some opponent then
    weightValue g.board (slot g i).1 (slot g i).2
  else 0

/-- The weight under slot `i + 1` if an opponent stone stands on slot `i`, else
zero: what that stone is worth after the shift. -/
def movedScore (g : Game) (opponent : Char) (i : Int) : Int :=
  if occ g.board (slot g i).1 (slot g i).2 = some opponent then
    weightValue g.board (slot g (i + 1)).1 (slot g (i + 1)).2
  else 0

/-- The sum of the weights under the opponent's stones on slots `1 .. k - 1` of
the targeted line. -/
def scoreIfNotPushed (g : Game) (opponent : Char) (k : Int) : Int :=
  sumUpTo (fun t => stayScore g opponent (t + 1)) (k - 1).toNat

/-- The sum of the weights one slot further for the opponent's stones on slots
`1 .. k - 1` of the targeted line. -/
def scoreIfPushed (g : Game) (opponent : Char) (k : Int) : Int :=
  sumUpTo (fun t => movedScore g opponent (t + 1)) (k - 1).toNat

/-- A well-formed 4 by 3 game, `O` to move: the interior cell next to the top
edge holds a stone of `O`, the cell below it a stone of `X` on weight 9. -/
def ownStoneGame : Game := loaded 4 3 ["  0.  ", "0.1O0.", "0.9X0.", "  0.  "]

end Push2310

namespace Push2310

theorem readCell_writeCell {b b1 : List (List Char)} {r c : Int} {ch : Char}
    (h : writeCell b r c ch = some b1) (r1 c1 : Int) :
    readCell b1 r1 c1 = if r1 = r ∧ c1 = c then some ch else readCell b r1 c1 := by
  unfold writeCell at h
  split at h
  · simp at h
  · rename_i hneg
    push_neg at hneg
    split at h
    · simp at h
    · rename_i row hrow
      split at h
      · rename_i hlen
        simp only [Option.some.injEq] at h
        subst h
        unfold readCell
        by_cases hr1 : r1 < 0
        · have : ¬ (r1 = r) := by omega
          simp [hr1, this]
        · simp only [hr1, if_false]
          by_cases hrr : r1 = r
          · subst hrr
            have hlt : r1.toNat < b.length := by
              rcases List.getElem?_eq_some.mp hrow with ⟨hl, _⟩
              exact hl
            simp only [List.getElem?_set_self hlt, hrow, true_and]
            unfold readRow
            by_cases hc1 : c1 < 0
            · have : ¬ (c1 = c) := by omega
              simp [hc1, this]
            · simp only [hc1, if_false]
              by_cases hcc : c1 = c
              · subst hcc
                simp [List.getElem?_set_self hlen]
              · have : c.toNat ≠ c1.toNat := by omega
                simp [hcc, List.getElem?_set_ne this]
          · have : r.toNat ≠ r1.toNat := by omega
            simp [hrr, List.getElem?_set_ne this]
      · simp at h

theorem readCell_isSome_of_writeCell {b b1 : List (List Char)} {r c : Int} {ch : Char}
    (h : writeCell b r c ch = some b1) (r1 c1 : Int) :
    (readCell b1 r1 c1).isSome = (readCell b r1 c1).isSome ∧ (readCell b r c).isSome := by
  have hrw := readCell_writeCell h
  have hsome : (readCell b r c).isSome := by
    unfold writeCell at h
    split at h
    · simp at h
    · rename_i hneg
      push_neg at hneg
      split at h
      · simp at h
      · rename_i row hrow
        split at h
        · rename_i hlen
          have h1 : ¬ r < 0 := by omega
          have h2 : ¬ c < 0 := by omega
          simp [readCell, readRow, hrow, h1, h2, hlen]
        · simp at h
  refine ⟨?_, hsome⟩
  rw [hrw r1 c1]
  split
  · rename_i heq
    rw [heq.1, heq.2]
    simp [hsome]
  · rfl

theorem writeCell_of_readCell {b : List (List Char)} {r c : Int} {x : Char}
    (h : readCell b r c = some x) (ch : Char) : ∃ b1, writeCell b r c ch = some b1 := by
  unfold readCell at h
  split at h
  · simp at h
  · rename_i hr
    split at h
    · simp at h
    · rename_i row hrow
      unfold readRow at h
      split at h
      · simp at h
      · rename_i hc
        have hlen : c.toNat < row.length := (List.getElem?_eq_some.mp h).1
        refine ⟨b.set r.toNat (row.set c.toNat ch), ?_⟩
        unfold writeCell
        have : ¬ (r < 0 ∨ c < 0) := by omega
        simp [this, hrow, hlen]

theorem writeCell_length {b b1 : List (List Char)} {r c : Int} {ch : Char}
    (h : writeCell b r c ch = some b1) :
    b1.length = b.length ∧ ∀ i : Nat, (b1[i]?).map List.length = (b[i]?).map List.length := by
  unfold writeCell at h
  split at h
  · simp at h
  · split at h
    · simp at h
    · rename_i row hrow
      split at h
      · simp only [Option.some.injEq] at h
        subst h
        refine ⟨by simp, fun i => ?_⟩
        by_cases hi : r.toNat = i
        · subst hi
          have hlt : r.toNat < b.length := (List.getElem?_eq_some.mp hrow).1
          simp [List.getElem?_set_self hlt, hrow]
        · simp [List.getElem?_set_ne hi]
      · simp at h

/-- A read succeeds exactly inside a board of the declared shape. -/
theorem readCell_isSome_iff {g : Game} (hs : Shaped g) (r c : Int) :
    (∃ ch, readCell g.board r c = some ch) ↔
      (0 ≤ r ∧ r < g.rows ∧ 0 ≤ c ∧ c < 2 * g.columns) := by
  obtain ⟨hlen, hrows⟩ := hs
  constructor
  · rintro ⟨ch, h⟩
    unfold readCell at h
    split at h
    · simp at h
    · rename_i hr
      split at h
      · simp at h
      · rename_i row hrow
        unfold readRow at h
        split at h
        · simp at h
        · rename_i hc
          obtain ⟨h1, h1e⟩ := List.getElem?_eq_some.mp hrow
          obtain ⟨h2, _⟩ := List.getElem?_eq_some.mp h
          have h3 := hrows row (by rw [← h1e]; exact List.getElem_mem _)
          omega
  · rintro ⟨h0, h1, h2, h3⟩
    have hr : r.toNat < g.board.length := by omega
    have h4 := hrows (g.board[r.toNat]) (List.getElem_mem _)
    have hc : c.toNat < (g.board[r.toNat]).length := by omega
    refine ⟨(g.board[r.toNat])[c.toNat], ?_⟩
    have hr0 : ¬ r < 0 := by omega
    have hc0 : ¬ c < 0 := by omega
    simp [readCell, readRow, hr0, hc0, List.getElem?_eq_getElem hr, List.getElem?_eq_getElem hc]

theorem shaped_writeCell {g : Game} {b1 : List (List Char)} {r c : Int} {ch p : Char}
    (hs : Shaped g) (h : writeCell g.board r c ch = some b1) :
    Shaped { g with board := b1, currentPlayer := p } := by
  obtain ⟨hlen, hrows⟩ := hs
  obtain ⟨h1, h2⟩ := writeCell_length h
  refine ⟨by simp only; omega, ?_⟩
  intro row hrow
  simp only at hrow ⊢
  obtain ⟨i, hi, rfl⟩ := List.getElem_of_mem hrow
  have h3 := h2 i
  have hi2 : i < g.board.length := by omega
  rw [List.getElem?_eq_getElem hi, List.getElem?_eq_getElem hi2] at h3
  simp only [Option.map_some', Option.some.injEq] at h3
  rw [h3]
  exact hrows _ (List.getElem_mem _)

/-! ### Counting stones across a write -/

theorem rowStones_set (ch : Char) :
    ∀ (row : List Char) (n : Nat) (_ : n % 2 = 1) (h : n < row.length),
      rowStones (row.set n ch) + stoneOf (row[n]) = rowStones row + stoneOf ch
  | [], _, _, h => by simp at h
  | [_], n, hodd, h => by
    simp only [List.length_singleton] at h
    omega
  | _ :: _ :: _, 0, hodd, _ => by omega
  | _ :: _ :: _, 1, _, _ => by
    simp only [List.set_cons_succ, List.set_cons_zero, rowStones, List.getElem_cons_succ,
      List.getElem_cons_zero]
    omega
  | _ :: _ :: rest, n + 2, hodd, h => by
    have h2 : n < rest.length := by
      simp only [List.length_cons] at h
      omega
    have := rowStones_set ch rest n (by omega) h2
    simp only [List.set_cons_succ, rowStones, List.getElem_cons_succ]
    omega

theorem sum_map_set (f : List Char → Nat) (b : List (List Char)) (i : Nat)
    (h : i < b.length) (new : List Char) :
    ((b.set i new).map f).sum + f (b[i]) = (b.map f).sum + f new := by
  induction b generalizing i with
  | nil => simp at h
  | cons x xs ih =>
    cases i with
    | zero =>
      simp only [List.set_cons_zero, List.map_cons, List.sum_cons, List.getElem_cons_zero]
      omega
    | succ i =>
      have h2 : i < xs.length := by
        simp only [List.length_cons] at h
        omega
      simp only [List.set_cons_succ, List.map_cons, List.sum_cons, List.getElem_cons_succ]
      have := ih i h2
      omega

theorem writeCell_stoneCount {b b1 : List (List Char)} {r c : Int} {ch old : Char}
    (hw : writeCell b r c ch = some b1) (hodd : c % 2 = 1)
    (hold : readCell b r c = some old) :
    stoneCount b1 + stoneOf old = stoneCount b + stoneOf ch := by
  unfold writeCell at hw
  split at hw
  · simp at hw
  · rename_i hneg
    push_neg at hneg
    split at hw
    · simp at hw
    · rename_i row hrow
      split at hw
      · rename_i hlen
        simp only [Option.some.injEq] at hw
        subst hw
        obtain ⟨hr, hrow2⟩ := List.getElem?_eq_some.mp hrow
        have hr0 : ¬ r < 0 := by omega
        have hc0 : ¬ c < 0 := by omega
        simp only [readCell, hr0, if_false, hrow, readRow, hc0,
          List.getElem?_eq_getElem hlen, Option.some.injEq] at hold
        have h1 := rowStones_set ch row c.toNat (by omega) hlen
        have h2 := sum_map_set rowStones b r.toNat hr (row.set c.toNat ch)
        rw [hold] at h1
        rw [hrow2] at h2
        unfold stoneCount
        omega
      · simp at hw

/-! ### The search and shift loops -/

theorem scanLine_total (cell : Int → Option Char) (step : Int) (n : Nat) (i : Int)
    (h : ∀ m : Nat, m < n → ∃ ch, cell (i + m * step) = some ch) :
    ∃ res, scanLine cell step i n = some res := by
  induction n generalizing i with
  | zero => exact ⟨none, rfl⟩
  | succ n ih =>
    obtain ⟨ch, hch⟩ := h 0 (by omega)
    simp only [Nat.cast_zero, zero_mul, add_zero] at hch
    unfold scanLine
    rw [hch]
    by_cases hdot : ch = '.'
    · exact ⟨some i, by simp [hdot]⟩
    · simp only [hdot, if_false]
      apply ih
      intro m hm
      obtain ⟨x, hx⟩ := h (m + 1) (by omega)
      refine ⟨x, ?_⟩
      rw [← hx]
      congr 1
      push_cast
      ring

theorem scanLine_spec (cell : Int → Option Char) (step : Int) (n : Nat) (i : Int)
    (res : Option Int) (h : scanLine cell step i n = some res) :
    match res with
    | none => ∀ m : Nat, m < n → ∃ ch, cell (i + m * step) = some ch ∧ ch ≠ '.'
    | some x => ∃ k : Nat, k < n ∧ x = i + k * step ∧ cell x = some '.' ∧
        ∀ m : Nat, m < k → ∃ ch, cell (i + m * step) = some ch ∧ ch ≠ '.' := by
  induction n generalizing i with
  | zero =>
    simp only [scanLine, Option.some.injEq] at h
    subst h
    intro m hm
    omega
  | succ n ih =>
    unfold scanLine at h
    split at h
    · simp at h
    · rename_i ch hch
      by_cases hdot : ch = '.'
      · simp only [hdot, if_true, Option.some.injEq] at h
        subst h
        refine ⟨0, by omega, by simp, by rw [hch, hdot], ?_⟩
        intro m hm
        omega
      · simp only [hdot, if_false] at h
        have := ih (i + step) h
        cases res with
        | none =>
          intro m hm
          cases m with
          | zero => exact ⟨ch, by simpa using hch, hdot⟩
          | succ m =>
            obtain ⟨x, hx, hx2⟩ := this m (by omega)
            refine ⟨x, ?_, hx2⟩
            rw [← hx]
            congr 1
            push_cast
            ring
        | some x =>
          obtain ⟨k, hk, hxk, hcx, hbefore⟩ := this
          refine ⟨k + 1, by omega, by rw [hxk]; push_cast; ring, hcx, ?_⟩
          intro m hm
          cases m with
          | zero => exact ⟨ch, by simpa using hch, hdot⟩
          | succ m =>
            obtain ⟨y, hy, hy2⟩ := hbefore m (by omega)
            refine ⟨y, ?_, hy2⟩
            rw [← hy]
            congr 1
            push_cast
            ring

theorem shiftLine_spec (pos : Int → Int × Int) (d : Int) (hinj : Function.Injective pos)
    (hd : d ≠ 0) (n : Nat) (b : List (List Char)) (i : Int)
    (h : ∀ k : Nat, k ≤ n → ∃ ch, readCell b (pos (i + k * d)).1 (pos (i + k * d)).2 = some ch) :
    ∃ b1, shiftLine pos d b i n = some b1 ∧
      (∀ k : Nat, k < n → readCell b1 (pos (i + k * d)).1 (pos (i + k * d)).2 =
        readCell b (pos (i + (k + 1) * d)).1 (pos (i + (k + 1) * d)).2) ∧
      (∀ r c, (∀ k : Nat, k < n → pos (i + k * d) ≠ (r, c)) →
        readCell b1 r c = readCell b r c) := by
  induction n generalizing b i with
  | zero =>
    refine ⟨b, rfl, ?_, fun _ _ _ => rfl⟩
    intro k hk
    omega
  | succ n ih =>
    obtain ⟨ch, hch⟩ := h 1 (by omega)
    simp only [Nat.cast_one, one_mul] at hch
    obtain ⟨x0, hx0⟩ := h 0 (by omega)
    simp only [Nat.cast_zero, zero_mul, add_zero] at hx0
    obtain ⟨b1, hb1⟩ := writeCell_of_readCell hx0 ch
    have hrw := readCell_writeCell hb1
    have hpre : ∀ k : Nat, k ≤ n →
        ∃ x, readCell b1 (pos (i + d + k * d)).1 (pos (i + d + k * d)).2 = some x := by
      intro k hk
      obtain ⟨x, hx⟩ := h (k + 1) (by omega)
      have he : i + ((k + 1 : Nat) : Int) * d = i + d + k * d := by push_cast; ring
      rw [he] at hx
      rw [hrw]
      split
      · exact ⟨ch, rfl⟩
      · exact ⟨x, hx⟩
    obtain ⟨b2, hb2, hshift, hframe⟩ := ih b1 (i + d) hpre
    have hne : ∀ k : Nat, pos (i + d + k * d) ≠ pos i := by
      intro k heq
      have h1 := hinj heq
      have h2 : ((k : Int) + 1) * d = 0 := by linarith
      rcases mul_eq_zero.mp h2 with h3 | h3
      · omega
      · exact hd h3
    refine ⟨b2, ?_, ?_, ?_⟩
    · unfold shiftLine
      rw [hch]
      simp only [hb1]
      exact hb2
    · intro k hk
      cases k with
      | zero =>
        simp only [Nat.cast_zero, zero_mul, add_zero, zero_add, one_mul]
        rw [hframe _ _ (fun k _ => by
          have := hne k
          intro h1
          exact this (by rw [h1]))]
        rw [hrw]
        simp [hch]
      | succ k =>
        have he : i + ((k + 1 : Nat) : Int) * d = i + d + k * d := by push_cast; ring
        have he2 : i + (((k + 1 : Nat) : Int) + 1) * d = i + d + (k + 1) * d := by
          push_cast; ring
        rw [he, he2, hshift k (by omega), hrw]
        have h3 := hne (k + 1)
        have : ¬ ((pos (i + d + (↑k + 1) * d)).1 = (pos i).1 ∧
            (pos (i + d + (↑k + 1) * d)).2 = (pos i).2) := by
          intro ⟨h4, h5⟩
          apply h3
          push_cast
          exact Prod.ext h4 h5
        simp only [this, if_false]
    · intro r c hrc
      rw [hframe r c (fun k hk => by
        have := hrc (k + 1) (by omega)
        have he : i + ((k + 1 : Nat) : Int) * d = i + d + k * d := by push_cast; ring
        rw [he] at this
        exact this)]
      rw [hrw]
      have h0 := hrc 0 (by omega)
      simp only [Nat.cast_zero, zero_mul, add_zero] at h0
      have : ¬ (r = (pos i).1 ∧ c = (pos i).2) := by
        intro ⟨h4, h5⟩
        apply h0
        exact Prod.ext h4.symm h5.symm
      simp only [this, if_false]

theorem writeCell_shape {b b1 : List (List Char)} {r c : Int} {ch : Char}
    (h : writeCell b r c ch = some b1) : b1.map List.length = b.map List.length := by
  unfold writeCell at h
  split at h
  · simp at h
  · split at h
    · simp at h
    · rename_i row hrow
      split at h
      · simp only [Option.some.injEq] at h
        subst h
        apply List.ext_getElem?
        intro n
        simp only [List.getElem?_map, List.getElem?_set]
        split
        · rename_i h1
          subst h1
          split
          · simp [hrow]
          · rename_i h2
            have : b[r.toNat]? = none := by simpa using h2
            rw [this] at hrow
            simp at hrow
        · rfl
      · simp at h

theorem shiftLine_shape (pos : Int → Int × Int) (d : Int) (n : Nat) (b : List (List Char))
    (i : Int) (b1 : List (List Char)) (h : shiftLine pos d b i n = some b1) :
    b1.map List.length = b.map List.length := by
  induction n generalizing b i with
  | zero =>
    simp only [shiftLine, Option.some.injEq] at h
    rw [h]
  | succ n ih =>
    unfold shiftLine at h
    split at h
    · simp at h
    · split at h
      · simp at h
      · rename_i b2 hb2
        rw [ih b2 (i + d) h, writeCell_shape hb2]

theorem shaped_of_shape {g : Game} {b2 : List (List Char)} (p : Char) (hs : Shaped g)
    (h : b2.map List.length = g.board.map List.length) :
    Shaped { g with board := b2, currentPlayer := p } := by
  obtain ⟨hlen, hrows⟩ := hs
  have hl : b2.length = g.board.length := by
    have := congrArg List.length h
    simpa using this
  refine ⟨by simp only; omega, ?_⟩
  intro row hrow
  simp only at hrow ⊢
  obtain ⟨i, hi, rfl⟩ := List.getElem_of_mem hrow
  have hi2 : i < g.board.length := by omega
  have h3 := congrArg (fun l => l[i]?) h
  simp only [List.getElem?_map, List.getElem?_eq_getElem hi, List.getElem?_eq_getElem hi2,
    Option.map_some', Option.some.injEq] at h3
  rw [h3]
  exact hrows _ (List.getElem_mem _)

theorem shiftLine_count (pos : Int → Int × Int) (d : Int) (hinj : Function.Injective pos)
    (hd : d ≠ 0) (n : Nat) (b : List (List Char)) (i : Int)
    (hodd : ∀ k : Nat, k ≤ n → (pos (i + k * d)).2 % 2 = 1)
    (first : Char) (hfirst : readCell b (pos i).1 (pos i).2 = some first)
    (b1 : List (List Char)) (h : shiftLine pos d b i n = some b1) :
    ∃ last, readCell b (pos (i + n * d)).1 (pos (i + n * d)).2 = some last ∧
      stoneCount b1 + stoneOf first = stoneCount b + stoneOf last := by
  induction n generalizing b i first with
  | zero =>
    simp only [shiftLine, Option.some.injEq] at h
    subst h
    exact ⟨first, by simpa using hfirst, rfl⟩
  | succ n ih =>
    unfold shiftLine at h
    split at h
    · simp at h
    · rename_i ch hch
      split at h
      · simp at h
      · rename_i b2 hb2
        have hrw := readCell_writeCell hb2
        have hne : ∀ k : Nat, ¬ ((pos (i + d + k * d)).1 = (pos i).1 ∧
            (pos (i + d + k * d)).2 = (pos i).2) := by
          intro k ⟨h4, h5⟩
          have h1 := hinj (Prod.ext h4 h5)
          have h2 : ((k : Int) + 1) * d = 0 := by linarith
          rcases mul_eq_zero.mp h2 with h3 | h3
          · omega
          · exact hd h3
        have hfirst2 : readCell b2 (pos (i + d)).1 (pos (i + d)).2 = some ch := by
          rw [hrw]
          have := hne 0
          simp only [Nat.cast_zero, zero_mul, add_zero] at this
          simp only [this, if_false]
          exact hch
        obtain ⟨last, hlast, hcount⟩ := ih b2 (i + d) (fun k hk => by
          have := hodd (k + 1) (by omega)
          have he : i + ((k + 1 : Nat) : Int) * d = i + d + k * d := by push_cast; ring
          rw [he] at this
          exact this) ch hfirst2 h
        rw [hrw] at hlast
        simp only [hne n, if_false] at hlast
        have he : i + ((n + 1 : Nat) : Int) * d = i + d + n * d := by push_cast; ring
        refine ⟨last, by rw [he]; exact hlast, ?_⟩
        have h0 := hodd 0 (by omega)
        simp only [Nat.cast_zero, zero_mul, add_zero] at h0
        have := writeCell_stoneCount hb2 h0 hfirst
        omega

theorem finishPush_pushed (g : Game) (pos : Int → Int × Int) (d : Int)
    (hinj : Function.Injective pos) (hd : d ≠ 0) (x k : Int) (hk : 2 ≤ k)
    (hpos : ∀ j : Nat, (j : Int) ≤ k - 1 → pos (x + j * d) = slotIndex g (k - j))
    (hread : ∀ i : Int, 1 ≤ i → i ≤ k →
      ∃ ch, readCell g.board (slotIndex g i).1 (slotIndex g i).2 = some ch)
    (hempty : readCell g.board (slotIndex g k).1 (slotIndex g k).2 = some '.') :
    ∃ b2, finishPush g (shiftLine pos d g.board x (k - 1).toNat)
        (slotIndex g 1).1 (slotIndex g 1).2 =
          some { g with board := b2, currentPlayer := otherPlayer g.currentPlayer } ∧
      PushedTo g k b2 ∧ stoneCount b2 = stoneCount g.board + stoneOf g.currentPlayer ∧
      b2.map List.length = g.board.map List.length := by
  have hpre : ∀ j : Nat, j ≤ (k - 1).toNat →
      ∃ ch, readCell g.board (pos (x + j * d)).1 (pos (x + j * d)).2 = some ch := by
    intro j hj
    rw [hpos j (by omega)]
    exact hread _ (by omega) (by omega)
  obtain ⟨b1, hb1, hshift, hframe⟩ :=
    shiftLine_spec pos d hinj hd (k - 1).toNat g.board x hpre
  have hlast : pos (x + ((k - 1).toNat : Int) * d) = slotIndex g 1 := by
    rw [hpos _ (by omega)]
    congr 1
    omega
  have hx0 : pos x = slotIndex g k := by
    have := hpos 0 (by simp; omega)
    simpa using this
  have hFeq : readCell b1 (slotIndex g 1).1 (slotIndex g 1).2 =
      readCell g.board (slotIndex g 1).1 (slotIndex g 1).2 := by
    rw [hframe]
    intro j hj heq
    rw [← hlast] at heq
    have := hinj heq
    have h2 : ((j : Int) - ((k - 1).toNat : Int)) * d = 0 := by linarith
    rcases mul_eq_zero.mp h2 with h3 | h3
    · omega
    · exact hd h3
  obtain ⟨ch, hch⟩ := hread 1 (by omega) (by omega)
  have hch1 := hFeq.trans hch
  obtain ⟨b2, hb2⟩ := writeCell_of_readCell hch1 g.currentPlayer
  have hrw := readCell_writeCell hb2
  have hcount : stoneCount b2 = stoneCount g.board + stoneOf g.currentPlayer := by
    obtain ⟨last, hl1, hl2⟩ := shiftLine_count pos d hinj hd (k - 1).toNat g.board x
      (fun j hj => by
        rw [hpos j (by omega)]
        simp only [slotIndex]
        omega) '.' (by rw [hx0]; exact hempty) b1 hb1
    rw [hlast, hch] at hl1
    simp only [Option.some.injEq] at hl1
    subst hl1
    have h1 : (slotIndex g 1).2 % 2 = 1 := by
      simp only [slotIndex]
      omega
    have h2 := writeCell_stoneCount hb2 h1 hch1
    have h3 : stoneOf '.' = 0 := by decide
    omega
  have hshape : b2.map List.length = g.board.map List.length := by
    rw [writeCell_shape hb2, shiftLine_shape pos d _ _ _ _ hb1]
  refine ⟨b2, ?_, ⟨?_, ?_, ?_⟩, hcount, hshape⟩
  · simp only [finishPush, hb1, hb2]
  · rw [hrw]
    simp
  · intro i hi1 hi2
    have hj : slotIndex g i = pos (x + ((k - i).toNat : Int) * d) := by
      rw [hpos _ (by omega)]
      congr 1
      omega
    have hj2 : slotIndex g (i - 1) = pos (x + (((k - i).toNat : Int) + 1) * d) := by
      have := hpos ((k - i).toNat + 1) (by push_cast; omega)
      push_cast at this
      rw [this]
      congr 1
      omega
    rw [hrw]
    have hne : ¬ ((slotIndex g i).1 = (slotIndex g 1).1 ∧
        (slotIndex g i).2 = (slotIndex g 1).2) := by
      intro ⟨h1, h2⟩
      have h3 : slotIndex g i = slotIndex g 1 := Prod.ext h1 h2
      rw [hj, ← hlast] at h3
      have := hinj h3
      have h2 : (((k - i).toNat : Int) - ((k - 1).toNat : Int)) * d = 0 := by linarith
      rcases mul_eq_zero.mp h2 with h3 | h3
      · omega
      · exact hd h3
    simp only [hne, if_false]
    rw [hj, hj2]
    exact hshift _ (by omega)
  · intro r c hrc
    rw [hrw]
    have h1 := hrc 1 (by omega) (by omega)
    have hne : ¬ (r = (slotIndex g 1).1 ∧ c = (slotIndex g 1).2) := by
      intro ⟨h2, h3⟩
      exact h1 (Prod.ext h2.symm h3.symm)
    simp only [hne, if_false]
    apply hframe
    intro j hj
    rw [hpos j (by omega)]
    exact hrc _ (by omega) (by omega)

/-! ### The four push functions -/

theorem slotIndex_down {g : Game} (h0 : g.rowMove = 0) (hr : 3 ≤ g.rows) (i : Int) :
    slotIndex g i = (i, MOVE_INDEX g) := by
  have h1 : ¬ (0 : Int) = g.rows - 1 := by omega
  simp only [slotIndex, slot, h0, h1, MOVE_INDEX, if_false, if_true]

theorem slotIndex_up {g : Game} (h0 : g.rowMove = g.rows - 1) (i : Int) :
    slotIndex g i = (g.rows - 1 - i, MOVE_INDEX g) := by
  simp [slotIndex, slot, h0, MOVE_INDEX]

theorem slotIndex_left {g : Game} (h0 : g.columnMove = g.columns - 1)
    (hr : 0 < g.rowMove ∧ g.rowMove < g.rows - 1) (i : Int) :
    slotIndex g i = (g.rowMove, 2 * g.columns - 1 - 2 * i) := by
  have h1 : ¬ g.rowMove = g.rows - 1 := by omega
  have h2 : ¬ g.rowMove = 0 := by omega
  simp only [slotIndex, slot, h1, h2, if_false, if_true, ← h0]
  congr 1
  omega

theorem slotIndex_right {g : Game} (h0 : g.columnMove = 0) (hc : 3 ≤ g.columns)
    (hr : 0 < g.rowMove ∧ g.rowMove < g.rows - 1) (i : Int) :
    slotIndex g i = (g.rowMove, 2 * i + 1) := by
  have h1 : ¬ g.rowMove = g.rows - 1 := by omega
  have h2 : ¬ g.rowMove = 0 := by omega
  have h3 : ¬ g.columnMove = g.columns - 1 := by omega
  simp [slotIndex, slot, h1, h2, h3]

theorem push_down_cases (g : Game) (hb : PlayBoard g) (h0 : g.rowMove = 0)
    (hc : 0 < g.columnMove ∧ g.columnMove < g.columns - 1) :
    PushOutcome g (push_down g) := by
  obtain ⟨hr3, hc3, hs, _⟩ := hb
  have hsl := slotIndex_down h0 hr3
  have hlen : lineLen g = g.rows := by simp [lineLen, h0]
  have hreadable : ∀ r : Int, 0 ≤ r → r < g.rows →
      ∃ ch, readCell g.board r (MOVE_INDEX g) = some ch := by
    intro r h1 h2
    apply (readCell_isSome_iff hs r _).mpr
    unfold MOVE_INDEX
    omega
  obtain ⟨res, hres⟩ := scanLine_total (fun r => readCell g.board r (MOVE_INDEX g)) 1
    (g.rows - 2).toNat 2 (fun m hm => hreadable _ (by omega) (by omega))
  have hspec := scanLine_spec _ _ _ _ _ hres
  cases res with
  | none =>
    left
    refine ⟨?_, by simp [push_down, hres]⟩
    intro i hi1 hi2
    rw [hsl]
    obtain ⟨ch, hch, hne⟩ := hspec (i - 2).toNat (by omega)
    have he : (2 : Int) + ((i - 2).toNat : Int) * 1 = i := by omega
    rw [he] at hch
    rw [hch]
    simpa using hne
  | some x =>
    right
    obtain ⟨k, hk, hxk, hcx, hbefore⟩ := hspec
    refine ⟨x, by omega, by omega, by rw [hsl]; exact hcx, ?_, ?_⟩
    · intro i hi1 hi2
      rw [hsl]
      obtain ⟨ch, hch, hne⟩ := hbefore (i - 2).toNat (by omega)
      have he : (2 : Int) + ((i - 2).toNat : Int) * 1 = i := by omega
      rw [he] at hch
      rw [hch]
      simpa using hne
    · have := finishPush_pushed g (fun row => (row, MOVE_INDEX g)) (-1)
        (fun a b hab => by simpa using hab) (by omega) x x (by omega)
        (fun j hj => by rw [hsl]; simp only [Prod.mk.injEq, and_true]; omega)
        (fun i hi1 hi2 => by rw [hsl]; exact hreadable i (by omega) (by omega))
        (by rw [hsl]; exact hcx)
      rw [hsl] at this
      simpa [push_down, hres] using this

theorem push_up_cases (g : Game) (hb : PlayBoard g) (h0 : g.rowMove = g.rows - 1)
    (hc : 0 < g.columnMove ∧ g.columnMove < g.columns - 1) :
    PushOutcome g (push_up g) := by
  obtain ⟨hr3, hc3, hs, _⟩ := hb
  have hsl := slotIndex_up h0
  have hlen : lineLen g = g.rows := by simp [lineLen, h0]
  have hreadable : ∀ r : Int, 0 ≤ r → r < g.rows →
      ∃ ch, readCell g.board r (MOVE_INDEX g) = some ch := by
    intro r h1 h2
    apply (readCell_isSome_iff hs r _).mpr
    unfold MOVE_INDEX
    omega
  obtain ⟨res, hres⟩ := scanLine_total (fun r => readCell g.board r (MOVE_INDEX g)) (-1)
    (g.rows - 2).toNat (g.rows - 3) (fun m hm => hreadable _ (by omega) (by omega))
  have hspec := scanLine_spec _ _ _ _ _ hres
  cases res with
  | none =>
    left
    refine ⟨?_, by simp [push_up, hres]⟩
    intro i hi1 hi2
    rw [hsl]
    obtain ⟨ch, hch, hne⟩ := hspec (i - 2).toNat (by omega)
    have he : g.rows - 3 + ((i - 2).toNat : Int) * (-1) = g.rows - 1 - i := by omega
    rw [he] at hch
    rw [hch]
    simpa using hne
  | some x =>
    right
    obtain ⟨k, hk, hxk, hcx, hbefore⟩ := hspec
    have hx : g.rows - 1 - (g.rows - 1 - x) = x := by ring
    refine ⟨g.rows - 1 - x, by omega, by omega, by rw [hsl, hx]; exact hcx, ?_, ?_⟩
    · intro i hi1 hi2
      rw [hsl]
      obtain ⟨ch, hch, hne⟩ := hbefore (i - 2).toNat (by omega)
      have he : g.rows - 3 + ((i - 2).toNat : Int) * (-1) = g.rows - 1 - i := by omega
      rw [he] at hch
      rw [hch]
      simpa using hne
    · have := finishPush_pushed g (fun row => (row, MOVE_INDEX g)) 1
        (fun a b hab => by simpa using hab) (by omega) x (g.rows - 1 - x) (by omega)
        (fun j hj => by rw [hsl]; simp only [Prod.mk.injEq, and_true]; omega)
        (fun i hi1 hi2 => by rw [hsl]; exact hreadable _ (by omega) (by omega))
        (by rw [hsl, hx]; exact hcx)
      rw [hsl] at this
      have he1 : g.rows - 1 - x - 1 = g.rows - 2 - x := by ring
      have he2 : g.rows - 1 - 1 = g.rows - 2 := by ring
      rw [he1] at this
      simp only [he2] at this
      simpa [push_up, hres] using this

theorem weight_ne_dot {g : Game} (hb : PlayBoard g) (r c : Int)
    (hr : 0 < r ∧ r < g.rows - 1) (hc : 0 ≤ c ∧ c < 2 * g.columns) (heven : c % 2 = 0) :
    ∃ ch, readCell g.board r c = some ch ∧ ch ≠ '.' := by
  obtain ⟨hr3, hc3, hs, hcells⟩ := hb
  have h := hcells r (by omega) (by omega) (c / 2) (by omega) (by omega)
  have hnc : ¬ IsCorner g r (c / 2) := by
    unfold IsCorner
    omega
  simp only [hnc, if_false] at h
  obtain ⟨⟨w, hw, hdig⟩, _⟩ := h
  have he : 2 * (c / 2) = c := by omega
  rw [weight, he] at hw
  refine ⟨w, hw, ?_⟩
  intro hdot
  rw [hdot] at hdig
  exact absurd hdig (by decide)

theorem push_left_cases (g : Game) (hb : PlayBoard g) (h0 : g.columnMove = g.columns - 1)
    (hr : 0 < g.rowMove ∧ g.rowMove < g.rows - 1) :
    PushOutcome g (push_left g) := by
  have hw := weight_ne_dot hb g.rowMove
  obtain ⟨hr3, hc3, hs, _⟩ := hb
  have hsl := slotIndex_left h0 hr
  have hlen : lineLen g = g.columns := by
    have h1 : ¬ g.rowMove = g.rows - 1 := by omega
    have h2 : ¬ g.rowMove = 0 := by omega
    simp [lineLen, h1, h2]
  have hreadable : ∀ c : Int, 0 ≤ c → c < 2 * g.columns →
      ∃ ch, readCell g.board g.rowMove c = some ch := by
    intro c h1 h2
    apply (readCell_isSome_iff hs _ c).mpr
    omega
  obtain ⟨res, hres⟩ := scanLine_total (fun c => readCell g.board g.rowMove c) (-1)
    (SECOND_LAST_INTERIOR_CELL_COLUMN g + 1).toNat (SECOND_LAST_INTERIOR_CELL_COLUMN g)
    (fun m hm => hreadable _ (by unfold SECOND_LAST_INTERIOR_CELL_COLUMN at *; omega)
      (by unfold SECOND_LAST_INTERIOR_CELL_COLUMN at *; omega))
  have hspec := scanLine_spec _ _ _ _ _ hres
  unfold SECOND_LAST_INTERIOR_CELL_COLUMN at hspec
  cases res with
  | none =>
    left
    refine ⟨?_, by simp [push_left, hres]⟩
    intro i hi1 hi2
    rw [hsl]
    obtain ⟨ch, hch, hne⟩ := hspec (2 * i - 4).toNat (by omega)
    have he : 2 * g.columns - 5 + ((2 * i - 4).toNat : Int) * (-1) =
        2 * g.columns - 1 - 2 * i := by omega
    rw [he] at hch
    rw [hch]
    simpa using hne
  | some x =>
    right
    obtain ⟨k, hk, hxk, hcx, hbefore⟩ := hspec
    have hcx1 : readCell g.board g.rowMove x = some '.' := hcx
    have hodd : x % 2 = 1 := by
      by_contra hne
      obtain ⟨ch, hch, hdot⟩ := hw x hr (by omega) (by omega)
      rw [hch] at hcx1
      simp only [Option.some.injEq] at hcx1
      exact hdot hcx1
    have hx : 2 * g.columns - 1 - 2 * ((2 * g.columns - 1 - x) / 2) = x := by omega
    refine ⟨(2 * g.columns - 1 - x) / 2, by omega, by omega, by rw [hsl, hx]; exact hcx,
      ?_, ?_⟩
    · intro i hi1 hi2
      rw [hsl]
      obtain ⟨ch, hch, hne⟩ := hbefore (2 * i - 4).toNat (by omega)
      have he : 2 * g.columns - 5 + ((2 * i - 4).toNat : Int) * (-1) =
          2 * g.columns - 1 - 2 * i := by omega
      rw [he] at hch
      rw [hch]
      simpa using hne
    · have := finishPush_pushed g (fun col => (g.rowMove, col)) 2
        (fun a b hab => by simpa using hab) (by omega) x ((2 * g.columns - 1 - x) / 2)
        (by omega)
        (fun j hj => by rw [hsl]; simp only [Prod.mk.injEq, true_and]; omega)
        (fun i hi1 hi2 => by rw [hsl]; exact hreadable _ (by omega) (by omega))
        (by rw [hsl, hx]; exact hcx)
      rw [hsl] at this
      have he1 : ((2 * g.columns - 1 - x) / 2 - 1).toNat =
          ((LAST_INTERIOR_CELL_COLUMN g - x + 1) / 2).toNat := by
        unfold LAST_INTERIOR_CELL_COLUMN
        omega
      have he2 : 2 * g.columns - 1 - 2 * 1 = LAST_INTERIOR_CELL_COLUMN g := by
        unfold LAST_INTERIOR_CELL_COLUMN
        ring
      rw [he1] at this
      simp only [he2] at this
      simpa [push_left, hres] using this

theorem push_right_cases (g : Game) (hb : PlayBoard g) (h0 : g.columnMove = 0)
    (hr : 0 < g.rowMove ∧ g.rowMove < g.rows - 1) :
    PushOutcome g (push_right g) := by
  have hw := weight_ne_dot hb g.rowMove
  obtain ⟨hr3, hc3, hs, _⟩ := hb
  have hsl := slotIndex_right h0 hc3 hr
  have hmi : MOVE_INDEX g = 1 := by simp [MOVE_INDEX, h0]
  have hlen : lineLen g = g.columns := by
    have h1 : ¬ g.rowMove = g.rows - 1 := by omega
    have h2 : ¬ g.rowMove = 0 := by omega
    simp [lineLen, h1, h2]
  have hreadable : ∀ c : Int, 0 ≤ c → c < 2 * g.columns →
      ∃ ch, readCell g.board g.rowMove c = some ch := by
    intro c h1 h2
    apply (readCell_isSome_iff hs _ c).mpr
    omega
  obtain ⟨res, hres⟩ := scanLine_total (fun c => readCell g.board g.rowMove c) 1
    (2 * g.columns - (MOVE_INDEX g + 4)).toNat (MOVE_INDEX g + 4)
    (fun m hm => hreadable _ (by rw [hmi] at *; omega) (by rw [hmi] at *; omega))
  have hres1 := hres
  rw [hmi] at hres1
  have hspec := scanLine_spec _ _ _ _ _ hres1
  cases res with
  | none =>
    left
    refine ⟨?_, by simp [push_right, hres]⟩
    intro i hi1 hi2
    rw [hsl]
    obtain ⟨ch, hch, hne⟩ := hspec (2 * i - 4).toNat (by omega)
    have he : (1 : Int) + 4 + ((2 * i - 4).toNat : Int) * 1 = 2 * i + 1 := by omega
    rw [he] at hch
    rw [hch]
    simpa using hne
  | some x =>
    right
    obtain ⟨k, hk, hxk, hcx, hbefore⟩ := hspec
    have hcx1 : readCell g.board g.rowMove x = some '.' := hcx
    have hodd : x % 2 = 1 := by
      by_contra hne
      obtain ⟨ch, hch, hdot⟩ := hw x hr (by omega) (by omega)
      rw [hch] at hcx1
      simp only [Option.some.injEq] at hcx1
      exact hdot hcx1
    have hx : 2 * ((x - 1) / 2) + 1 = x := by omega
    refine ⟨(x - 1) / 2, by omega, by omega, by rw [hsl, hx]; exact hcx, ?_, ?_⟩
    · intro i hi1 hi2
      rw [hsl]
      obtain ⟨ch, hch, hne⟩ := hbefore (2 * i - 4).toNat (by omega)
      have he : (1 : Int) + 4 + ((2 * i - 4).toNat : Int) * 1 = 2 * i + 1 := by omega
      rw [he] at hch
      rw [hch]
      simpa using hne
    · have := finishPush_pushed g (fun col => (g.rowMove, col)) (-2)
        (fun a b hab => by simpa using hab) (by omega) x ((x - 1) / 2)
        (by omega)
        (fun j hj => by rw [hsl]; simp only [Prod.mk.injEq, true_and]; omega)
        (fun i hi1 hi2 => by rw [hsl]; exact hreadable _ (by omega) (by omega))
        (by rw [hsl, hx]; exact hcx)
      rw [hsl] at this
      have he1 : ((x - 1) / 2 - 1).toNat = ((x - (MOVE_INDEX g + 2) + 1) / 2).toNat := by
        rw [hmi]
        omega
      have he2 : (2 : Int) * 1 + 1 = MOVE_INDEX g + 2 := by
        rw [hmi]
        ring
      rw [he1] at this
      simp only [he2] at this
      simpa [push_right, hres] using this

/-! ### `push_move` and `play_move` on a board of the data model -/

theorem slotIndex_zero {g : Game} (hb : PlayBoard g) (hon : OnBorder g) :
    slotIndex g 0 = (g.rowMove, MOVE_INDEX g) := by
  obtain ⟨hr3, hc3, _, _⟩ := hb
  rcases hon with ⟨h1 | h1, h2, h3⟩ | ⟨h1 | h1, h2, h3⟩
  · rw [slotIndex_down h1 hr3, h1]
  · rw [slotIndex_up h1, h1]
    simp
  · rw [slotIndex_right h1 hc3 ⟨h2, h3⟩]
    simp [MOVE_INDEX, h1]
  · rw [slotIndex_left h1 ⟨h2, h3⟩]
    simp only [MOVE_INDEX, h1]
    congr 1
    ring

theorem slotIndex_injective {g : Game} (hb : PlayBoard g) (hon : OnBorder g) (i j : Int)
    (h : slotIndex g i = slotIndex g j) : i = j := by
  obtain ⟨hr3, hc3, _, _⟩ := hb
  rcases hon with ⟨h1 | h1, h2, h3⟩ | ⟨h1 | h1, h2, h3⟩
  · rw [slotIndex_down h1 hr3, slotIndex_down h1 hr3] at h
    simpa using h
  · rw [slotIndex_up h1, slotIndex_up h1] at h
    simpa using h
  · rw [slotIndex_right h1 hc3 ⟨h2, h3⟩, slotIndex_right h1 hc3 ⟨h2, h3⟩] at h
    simp only [Prod.mk.injEq, true_and] at h
    omega
  · rw [slotIndex_left h1 ⟨h2, h3⟩, slotIndex_left h1 ⟨h2, h3⟩] at h
    simp only [Prod.mk.injEq, true_and] at h
    omega

/-- Every slot of the targeted line lies on the board. -/
theorem slotIndex_readable {g : Game} (hb : PlayBoard g) (hon : OnBorder g) (i : Int)
    (hi : 0 ≤ i ∧ i ≤ lineLen g - 1) :
    ∃ ch, readCell g.board (slotIndex g i).1 (slotIndex g i).2 = some ch := by
  obtain ⟨hr3, hc3, hs, _⟩ := hb
  apply (readCell_isSome_iff hs _ _).mpr
  rcases hon with ⟨h1 | h1, h2, h3⟩ | ⟨h1 | h1, h2, h3⟩
  · have hl : lineLen g = g.rows := by simp [lineLen, h1]
    rw [slotIndex_down h1 hr3]
    simp only [MOVE_INDEX]
    omega
  · have hl : lineLen g = g.rows := by simp [lineLen, h1]
    rw [slotIndex_up h1]
    simp only [MOVE_INDEX]
    omega
  · have hl : lineLen g = g.columns := by
      have h4 : ¬ g.rowMove = g.rows - 1 := by omega
      have h5 : ¬ g.rowMove = 0 := by omega
      simp [lineLen, h4, h5]
    rw [slotIndex_right h1 hc3 ⟨h2, h3⟩]
    simp only
    omega
  · have hl : lineLen g = g.columns := by
      have h4 : ¬ g.rowMove = g.rows - 1 := by omega
      have h5 : ¬ g.rowMove = 0 := by omega
      simp [lineLen, h4, h5]
    rw [slotIndex_left h1 ⟨h2, h3⟩]
    simp only
    omega

theorem push_move_cases (g : Game) (hb : PlayBoard g) (hon : OnBorder g) :
    (readCell g.board (slotIndex g 1).1 (slotIndex g 1).2 = some '.' ∧
      push_move g = some g) ∨
    (readCell g.board (slotIndex g 1).1 (slotIndex g 1).2 ≠ some '.' ∧
      PushOutcome g (push_move g)) := by
  have hb0 := hb
  obtain ⟨hr3, hc3, hs, _⟩ := hb
  have hll : 1 ≤ lineLen g - 1 := by
    unfold lineLen
    split <;> omega
  obtain ⟨ch, hch⟩ := slotIndex_readable hb0 hon 1 ⟨by omega, hll⟩
  rcases hon with ⟨h1 | h1, h2, h3⟩ | ⟨h1 | h1, h2, h3⟩
  · have hsl := slotIndex_down h1 hr3 1
    rw [hsl] at hch ⊢
    have e1 : (g.rowMove == g.rows - 1) = false := by
      simp only [beq_eq_false_iff_ne, ne_eq]
      omega
    have e2 : (g.rowMove == 0) = true := by simp [h1]
    by_cases hdot : ch = '.'
    · left
      have e3 : (g.columnMove == g.columns - 1) = false := by
        simp only [beq_eq_false_iff_ne, ne_eq]
        omega
      have e4 : (g.columnMove == 0) = false := by
        simp only [beq_eq_false_iff_ne, ne_eq]
        omega
      refine ⟨by rw [hch, hdot], ?_⟩
      simp [push_move, edgeAndOccupied, e1, e2, e3, e4, hch, hdot]
    · right
      have hbne : (ch != '.') = true := bne_iff_ne.mpr hdot
      refine ⟨by rw [hch]; simpa using hdot, ?_⟩
      have : push_move g = push_down g := by
        simp [push_move, edgeAndOccupied, e1, e2, hch, hbne]
      rw [this]
      exact push_down_cases g hb0 h1 ⟨h2, h3⟩
  · have hsl := slotIndex_up h1 1
    have he : g.rows - 1 - 1 = g.rows - 2 := by ring
    rw [hsl, he] at hch ⊢
    have e1 : (g.rowMove == g.rows - 1) = true := by simp [h1]
    by_cases hdot : ch = '.'
    · left
      have e2 : (g.rowMove == 0) = false := by
        simp only [beq_eq_false_iff_ne, ne_eq]
        omega
      have e3 : (g.columnMove == g.columns - 1) = false := by
        simp only [beq_eq_false_iff_ne, ne_eq]
        omega
      have e4 : (g.columnMove == 0) = false := by
        simp only [beq_eq_false_iff_ne, ne_eq]
        omega
      refine ⟨by rw [hch, hdot], ?_⟩
      simp only [push_move, edgeAndOccupied, e1, e2, e3, e4, hch, hdot]
      simp
    · right
      have hbne : (ch != '.') = true := bne_iff_ne.mpr hdot
      refine ⟨by rw [hch]; simpa using hdot, ?_⟩
      have : push_move g = push_up g := by
        simp only [push_move, edgeAndOccupied, e1, hch]
        simp [hbne]
      rw [this]
      exact push_up_cases g hb0 h1 ⟨h2, h3⟩
  · have hsl := slotIndex_right h1 hc3 ⟨h2, h3⟩ 1
    rw [hsl] at hch ⊢
    have e1 : (g.rowMove == g.rows - 1) = false := by
      simp only [beq_eq_false_iff_ne, ne_eq]
      omega
    have e2 : (g.rowMove == 0) = false := by
      simp only [beq_eq_false_iff_ne, ne_eq]
      omega
    have e3 : (g.columnMove == g.columns - 1) = false := by
      simp only [beq_eq_false_iff_ne, ne_eq]
      omega
    have e4 : (g.columnMove == 0) = true := by simp [h1]
    have he : 2 * (g.columnMove + 1) + 1 = 2 * 1 + 1 := by rw [h1]; ring
    by_cases hdot : ch = '.'
    · left
      refine ⟨by rw [hch, hdot], ?_⟩
      simp only [push_move, edgeAndOccupied, e1, e2, e3, e4, he, hch, hdot]
      simp
    · right
      have hbne : (ch != '.') = true := bne_iff_ne.mpr hdot
      refine ⟨by rw [hch]; simpa using hdot, ?_⟩
      have : push_move g = push_right g := by
        simp only [push_move, edgeAndOccupied, e1, e2, e3, e4, he, hch]
        simp [hbne]
      rw [this]
      exact push_right_cases g hb0 h1 ⟨h2, h3⟩
  · have hsl := slotIndex_left h1 ⟨h2, h3⟩ 1
    have he : 2 * g.columns - 1 - 2 * 1 = LAST_INTERIOR_CELL_COLUMN g := by
      unfold LAST_INTERIOR_CELL_COLUMN
      ring
    rw [hsl, he] at hch ⊢
    have e1 : (g.rowMove == g.rows - 1) = false := by
      simp only [beq_eq_false_iff_ne, ne_eq]
      omega
    have e2 : (g.rowMove == 0) = false := by
      simp only [beq_eq_false_iff_ne, ne_eq]
      omega
    have e3 : (g.columnMove == g.columns - 1) = true := by simp [h1]
    by_cases hdot : ch = '.'
    · left
      have e4 : (g.columnMove == 0) = false := by
        simp only [beq_eq_false_iff_ne, ne_eq]
        omega
      refine ⟨by rw [hch, hdot], ?_⟩
      simp only [push_move, edgeAndOccupied, e1, e2, e3, e4, hch, hdot]
      simp
    · right
      have hbne : (ch != '.') = true := bne_iff_ne.mpr hdot
      refine ⟨by rw [hch]; simpa using hdot, ?_⟩
      have : push_move g = push_left g := by
        simp only [push_move, edgeAndOccupied, e1, e2, e3, hch]
        simp [hbne]
      rw [this]
      exact push_left_cases g hb0 h1 ⟨h2, h3⟩

theorem wellFormed_playBoard {g : Game} (h : WellFormed g) : PlayBoard g := by
  obtain ⟨hr3, hc3, hs, hcells⟩ := h
  refine ⟨hr3, hc3, hs, ?_⟩
  intro r h1 h2 j h3 h4
  have := hcells r h1 h2 j h3 h4
  by_cases hc : IsCorner g r j
  · simpa [hc] using this
  · simp only [hc, if_false] at this ⊢
    by_cases hi : IsInterior g r j
    · simp only [hi, if_true] at this
      obtain ⟨⟨w, hw, hlo, hhi⟩, hocc⟩ := this
      refine ⟨⟨w, hw, ?_⟩, hocc⟩
      simp only [Char.isDigit, Bool.and_eq_true, decide_eq_true_eq]
      have h7 : (49 : Nat) ≤ w.val.toNat := hlo
      have h8 : w.val ≤ (57 : UInt32) := hhi
      constructor
      · show (48 : Nat) ≤ w.val.toNat
        omega
      · exact h8
    · simp only [hi, if_false] at this
      exact ⟨⟨'0', this.1, by decide⟩, Or.inl this.2⟩

theorem xorEdge_iff (g : Game) :
    ((g.rowMove == 0 || g.rowMove == g.rows - 1) !=
      (g.columnMove == 0 || g.columnMove == g.columns - 1)) = true ↔
    (((g.rowMove = 0 ∨ g.rowMove = g.rows - 1) ∧
        ¬ (g.columnMove = 0 ∨ g.columnMove = g.columns - 1)) ∨
      (¬ (g.rowMove = 0 ∨ g.rowMove = g.rows - 1) ∧
        (g.columnMove = 0 ∨ g.columnMove = g.columns - 1))) := by
  rw [bne_iff_ne, Ne, Bool.eq_iff_iff]
  simp only [Bool.or_eq_true, beq_iff_eq]
  tauto

/-- On a board of the declared shape, a move on exactly one border axis whose
named cell lies on the board names a non-corner border cell. -/
theorem onBorder_of_xor {g : Game} (hs : Shaped g)
    (hx : ((g.rowMove == 0 || g.rowMove == g.rows - 1) !=
      (g.columnMove == 0 || g.columnMove == g.columns - 1)) = true)
    (hread : ∃ ch, readCell g.board g.rowMove (MOVE_INDEX g) = some ch) : OnBorder g := by
  have hrange := (readCell_isSome_iff hs _ _).mp hread
  unfold MOVE_INDEX at hrange
  rcases (xorEdge_iff g).mp hx with ⟨h1, h2⟩ | ⟨h1, h2⟩
  · left
    refine ⟨h1, ?_, ?_⟩ <;> omega
  · right
    refine ⟨h2, ?_, ?_⟩ <;> omega

theorem xor_of_onBorder {g : Game} (hon : OnBorder g) :
    ((g.rowMove == 0 || g.rowMove == g.rows - 1) !=
      (g.columnMove == 0 || g.columnMove == g.columns - 1)) = true := by
  apply (xorEdge_iff g).mpr
  rcases hon with ⟨h1, h2, h3⟩ | ⟨h1, h2, h3⟩
  · left
    exact ⟨h1, by omega⟩
  · right
    exact ⟨by omega, h1⟩

theorem not_interior_guard {g : Game} (hon : OnBorder g) :
    ¬ (g.rowMove > 0 ∧ g.rowMove < g.rows - 1 ∧
      g.columnMove > 0 ∧ g.columnMove < g.columns - 1) := by
  rcases hon with ⟨h1, h2, h3⟩ | ⟨h1, h2, h3⟩ <;> omega

/-- How `play_move` treats a parsed move naming a non-corner border cell. -/
theorem play_move_border (g : Game) (hb : PlayBoard g) (hon : OnBorder g) :
    play_move "" "" g =
      if readCell g.board g.rowMove (MOVE_INDEX g) = some '.' then push_move g
      else some g := by
  have hx := xor_of_onBorder hon
  have hni := not_interior_guard hon
  have h0 := slotIndex_zero hb hon
  have hl : 0 ≤ lineLen g - 1 := by
    unfold lineLen
    split <;> have := hb.1 <;> have := hb.2.1 <;> omega
  obtain ⟨ch, hch⟩ := slotIndex_readable hb hon 0 ⟨le_refl _, hl⟩
  rw [h0] at hch
  simp only at hch
  have hg : ¬ ("" = "" ∧ "" = "" ∧ g.rowMove > 0 ∧ g.rowMove < g.rows - 1 ∧
      g.columnMove > 0 ∧ g.columnMove < g.columns - 1) := fun h => hni h.2.2
  unfold play_move
  rw [if_neg hg]
  unfold play_move_push
  rw [if_pos ⟨rfl, rfl, hx⟩, hch]
  by_cases hdot : ch = '.'
  · simp [hdot]
  · simp [hdot]

/-- A move that is neither strictly interior nor on exactly one border axis
(a corner, or both coordinates off the edges) is ignored, whatever the strings. -/
theorem play_move_ignored (re ce : String) (g : Game)
    (hni : ¬ IsInterior g g.rowMove g.columnMove)
    (hx : ((g.rowMove == 0 || g.rowMove == g.rows - 1) !=
      (g.columnMove == 0 || g.columnMove == g.columns - 1)) = false) :
    play_move re ce g = some g := by
  have hg : ¬ (re = "" ∧ ce = "" ∧ g.rowMove > 0 ∧ g.rowMove < g.rows - 1 ∧
      g.columnMove > 0 ∧ g.columnMove < g.columns - 1) := fun h => hni h.2.2
  unfold play_move
  rw [if_neg hg]
  unfold play_move_push
  simp [hx]

theorem otherPlayer_ne (p : Char) : otherPlayer p ≠ p := by
  unfold otherPlayer
  split
  · rename_i h
    rw [h]
    decide
  · rename_i h
    exact fun h2 => h h2.symm

/-- A move whose text left a parse error is ignored. -/
theorem play_move_parse_error (re ce : String) (g : Game) (h : ¬ (re = "" ∧ ce = "")) :
    play_move re ce g = some g := by
  have hg : ¬ (re = "" ∧ ce = "" ∧ g.rowMove > 0 ∧ g.rowMove < g.rows - 1 ∧
      g.columnMove > 0 ∧ g.columnMove < g.columns - 1) := fun h1 => h ⟨h1.1, h1.2.1⟩
  have hg2 : ¬ (re = "" ∧ ce = "" ∧
      ((g.rowMove == 0 || g.rowMove == g.rows - 1) !=
        (g.columnMove == 0 || g.columnMove == g.columns - 1)) = true) :=
    fun h1 => h ⟨h1.1, h1.2.1⟩
  unfold play_move
  rw [if_neg hg]
  unfold play_move_push
  rw [if_neg hg2]

/-- Every way `play_move` can return on a board of the data model: the state
unchanged, a placement on an empty interior cell, or a push of the targeted
line up to its first empty slot. -/
theorem play_move_cases (re ce : String) (g g2 : Game) (hb : PlayBoard g)
    (h : play_move re ce g = some g2) :
    g2 = g ∨
    (IsInterior g g.rowMove g.columnMove ∧
      readCell g.board g.rowMove (MOVE_INDEX g) = some '.' ∧
      ∃ b1, writeCell g.board g.rowMove (MOVE_INDEX g) g.currentPlayer = some b1 ∧
        g2 = { g with board := b1, currentPlayer := otherPlayer g.currentPlayer }) ∨
    (OnBorder g ∧ readCell g.board g.rowMove (MOVE_INDEX g) = some '.' ∧
      readCell g.board (slotIndex g 1).1 (slotIndex g 1).2 ≠ some '.' ∧
      ∃ k : Int, 2 ≤ k ∧ k ≤ lineLen g - 1 ∧
        readCell g.board (slotIndex g k).1 (slotIndex g k).2 = some '.' ∧
        (∀ i : Int, 2 ≤ i → i < k →
          readCell g.board (slotIndex g i).1 (slotIndex g i).2 ≠ some '.') ∧
        ∃ b2, g2 = { g with board := b2, currentPlayer := otherPlayer g.currentPlayer } ∧
          PushedTo g k b2 ∧ stoneCount b2 = stoneCount g.board + stoneOf g.currentPlayer ∧
          b2.map List.length = g.board.map List.length) := by
  by_cases herr : re = "" ∧ ce = ""
  · obtain ⟨rfl, rfl⟩ := herr
    by_cases hint : IsInterior g g.rowMove g.columnMove
    · obtain ⟨h1, h2, h3, h4⟩ := hint
      have hx : ((g.rowMove == 0 || g.rowMove == g.rows - 1) !=
          (g.columnMove == 0 || g.columnMove == g.columns - 1)) = false := by
        rw [← Bool.not_eq_true]
        intro hx
        rcases (xorEdge_iff g).mp hx with ⟨h5, _⟩ | ⟨_, h5⟩ <;> omega
      have hg : ("" = "" ∧ "" = "" ∧ g.rowMove > 0 ∧ g.rowMove < g.rows - 1 ∧
          g.columnMove > 0 ∧ g.columnMove < g.columns - 1) := ⟨rfl, rfl, h1, h2, h3, h4⟩
      unfold play_move at h
      rw [if_pos hg] at h
      split at h
      · simp at h
      · rename_i ch hch
        by_cases hdot : ch = '.'
        · right
          left
          subst hdot
          simp only [if_true] at h
          split at h
          · simp at h
          · rename_i b1 hb1
            simp only [Option.some.injEq] at h
            exact ⟨⟨h1, h2, h3, h4⟩, hch, b1, hb1, h.symm⟩
        · left
          simp only [hdot, if_false, play_move_push, hx] at h
          simp only [Bool.false_eq_true, and_false, if_false, Option.some.injEq] at h
          exact h.symm
    · by_cases hx : ((g.rowMove == 0 || g.rowMove == g.rows - 1) !=
          (g.columnMove == 0 || g.columnMove == g.columns - 1)) = true
      · cases hread : readCell g.board g.rowMove (MOVE_INDEX g) with
        | none =>
          have hg : ¬ ("" = "" ∧ "" = "" ∧ g.rowMove > 0 ∧ g.rowMove < g.rows - 1 ∧
              g.columnMove > 0 ∧ g.columnMove < g.columns - 1) := fun h1 => hint h1.2.2
          unfold play_move at h
          rw [if_neg hg] at h
          unfold play_move_push at h
          rw [if_pos ⟨rfl, rfl, hx⟩, hread] at h
          simp at h
        | some ch =>
          have hon : OnBorder g := onBorder_of_xor hb.2.2.1 hx ⟨ch, hread⟩
          rw [play_move_border g hb hon, hread] at h
          by_cases hdot : ch = '.'
          · subst hdot
            simp only [if_true] at h
            rcases push_move_cases g hb hon with ⟨_, h5⟩ | ⟨hadj, ⟨_, h5⟩ | ⟨k, hk⟩⟩
            · left
              rw [h5] at h
              simp only [Option.some.injEq] at h
              exact h.symm
            · left
              rw [h5] at h
              simp only [Option.some.injEq] at h
              exact h.symm
            · right
              right
              obtain ⟨hk1, hk2, hk3, hk4, b2, h5, hk5⟩ := hk
              rw [h5] at h
              simp only [Option.some.injEq] at h
              exact ⟨hon, rfl, hadj, k, hk1, hk2, hk3, hk4, b2, h.symm, hk5⟩
          · left
            simp only [Option.some.injEq, hdot, if_false] at h
            exact h.symm
      · left
        rw [Bool.not_eq_true] at hx
        rw [play_move_ignored "" "" g hint hx] at h
        simp only [Option.some.injEq] at h
        exact h.symm
  · left
    rw [play_move_parse_error re ce g herr] at h
    simp only [Option.some.injEq] at h
    exact h.symm

/-! ### The validator loops -/

theorem forUpTo_inv {σ : Type} (body : Int → σ → Option σ) (Inv : Int → σ → Prop)
    (n : Nat) (i : Int) (s : σ) (h0 : Inv i s)
    (hstep : ∀ j : Nat, j < n → ∀ s1 s2, Inv (i + j) s1 → body (i + j) s1 = some s2 →
      Inv (i + j + 1) s2)
    (s3 : σ) (h : forUpTo body n i s = some s3) : Inv (i + n) s3 := by
  induction n generalizing i s with
  | zero =>
    simp only [forUpTo, Option.some.injEq] at h
    subst h
    simpa using h0
  | succ n ih =>
    unfold forUpTo at h
    split at h
    · simp at h
    · rename_i s1 hs1
      have h1 := hstep 0 (by omega) s s1 (by simpa using h0) (by simpa using hs1)
      simp only [Nat.cast_zero, add_zero] at h1
      have := ih (i + 1) s1 h1 (fun j hj t1 t2 ht1 ht2 => by
        have := hstep (j + 1) (by omega) t1 t2
          (by push_cast; rw [← add_assoc, add_right_comm]; exact ht1)
          (by push_cast; rw [← add_assoc, add_right_comm]; exact ht2)
        push_cast at this
        rw [add_assoc i 1 j, add_comm 1 (j : Int)]
        rw [← add_assoc] at this ⊢
        exact this) h
      push_cast
      rw [add_comm (n : Int) 1, ← add_assoc]
      exact this

theorem forUpTo_total {σ : Type} (body : Int → σ → Option σ) (Inv : Int → σ → Prop)
    (n : Nat) (i : Int) (s : σ) (h0 : Inv i s)
    (hstep : ∀ j : Nat, j < n → ∀ s1, Inv (i + j) s1 →
      ∃ s2, body (i + j) s1 = some s2 ∧ Inv (i + j + 1) s2) :
    ∃ s3, forUpTo body n i s = some s3 ∧ Inv (i + n) s3 := by
  induction n generalizing i s with
  | zero => exact ⟨s, rfl, by simpa using h0⟩
  | succ n ih =>
    obtain ⟨s1, hs1, hinv⟩ := hstep 0 (by omega) s (by simpa using h0)
    simp only [Nat.cast_zero, add_zero] at hs1 hinv
    obtain ⟨s3, hs3, hinv3⟩ := ih (i + 1) s1 hinv (fun j hj t1 ht1 => by
      have := hstep (j + 1) (by omega) t1
        (by push_cast; rw [← add_assoc, add_right_comm]; exact ht1)
      push_cast at this
      rw [add_assoc i 1 j, add_comm 1 (j : Int)]
      rw [← add_assoc] at this ⊢
      exact this)
    refine ⟨s3, ?_, ?_⟩
    · unfold forUpTo
      rw [hs1]
      exact hs3
    · push_cast
      rw [add_comm (n : Int) 1, ← add_assoc]
      exact hinv3

theorem cellStep_corner (g : Game) (r c : Int) (k : Counters) (x : Char)
    (hc3 : 3 ≤ g.columns)
    (hr : r = 0 ∨ r = g.rows - 1)
    (hc : c = 0 ∨ c = 1 ∨ c = 2 * g.columns - 1 ∨ c = 2 * g.columns - 2)
    (hx : readCell g.board r c = some x) :
    cellStep g r c k = some (if x = ' ' then k else { k with borderZeroCounter := -1 }) := by
  have h1 : ¬ (r ≠ 0 ∧ r ≠ g.rows - 1 ∧ c ≠ 0 ∧ c ≠ 2 * g.columns - 2) := by omega
  have h2 : ¬ (c > 1 ∧ c < 2 * g.columns - 2) := by omega
  have h3 : (r = 0 ∨ r = g.rows - 1) ∧
      (c = 0 ∨ c = 1 ∨ c = 2 * g.columns - 1 ∨ c = 2 * g.columns - 2) := ⟨hr, hc⟩
  simp only [cellStep, validate_interior, validate_border, cornerCheck,
    SCORE_COLUMN_OF_LAST_CELL, LAST_CELL_COLUMN, h1, if_false, hr, if_true, hx, h3]
  by_cases h0 : x = '0'
  · have hb : x ≠ ' ' := by rw [h0]; decide
    simp [h0, hb, hx]
  · by_cases hb : x = ' '
    · simp [h0, hb, h2, hx]
    · simp [h0, hb, h2, hx]

theorem cellStep_edge (g : Game) (r c : Int) (k : Counters) (x : Char)
    (hr3 : 3 ≤ g.rows) (hc3 : 3 ≤ g.columns)
    (hpos : ((r = 0 ∨ r = g.rows - 1) ∧ 2 ≤ c ∧ c ≤ 2 * g.columns - 3) ∨
      (0 < r ∧ r < g.rows - 1 ∧ (c = 0 ∨ c = 2 * g.columns - 2)))
    (hx : readCell g.board r c = some x) :
    cellStep g r c k = some
      (if x = '0' then { k with borderZeroCounter := k.borderZeroCounter + 1 }
        else if invalidAt c x = true then
          { k with invalidCharCounter := k.invalidCharCounter + 1 }
        else k) := by
  rcases hpos with ⟨hr, h1, h2⟩ | ⟨h1, h2, hc⟩
  · have e1 : ¬ (r ≠ 0 ∧ r ≠ g.rows - 1 ∧ c ≠ 0 ∧ c ≠ 2 * g.columns - 2) := by omega
    have e2 : (c > 1 ∧ c < 2 * g.columns - 2) := by omega
    have e3 : ¬ (c = 0 ∨ c = 1 ∨ c = 2 * g.columns - 1 ∨ c = 2 * g.columns - 2) := by omega
    simp only [cellStep, validate_interior, validate_border, cornerCheck,
      SCORE_COLUMN_OF_LAST_CELL, LAST_CELL_COLUMN, e1, if_false, hr, if_true, hx]
    by_cases h0 : x = '0'
    · simp [h0, e3]
    · by_cases hi : invalidAt c x = true
      · simp [h0, hi, e2, e3]
      · simp [h0, hi, e3]
  · have e1 : ¬ (r ≠ 0 ∧ r ≠ g.rows - 1 ∧ c ≠ 0 ∧ c ≠ 2 * g.columns - 2) := by omega
    have e2 : ¬ (r = 0 ∨ r = g.rows - 1) := by omega
    have e3 : ¬ ((r = 0 ∨ r = g.rows - 1) ∧
        (c = 0 ∨ c = 1 ∨ c = 2 * g.columns - 1 ∨ c = 2 * g.columns - 2)) := by omega
    simp only [cellStep, validate_interior, validate_border, cornerCheck,
      SCORE_COLUMN_OF_LAST_CELL, LAST_CELL_COLUMN, e1, if_false, e2, hc, if_true, hx, e3]
    by_cases h0 : x = '0'
    · simp [h0]
    · by_cases hi : invalidAt c x = true
      · simp [h0, hi]
      · simp [h0, hi]

theorem cellStep_inner (g : Game) (r c : Int) (k : Counters) (x : Char)
    (hr : 0 < r ∧ r < g.rows - 1) (hc : c ≠ 0 ∧ c ≠ 2 * g.columns - 2)
    (hx : readCell g.board r c = some x) :
    cellStep g r c k = some
      (if x = '0' then { k with interiorZeroCounter := k.interiorZeroCounter + 1 }
        else if invalidAt c x = true then
          { k with invalidCharCounter := k.invalidCharCounter + 1 }
        else k) := by
  have e1 : ¬ r = 0 := by omega
  have e2 : ¬ r = g.rows - 1 := by omega
  have e3 : ¬ c = 0 := hc.1
  have e4 : ¬ c = 2 * g.columns - 2 := hc.2
  simp only [cellStep, validate_interior, validate_border, cornerCheck,
    SCORE_COLUMN_OF_LAST_CELL, LAST_CELL_COLUMN, hx]
  by_cases h0 : x = '0'
  · simp [h0, e1, e2, e3, e4]
  · by_cases hi : invalidAt c x = true
    · simp [h0, hi, e1, e2, e3, e4]
    · simp [h0, hi, e1, e2, e3, e4]

/-- The loop body succeeds wherever the character exists. -/
theorem cellStep_total (g : Game) (r c : Int) (k : Counters) (x : Char)
    (hx : readCell g.board r c = some x) : ∃ k1, cellStep g r c k = some k1 := by
  simp only [cellStep, validate_interior, validate_border, cornerCheck, hx]
  split_ifs <;> simp

theorem invalidAt_false_iff (c : Int) (x : Char) :
    invalidAt c x = false ↔
      ((c % 2 = 0 → x.isDigit = true) ∧ (c % 2 ≠ 0 → x = '.' ∨ x = 'O' ∨ x = 'X')) := by
  unfold invalidAt
  by_cases hc : c % 2 = 0
  · simp [hc]
  · have hb : (c % 2 != 0) = true := by simpa using hc
    simp only [hb, Bool.true_or, Bool.not_true, Bool.false_or, Bool.true_and]
    by_cases h1 : x = '.'
    · simp [h1, hc]
    · by_cases h2 : x = 'O'
      · simp [h2, hc]
      · by_cases h3 : x = 'X'
        · simp [h3, hc]
        · simp [h1, h2, h3, hc]

/-- The character a well-formed board holds at each position. -/
theorem wellFormed_char {g : Game} (hwf : WellFormed g) (r c : Int)
    (hr : 0 ≤ r ∧ r < g.rows) (hc : 0 ≤ c ∧ c < 2 * g.columns) :
    ∃ x, readCell g.board r c = some x ∧
      (((r = 0 ∨ r = g.rows - 1) ∧ (c < 2 ∨ 2 * g.columns - 2 ≤ c)) → x = ' ') ∧
      ((((r = 0 ∨ r = g.rows - 1) ∧ 2 ≤ c ∧ c < 2 * g.columns - 2) ∨
          (0 < r ∧ r < g.rows - 1 ∧ (c < 2 ∨ 2 * g.columns - 2 ≤ c))) →
        (c % 2 = 0 → x = '0') ∧ (c % 2 = 1 → x = '.')) ∧
      ((0 < r ∧ r < g.rows - 1 ∧ 2 ≤ c ∧ c < 2 * g.columns - 2) →
        (c % 2 = 0 → '1' ≤ x ∧ x ≤ '9') ∧ (c % 2 = 1 → x = '.' ∨ x = 'O' ∨ x = 'X')) := by
  obtain ⟨hr3, hc3, hs, hcells⟩ := hwf
  have h := hcells r hr.1 hr.2 (c / 2) (by omega) (by omega)
  obtain ⟨x, hx⟩ := (readCell_isSome_iff hs r c).mpr ⟨hr.1, hr.2, hc.1, hc.2⟩
  refine ⟨x, hx, ?_, ?_, ?_⟩
  · intro hcor
    have hcorner : IsCorner g r (c / 2) := by
      unfold IsCorner
      omega
    simp only [hcorner, if_true, weight, occ] at h
    rcases Int.emod_two_eq_zero_or_one c with h2 | h2
    · have he : 2 * (c / 2) = c := by omega
      rw [he, hx] at h
      simpa using h.1
    · have he : 2 * (c / 2) + 1 = c := by omega
      rw [he, hx] at h
      simpa using h.2
  · intro hbor
    have hcorner : ¬ IsCorner g r (c / 2) := by
      unfold IsCorner
      omega
    have hint : ¬ IsInterior g r (c / 2) := by
      unfold IsInterior
      omega
    simp only [hcorner, hint, if_false, weight, occ] at h
    constructor
    · intro h2
      have he : 2 * (c / 2) = c := by omega
      rw [he, hx] at h
      simpa using h.1
    · intro h2
      have he : 2 * (c / 2) + 1 = c := by omega
      rw [he, hx] at h
      simpa using h.2
  · intro hin
    have hcorner : ¬ IsCorner g r (c / 2) := by
      unfold IsCorner
      omega
    have hint : IsInterior g r (c / 2) := by
      unfold IsInterior
      omega
    simp only [hcorner, hint, if_false, if_true, weight, occ] at h
    constructor
    · intro h2
      have he : 2 * (c / 2) = c := by omega
      rw [he, hx] at h
      obtain ⟨⟨w, hw, hlo, hhi⟩, _⟩ := h
      simp only [Option.some.injEq] at hw
      subst hw
      exact ⟨hlo, hhi⟩
    · intro h2
      have he : 2 * (c / 2) + 1 = c := by omega
      rw [he, hx] at h
      simpa using h.2

theorem digit_of_one_nine {x : Char} (h : '1' ≤ x ∧ x ≤ '9') :
    x.isDigit = true ∧ x ≠ '0' := by
  have h7 : (49 : Nat) ≤ x.val.toNat := h.1
  have h8 : x.val ≤ (57 : UInt32) := h.2
  constructor
  · simp only [Char.isDigit, Bool.and_eq_true, decide_eq_true_eq]
    constructor
    · show (48 : Nat) ≤ x.val.toNat
      omega
    · exact h8
  · intro h0
    rw [h0] at h7
    exact absurd h7 (by decide)

theorem borderBefore_succ (g : Game) (r c : Int) (hc3 : 3 ≤ g.columns)
    (hr : 0 ≤ r ∧ r < g.rows) (hc : 0 ≤ c ∧ c < 2 * g.columns) :
    borderBefore g r (c + 1) = borderBefore g r c +
      (if ((r = 0 ∨ r = g.rows - 1) ∧ 2 ≤ c ∧ c ≤ 2 * g.columns - 3 ∧ c % 2 = 0) ∨
          (0 < r ∧ r < g.rows - 1 ∧ (c = 0 ∨ c = 2 * g.columns - 2)) then 1 else 0) := by
  unfold borderBefore
  rw [add_assoc]
  congr 1
  unfold colsBefore
  by_cases hedge : r = 0 ∨ r = g.rows - 1
  · have h1 : ¬ (0 < r ∧ r < g.rows - 1 ∧ (c = 0 ∨ c = 2 * g.columns - 2)) := by omega
    simp only [hedge, if_true, true_and, h1, or_false, min_def]
    split_ifs <;> omega
  · simp only [hedge, if_false, false_and, false_or]
    split_ifs <;> omega

theorem borderBefore_row_end (g : Game) (r : Int) (hr3 : 3 ≤ g.rows) (hc3 : 3 ≤ g.columns)
    (hr : 0 ≤ r ∧ r < g.rows) :
    borderBefore g r (2 * g.columns) = borderBefore g (r + 1) 0 := by
  have a1 : colsBefore g (r + 1) 0 = 0 := by
    unfold colsBefore
    split_ifs <;> omega
  have a2 : rowsBefore g r = if r = 0 then 0 else (g.columns - 2) + 2 * (r - 1) := by
    unfold rowsBefore
    split_ifs <;> omega
  have a3 : rowsBefore g (r + 1) =
      if r = g.rows - 1 then 2 * (g.columns - 2) + 2 * (g.rows - 2)
      else (g.columns - 2) + 2 * r := by
    unfold rowsBefore
    split_ifs <;> omega
  have a4 : colsBefore g r (2 * g.columns) =
      if r = 0 ∨ r = g.rows - 1 then g.columns - 2 else 2 := by
    unfold colsBefore
    simp only [min_def]
    split_ifs <;> omega
  unfold borderBefore
  rw [a1, a2, a3, a4]
  split_ifs <;> omega

theorem borderBefore_end (g : Game) (hr3 : 3 ≤ g.rows) (hc3 : 3 ≤ g.columns) :
    borderBefore g 0 0 = 0 ∧ borderBefore g g.rows 0 = 2 * (g.rows + g.columns) - 8 := by
  unfold borderBefore colsBefore rowsBefore
  constructor
  · simp
  · split_ifs <;> omega

theorem cellStep_wellFormed {g : Game} (hwf : WellFormed g) (r c : Int)
    (hr : 0 ≤ r ∧ r < g.rows) (hc : 0 ≤ c ∧ c < 2 * g.columns) (k : Counters)
    (hk : k.borderZeroCounter = borderBefore g r c ∧ k.interiorZeroCounter = 0 ∧
      k.invalidCharCounter = 0) :
    ∃ k2, cellStep g r c k = some k2 ∧
      k2.borderZeroCounter = borderBefore g r (c + 1) ∧ k2.interiorZeroCounter = 0 ∧
      k2.invalidCharCounter = 0 := by
  obtain ⟨x, hx, hcorner, hborder, hinner⟩ := wellFormed_char hwf r c hr hc
  have hr3 := hwf.1
  have hc3 := hwf.2.1
  obtain ⟨hk1, hk2, hk3⟩ := hk
  have hsucc := borderBefore_succ g r c hc3 hr hc
  by_cases hedge : r = 0 ∨ r = g.rows - 1
  · by_cases hcc : c < 2 ∨ 2 * g.columns - 2 ≤ c
    · have hxb := hcorner ⟨hedge, hcc⟩
      refine ⟨k, ?_, ?_, hk2, hk3⟩
      · rw [cellStep_corner g r c k x hc3 hedge (by omega) hx, if_pos hxb]
      · rw [hsucc, if_neg (by omega), hk1, add_zero]
    · have hxb := hborder (Or.inl ⟨hedge, by omega, by omega⟩)
      rcases Int.emod_two_eq_zero_or_one c with h2 | h2
      · have h0 := hxb.1 h2
        refine ⟨{ k with borderZeroCounter := k.borderZeroCounter + 1 }, ?_, ?_, hk2, hk3⟩
        · rw [cellStep_edge g r c k x hr3 hc3 (Or.inl ⟨hedge, by omega, by omega⟩) hx,
            if_pos h0]
        · show k.borderZeroCounter + 1 = _
          rw [hsucc, if_pos (by omega), hk1]
      · have h0 := hxb.2 h2
        have hne : ¬ x = '0' := by rw [h0]; decide
        have hinv : ¬ invalidAt c x = true := by
          rw [Bool.not_eq_true]
          apply (invalidAt_false_iff c x).mpr
          exact ⟨fun h => by omega, fun _ => Or.inl h0⟩
        refine ⟨k, ?_, ?_, hk2, hk3⟩
        · rw [cellStep_edge g r c k x hr3 hc3 (Or.inl ⟨hedge, by omega, by omega⟩) hx,
            if_neg hne, if_neg hinv]
        · rw [hsucc, if_neg (by omega), hk1, add_zero]
  · have hrin : 0 < r ∧ r < g.rows - 1 := by omega
    by_cases hcc : c = 0 ∨ c = 2 * g.columns - 2
    · have hxb := hborder (Or.inr ⟨hrin.1, hrin.2, by omega⟩)
      have h0 := hxb.1 (by omega)
      refine ⟨{ k with borderZeroCounter := k.borderZeroCounter + 1 }, ?_, ?_, hk2, hk3⟩
      · rw [cellStep_edge g r c k x hr3 hc3 (Or.inr ⟨hrin.1, hrin.2, hcc⟩) hx, if_pos h0]
      · show k.borderZeroCounter + 1 = _
        rw [hsucc, if_pos (by omega), hk1]
    · have hok : ¬ x = '0' ∧ ¬ invalidAt c x = true := by
        rw [Bool.not_eq_true, invalidAt_false_iff]
        by_cases hside : c < 2 ∨ 2 * g.columns - 2 ≤ c
        · have hxb := hborder (Or.inr ⟨hrin.1, hrin.2, hside⟩)
          have h0 := hxb.2 (by omega)
          refine ⟨by rw [h0]; decide, fun h => by omega, fun _ => Or.inl h0⟩
        · have hxi := hinner ⟨hrin.1, hrin.2, by omega, by omega⟩
          rcases Int.emod_two_eq_zero_or_one c with h2 | h2
          · have hd := digit_of_one_nine (hxi.1 h2)
            exact ⟨hd.2, fun _ => hd.1, fun h => absurd h2 h⟩
          · have h0 := hxi.2 h2
            refine ⟨?_, fun h => by omega, fun _ => h0⟩
            rcases h0 with h0 | h0 | h0 <;> rw [h0] <;> decide
      refine ⟨k, ?_, ?_, hk2, hk3⟩
      · rw [cellStep_inner g r c k x hrin (by omega) hx, if_neg hok.1, if_neg hok.2]
      · rw [hsucc, if_neg (by omega), hk1, add_zero]

theorem scanBoard_wellFormed {g : Game} (hwf : WellFormed g) :
    ∃ k, scanBoard g = some k ∧ k.borderZeroCounter = 2 * (g.rows + g.columns) - 8 ∧
      k.interiorZeroCounter = 0 ∧ k.invalidCharCounter = 0 := by
  have hr3 := hwf.1
  have hc3 := hwf.2.1
  have hrow : ∀ r : Int, 0 ≤ r ∧ r < g.rows → ∀ k : Counters,
      (k.borderZeroCounter = borderBefore g r 0 ∧ k.interiorZeroCounter = 0 ∧
        k.invalidCharCounter = 0) →
      ∃ k2, forUpTo (fun c k1 => cellStep g r c k1) (2 * g.columns).toNat 0 k = some k2 ∧
        k2.borderZeroCounter = borderBefore g (r + 1) 0 ∧ k2.interiorZeroCounter = 0 ∧
        k2.invalidCharCounter = 0 := by
    intro r hr k hk
    obtain ⟨k2, hk2, hinv⟩ := forUpTo_total (fun c k1 => cellStep g r c k1)
      (fun c k1 => k1.borderZeroCounter = borderBefore g r c ∧ k1.interiorZeroCounter = 0 ∧
        k1.invalidCharCounter = 0) (2 * g.columns).toNat 0 k hk
      (fun j hj k1 hk1 => cellStep_wellFormed hwf r (0 + j) hr (by omega) k1 hk1)
    refine ⟨k2, hk2, ?_, hinv.2⟩
    have he : (0 : Int) + ((2 * g.columns).toNat : Int) = 2 * g.columns := by omega
    rw [hinv.1, he]
    exact borderBefore_row_end g r hr3 hc3 hr
  obtain ⟨k, hk, hinv⟩ := forUpTo_total
    (fun r k => forUpTo (fun c k1 => cellStep g r c k1) (2 * g.columns).toNat 0 k)
    (fun r k1 => k1.borderZeroCounter = borderBefore g r 0 ∧ k1.interiorZeroCounter = 0 ∧
      k1.invalidCharCounter = 0) g.rows.toNat 0 ⟨0, 0, 0⟩
    ⟨(borderBefore_end g hr3 hc3).1.symm, rfl, rfl⟩
    (fun j hj k1 hk1 => hrow (0 + j) (by omega) k1 hk1)
  refine ⟨k, hk, ?_, hinv.2⟩
  have he : (0 : Int) + (g.rows.toNat : Int) = g.rows := by omega
  rw [hinv.1, he]
  exact (borderBefore_end g hr3 hc3).2

/-- Invariant rule for the two nested loops of the validator. -/
theorem scanBoard_inv (g : Game) (P : Int → Int → Counters → Prop)
    (h0 : P 0 0 ⟨0, 0, 0⟩)
    (hstep : ∀ r c k k2, 0 ≤ r ∧ r < g.rows → 0 ≤ c ∧ c < 2 * g.columns → P r c k →
      cellStep g r c k = some k2 → P r (c + 1) k2)
    (hrow : ∀ r k, 0 ≤ r ∧ r < g.rows → P r ((2 * g.columns).toNat) k → P (r + 1) 0 k)
    (k : Counters) (h : scanBoard g = some k) : P g.rows.toNat 0 k := by
  have := forUpTo_inv
    (fun r k => forUpTo (fun c k1 => cellStep g r c k1) (2 * g.columns).toNat 0 k)
    (fun r k1 => P r 0 k1) g.rows.toNat 0 ⟨0, 0, 0⟩ h0
    (fun j hj k1 k2 hk1 hk2 => by
      have h1 := forUpTo_inv (fun c k1 => cellStep g (0 + j) c k1)
        (fun c k3 => P (0 + j) c k3) (2 * g.columns).toNat 0 k1 hk1
        (fun i hi k3 k4 hk3 hk4 =>
          hstep (0 + j) (0 + i) k3 k4 (by omega) (by omega) hk3 hk4) k2 hk2
      simp only [zero_add] at h1 ⊢
      exact hrow j k2 (by omega) h1) k h
  simpa using this

/-- On a board of the declared shape the scan reads only stored characters. -/
theorem scanBoard_total (g : Game) (hs : Shaped g) : ∃ k, scanBoard g = some k := by
  obtain ⟨k, hk, _⟩ := forUpTo_total
    (fun r k => forUpTo (fun c k1 => cellStep g r c k1) (2 * g.columns).toNat 0 k)
    (fun _ _ => True) g.rows.toNat 0 ⟨0, 0, 0⟩ trivial
    (fun j hj k1 _ => by
      obtain ⟨k2, hk2, _⟩ := forUpTo_total (fun c k1 => cellStep g (0 + j) c k1)
        (fun _ _ => True) (2 * g.columns).toNat 0 k1 trivial
        (fun i hi k3 _ => by
          obtain ⟨x, hx⟩ := (readCell_isSome_iff hs (0 + j) (0 + i)).mpr
            ⟨by omega, by omega, by omega, by omega⟩
          obtain ⟨k4, hk4⟩ := cellStep_total g (0 + j) (0 + i) k3 x hx
          exact ⟨k4, hk4, trivial⟩)
      exact ⟨k2, hk2, trivial⟩)
  exact ⟨k, hk⟩

/-- The handler returns the entry status or the contents error once the scan
has returned. -/
theorem handler_cases (g : Game) (re ce : String) (st : ExitCodes) (hs : Shaped g) :
    file_contents_error_handler g re ce st = some st ∨
      file_contents_error_handler g re ce st = some ExitCodes.EXIT_FILE_CONTENTS := by
  obtain ⟨k, hk⟩ := scanBoard_total g hs
  unfold file_contents_error_handler
  rw [hk]
  simp only
  split
  · exact Or.inr rfl
  · exact Or.inl rfl

/-- What acceptance says about the header and the counters. -/
theorem handler_accepts (g : Game) (re ce : String)
    (h : file_contents_error_handler g re ce ExitCodes.EXIT_NORMAL =
      some ExitCodes.EXIT_NORMAL) :
    3 ≤ g.rows ∧ 3 ≤ g.columns ∧ ValidPlayer g ∧ re = "" ∧ ce = "" ∧
    ∃ k, scanBoard g = some k ∧ k.borderZeroCounter = 2 * (g.rows + g.columns) - 8 ∧
      k.interiorZeroCounter = 0 ∧ k.invalidCharCounter = 0 := by
  unfold file_contents_error_handler at h
  split at h
  · simp at h
  · rename_i k hk
    split at h
    · simp at h
    · rename_i hcond
      push_neg at hcond
      obtain ⟨h1, h2, _, h4, h5, _, _, h8, h9, h10, h11⟩ := hcond
      refine ⟨by omega, by omega, ?_, h10, h11, k, hk, h4, h5, h8⟩
      unfold ValidPlayer
      by_cases hx : g.currentPlayer = 'X'
      · exact Or.inr hx
      · exact Or.inl (h9 hx)

theorem before_succ {g : Game} {r c r1 c1 : Int} (h : Before g r (c + 1) r1 c1) :
    Before g r c r1 c1 ∨ (r1 = r ∧ c1 = c) := by
  unfold Before at *
  omega

theorem before_row {g : Game} {r r1 c1 : Int} (h : Before g (r + 1) 0 r1 c1) :
    Before g r ((2 * g.columns).toNat) r1 c1 := by
  unfold Before at *
  omega

/-- When the validator accepts, no scanned character touched the interior-zero
or the invalid-character counter. -/
theorem scan_local_sound (g : Game) (hs : Shaped g) (hr3 : 3 ≤ g.rows)
    (hc3 : 3 ≤ g.columns) (k : Counters) (hk : scanBoard g = some k)
    (hz : k.interiorZeroCounter = 0 ∧ k.invalidCharCounter = 0)
    (r1 c1 : Int) (hr1 : 0 ≤ r1 ∧ r1 < g.rows) (hc1 : 0 ≤ c1 ∧ c1 < 2 * g.columns) :
    ∃ x, readCell g.board r1 c1 = some x ∧ LocalOK g r1 c1 x := by
  have hinv := scanBoard_inv g
    (fun r c k => 0 ≤ k.interiorZeroCounter ∧ 0 ≤ k.invalidCharCounter ∧
      ((k.interiorZeroCounter = 0 ∧ k.invalidCharCounter = 0) →
        ∀ r1 c1, Before g r c r1 c1 → ∃ x, readCell g.board r1 c1 = some x ∧ LocalOK g r1 c1 x))
    ⟨le_refl _, le_refl _, fun _ r1 c1 hb => by unfold Before at hb; omega⟩
    (fun r c k k2 hr hc hP hstep => by
      obtain ⟨hi, hv, hall⟩ := hP
      obtain ⟨x, hx⟩ := (readCell_isSome_iff hs r c).mpr ⟨hr.1, hr.2, hc.1, hc.2⟩
      have key : 0 ≤ k2.interiorZeroCounter ∧ 0 ≤ k2.invalidCharCounter ∧
          ((k2.interiorZeroCounter = 0 ∧ k2.invalidCharCounter = 0) →
            (k.interiorZeroCounter = 0 ∧ k.invalidCharCounter = 0) ∧ LocalOK g r c x) := by
        by_cases hedge : r = 0 ∨ r = g.rows - 1
        · by_cases hcc : c < 2 ∨ 2 * g.columns - 2 ≤ c
          · rw [cellStep_corner g r c k x hc3 hedge (by omega) hx] at hstep
            simp only [Option.some.injEq] at hstep
            subst hstep
            have hl : LocalOK g r c x := ⟨fun h => by omega, fun h => by omega⟩
            split_ifs
            · exact ⟨hi, hv, fun h => ⟨h, hl⟩⟩
            · exact ⟨hi, hv, fun h => ⟨h, hl⟩⟩
          · rw [cellStep_edge g r c k x hr3 hc3 (Or.inl ⟨hedge, by omega, by omega⟩) hx]
              at hstep
            simp only [Option.some.injEq] at hstep
            subst hstep
            split_ifs with h0 h1
            · exact ⟨hi, hv, fun h => ⟨h, fun h2 => by omega, fun _ => Or.inl h0⟩⟩
            · refine ⟨hi, by simp only; omega, fun h => ?_⟩
              simp only at h
              omega
            · rw [Bool.not_eq_true] at h1
              exact ⟨hi, hv, fun h => ⟨h, fun h2 => by omega, fun _ => Or.inr h1⟩⟩
        · have hrin : 0 < r ∧ r < g.rows - 1 := by omega
          by_cases hcc : c = 0 ∨ c = 2 * g.columns - 2
          · rw [cellStep_edge g r c k x hr3 hc3 (Or.inr ⟨hrin.1, hrin.2, hcc⟩) hx] at hstep
            simp only [Option.some.injEq] at hstep
            subst hstep
            split_ifs with h0 h1
            · exact ⟨hi, hv, fun h => ⟨h, fun h2 => by omega, fun _ => Or.inl h0⟩⟩
            · refine ⟨hi, by simp only; omega, fun h => ?_⟩
              simp only at h
              omega
            · rw [Bool.not_eq_true] at h1
              exact ⟨hi, hv, fun h => ⟨h, fun h2 => by omega, fun _ => Or.inr h1⟩⟩
          · rw [cellStep_inner g r c k x hrin (by omega) hx] at hstep
            simp only [Option.some.injEq] at hstep
            subst hstep
            split_ifs with h0 h1
            · refine ⟨by simp only; omega, hv, fun h => ?_⟩
              simp only at h
              omega
            · refine ⟨hi, by simp only; omega, fun h => ?_⟩
              simp only at h
              omega
            · rw [Bool.not_eq_true] at h1
              exact ⟨hi, hv, fun h => ⟨h, fun _ => ⟨h0, h1⟩, fun h2 => by omega⟩⟩
      refine ⟨key.1, key.2.1, fun hzero r1 c1 hb => ?_⟩
      obtain ⟨hk0, hl⟩ := key.2.2 hzero
      rcases before_succ hb with h1 | ⟨h1, h2⟩
      · exact hall hk0 r1 c1 h1
      · subst h1 h2
        exact ⟨x, hx, hl⟩)
    (fun r k hr hP => ⟨hP.1, hP.2.1, fun hzero r1 c1 hb => hP.2.2 hzero r1 c1 (before_row hb)⟩)
    k hk
  apply hinv.2.2 hz
  unfold Before
  omega

theorem borderBefore_nonneg (g : Game) (r c : Int) (hr3 : 3 ≤ g.rows) (hc3 : 3 ≤ g.columns) :
    0 ≤ borderBefore g r c := by
  have h1 : 0 ≤ rowsBefore g r := by
    unfold rowsBefore
    split_ifs <;> omega
  have h2 : 0 ≤ colsBefore g r c := by
    unfold colsBefore
    simp only [min_def]
    split_ifs <;> omega
  unfold borderBefore
  omega

/-- When the validator accepts a board with no `0` in an occupancy position of
its first and last row, every scanned corner character is a blank and every
scanned border weight is `0`. -/
theorem scan_border_sound (g : Game) (hs : Shaped g) (hr3 : 3 ≤ g.rows)
    (hc3 : 3 ≤ g.columns)
    (hnz : ∀ r c : Int, (r = 0 ∨ r = g.rows - 1) → 2 ≤ c → c ≤ 2 * g.columns - 3 →
      c % 2 = 1 → readCell g.board r c ≠ some '0')
    (k : Counters) (hk : scanBoard g = some k)
    (hb : k.borderZeroCounter = 2 * (g.rows + g.columns) - 8)
    (r1 c1 : Int) (hr1 : 0 ≤ r1 ∧ r1 < g.rows) (hc1 : 0 ≤ c1 ∧ c1 < 2 * g.columns) :
    ∃ x, readCell g.board r1 c1 = some x ∧ BorderOK g r1 c1 x := by
  have hinv := scanBoard_inv g
    (fun r c k => k.borderZeroCounter ≤ borderBefore g r c ∧
      (k.borderZeroCounter = borderBefore g r c →
        ∀ r1 c1, Before g r c r1 c1 → ∃ x, readCell g.board r1 c1 = some x ∧ BorderOK g r1 c1 x))
    ⟨by rw [(borderBefore_end g hr3 hc3).1],
      fun _ r1 c1 hb => by unfold Before at hb; omega⟩
    (fun r c k k2 hr hc hP hstep => by
      obtain ⟨hle, hall⟩ := hP
      obtain ⟨x, hx⟩ := (readCell_isSome_iff hs r c).mpr ⟨hr.1, hr.2, hc.1, hc.2⟩
      have hsucc := borderBefore_succ g r c hc3 hr hc
      have hnn := borderBefore_nonneg g r c hr3 hc3
      have key : k2.borderZeroCounter ≤ borderBefore g r (c + 1) ∧
          (k2.borderZeroCounter = borderBefore g r (c + 1) →
            k.borderZeroCounter = borderBefore g r c ∧ BorderOK g r c x) := by
        by_cases hedge : r = 0 ∨ r = g.rows - 1
        · by_cases hcc : c < 2 ∨ 2 * g.columns - 2 ≤ c
          · rw [cellStep_corner g r c k x hc3 hedge (by omega) hx] at hstep
            simp only [Option.some.injEq] at hstep
            subst hstep
            have hE : borderBefore g r (c + 1) = borderBefore g r c := by
              rw [hsucc, if_neg (by omega), add_zero]
            rw [hE]
            split_ifs with hblank
            · exact ⟨hle, fun h => ⟨h, fun _ => hblank, fun h2 => by omega⟩⟩
            · refine ⟨by simp only; omega, fun h => ?_⟩
              simp only at h
              omega
          · rw [cellStep_edge g r c k x hr3 hc3 (Or.inl ⟨hedge, by omega, by omega⟩) hx]
              at hstep
            simp only [Option.some.injEq] at hstep
            subst hstep
            rcases Int.emod_two_eq_zero_or_one c with h2 | h2
            · have hE : borderBefore g r (c + 1) = borderBefore g r c + 1 := by
                rw [hsucc, if_pos (by omega)]
              rw [hE]
              split_ifs with h0 h1
              · refine ⟨by simp only; omega, fun h => ?_⟩
                simp only at h
                exact ⟨by omega, fun h3 => by omega, fun _ => h0⟩
              · refine ⟨by simp only; omega, fun h => ?_⟩
                simp only at h
                omega
              · exact ⟨by omega, fun h => by omega⟩
            · have hx0 : ¬ x = '0' := by
                intro h0
                have := hnz r c hedge (by omega) (by omega) h2
                rw [hx, h0] at this
                exact this rfl
              have hE : borderBefore g r (c + 1) = borderBefore g r c := by
                rw [hsucc, if_neg (by omega), add_zero]
              rw [hE]
              have hok : BorderOK g r c x := ⟨fun h => by omega, fun h => by omega⟩
              split_ifs with h1
              · exact ⟨hle, fun h => ⟨h, hok⟩⟩
              · exact ⟨hle, fun h => ⟨h, hok⟩⟩
        · have hrin : 0 < r ∧ r < g.rows - 1 := by omega
          by_cases hcc : c = 0 ∨ c = 2 * g.columns - 2
          · rw [cellStep_edge g r c k x hr3 hc3 (Or.inr ⟨hrin.1, hrin.2, hcc⟩) hx] at hstep
            simp only [Option.some.injEq] at hstep
            subst hstep
            have hE : borderBefore g r (c + 1) = borderBefore g r c + 1 := by
              rw [hsucc, if_pos (by omega)]
            rw [hE]
            split_ifs with h0 h1
            · refine ⟨by simp only; omega, fun h => ?_⟩
              simp only at h
              exact ⟨by omega, fun h3 => by omega, fun _ => h0⟩
            · refine ⟨by simp only; omega, fun h => ?_⟩
              simp only at h
              omega
            · exact ⟨by omega, fun h => by omega⟩
          · rw [cellStep_inner g r c k x hrin (by omega) hx] at hstep
            simp only [Option.some.injEq] at hstep
            subst hstep
            have hE : borderBefore g r (c + 1) = borderBefore g r c := by
              rw [hsucc, if_neg (by omega), add_zero]
            rw [hE]
            have hok : BorderOK g r c x := ⟨fun h => by omega, fun h => by omega⟩
            split_ifs
            · exact ⟨hle, fun h => ⟨h, hok⟩⟩
            · exact ⟨hle, fun h => ⟨h, hok⟩⟩
            · exact ⟨hle, fun h => ⟨h, hok⟩⟩
      refine ⟨key.1, fun heq r1 c1 hb => ?_⟩
      obtain ⟨hk0, hl⟩ := key.2 heq
      rcases before_succ hb with h1 | ⟨h1, h2⟩
      · exact hall hk0 r1 c1 h1
      · subst h1 h2
        exact ⟨x, hx, hl⟩)
    (fun r k hr hP => by
      have he : (((2 * g.columns).toNat : Nat) : Int) = 2 * g.columns := by omega
      have hend := borderBefore_row_end g r hr3 hc3 hr
      rw [he] at hP
      show k.borderZeroCounter ≤ borderBefore g (r + 1) 0 ∧
        (k.borderZeroCounter = borderBefore g (r + 1) 0 →
          ∀ r1 c1, Before g (r + 1) 0 r1 c1 →
            ∃ x, readCell g.board r1 c1 = some x ∧ BorderOK g r1 c1 x)
      rw [← hend]
      exact ⟨hP.1, fun heq r1 c1 hb => hP.2 heq r1 c1 (by
        have := before_row hb
        rw [he] at this
        exact this)⟩)
    k hk
  have he : ((g.rows.toNat : Nat) : Int) = g.rows := by omega
  rw [he] at hinv
  apply hinv.2 (by rw [hb, (borderBefore_end g hr3 hc3).2])
  unfold Before
  omega

/-! ### The invariant of play -/

theorem otherPlayer_valid (p : Char) : otherPlayer p = 'O' ∨ otherPlayer p = 'X' := by
  unfold otherPlayer
  split
  · exact Or.inl rfl
  · exact Or.inr rfl

/-- A new board that keeps the shape, changes only occupancy markers of
non-corner cells into stones, and fills the line behind every border cell it
occupies, keeps the invariant of play. -/
theorem gameInv_update {g : Game} (hinv : GameInv g) (b2 : List (List Char))
    (hshape : b2.map List.length = g.board.map List.length)
    (hch : ∀ r c : Int, readCell b2 r c = readCell g.board r c ∨
      (c % 2 = 1 ∧ ¬ IsCorner g r (c / 2) ∧
        (readCell b2 r c = some 'O' ∨ readCell b2 r c = some 'X')))
    (hbd : ∀ rb jb ri ji : Int, 0 ≤ rb → rb < g.rows → 0 ≤ jb → jb < g.columns →
      ¬ IsCorner g rb jb → ¬ IsInterior g rb jb → IsInterior g ri ji →
      (((rb = 0 ∨ rb = g.rows - 1) ∧ ji = jb) ∨ ((jb = 0 ∨ jb = g.columns - 1) ∧ ri = rb)) →
      occ g.board rb jb = some '.' → occ b2 rb jb ≠ some '.' → occ b2 ri ji ≠ some '.') :
    GameInv { g with board := b2, currentPlayer := otherPlayer g.currentPlayer } := by
  obtain ⟨⟨hr3, hc3, hs, hcells⟩, hp, hbinv⟩ := hinv
  have hmono : ∀ r c : Int, readCell g.board r c ≠ some '.' → readCell g.board r c ≠ none →
      readCell b2 r c ≠ some '.' := by
    intro r c h1 h2
    rcases hch r c with h | ⟨_, _, h | h⟩
    · rw [h]
      exact h1
    · rw [h]
      simp
    · rw [h]
      simp
  refine ⟨⟨hr3, hc3, shaped_of_shape _ hs hshape, ?_⟩, otherPlayer_valid _, ?_⟩
  · intro r h1 h2 j h3 h4
    have hold := hcells r h1 h2 j h3 h4
    show if IsCorner g r j then weight b2 r j = some ' ' ∧ occ b2 r j = some ' '
      else (∃ w, weight b2 r j = some w ∧ w.isDigit = true) ∧
        (occ b2 r j = some '.' ∨ occ b2 r j = some 'O' ∨ occ b2 r j = some 'X')
    have hw : weight b2 r j = weight g.board r j := by
      unfold weight
      rcases hch r (2 * j) with h | ⟨h, _⟩
      · exact h
      · omega
    have he : (2 * j + 1) / 2 = j := by omega
    by_cases hc : IsCorner g r j
    · simp only [hc, if_true] at hold ⊢
      have ho : occ b2 r j = occ g.board r j := by
        unfold occ
        rcases hch r (2 * j + 1) with h | ⟨_, h, _⟩
        · exact h
        · rw [he] at h
          exact absurd hc h
      rw [hw, ho]
      exact hold
    · simp only [hc, if_false] at hold ⊢
      rw [hw]
      refine ⟨hold.1, ?_⟩
      unfold occ at hold ⊢
      rcases hch r (2 * j + 1) with h | ⟨_, _, h | h⟩
      · rw [h]
        exact hold.2
      · exact Or.inr (Or.inl h)
      · exact Or.inr (Or.inr h)
  · intro rb jb ri ji h1 h2 h3 h4 h5 h6 h7 h8 h9
    show occ b2 ri ji ≠ some '.'
    have h9 : occ b2 rb jb ≠ some '.' := h9
    have h2 : rb < g.rows := h2
    have h4 : jb < g.columns := h4
    have h5 : ¬ IsCorner g rb jb := h5
    have h6 : ¬ IsInterior g rb jb := h6
    have h7 : IsInterior g ri ji := h7
    have h8 : ((rb = 0 ∨ rb = g.rows - 1) ∧ ji = jb) ∨
        ((jb = 0 ∨ jb = g.columns - 1) ∧ ri = rb) := h8
    by_cases hold : occ g.board rb jb = some '.'
    · exact hbd rb jb ri ji h1 h2 h3 h4 h5 h6 h7 h8 hold h9
    · have hI := hbinv rb jb ri ji h1 h2 h3 h4 h5 h6 h7 h8 hold
      apply hmono _ _ hI
      obtain ⟨x, hx⟩ := (readCell_isSome_iff hs ri (2 * ji + 1)).mpr (by
        unfold IsInterior at h7
        omega)
      unfold occ at hI
      rw [hx]
      simp

/-- The four shapes of the targeted line. -/
theorem slot_cases {g : Game} (hb : PlayBoard g) (hon : OnBorder g) :
    (g.rowMove = 0 ∧ 0 < g.columnMove ∧ g.columnMove < g.columns - 1 ∧
        lineLen g = g.rows ∧ ∀ i, slot g i = (i, g.columnMove)) ∨
    (g.rowMove = g.rows - 1 ∧ 0 < g.columnMove ∧ g.columnMove < g.columns - 1 ∧
        lineLen g = g.rows ∧ ∀ i, slot g i = (g.rows - 1 - i, g.columnMove)) ∨
    (g.columnMove = 0 ∧ 0 < g.rowMove ∧ g.rowMove < g.rows - 1 ∧
        lineLen g = g.columns ∧ ∀ i, slot g i = (g.rowMove, i)) ∨
    (g.columnMove = g.columns - 1 ∧ 0 < g.rowMove ∧ g.rowMove < g.rows - 1 ∧
        lineLen g = g.columns ∧ ∀ i, slot g i = (g.rowMove, g.columns - 1 - i)) := by
  obtain ⟨hr3, hc3, _, _⟩ := hb
  rcases hon with ⟨h1 | h1, h2, h3⟩ | ⟨h1 | h1, h2, h3⟩
  · left
    have e1 : ¬ (0 : Int) = g.rows - 1 := by omega
    refine ⟨h1, h2, h3, by simp [lineLen, h1], fun i => ?_⟩
    simp only [slot, h1, e1, if_false, if_true]
  · right
    left
    refine ⟨h1, h2, h3, by simp [lineLen, h1], fun i => ?_⟩
    simp only [slot, h1, if_true]
  · right
    right
    left
    have e1 : ¬ g.rowMove = g.rows - 1 := by omega
    have e2 : ¬ g.rowMove = 0 := by omega
    have e3 : ¬ (0 : Int) = g.columns - 1 := by omega
    refine ⟨h1, h2, h3, by simp [lineLen, e1, e2], fun i => ?_⟩
    simp only [slot, e1, e2, h1, e3, if_false]
  · right
    right
    right
    have e1 : ¬ g.rowMove = g.rows - 1 := by omega
    have e2 : ¬ g.rowMove = 0 := by omega
    refine ⟨h1, h2, h3, by simp [lineLen, e1, e2], fun i => ?_⟩
    simp only [slot, e1, e2, h1, if_false, if_true]

/-- Every slot of the targeted line is a non-corner cell of the board; the
slots strictly between the two ends are interior cells. -/
theorem slot_cell {g : Game} (hb : PlayBoard g) (hon : OnBorder g) (i : Int)
    (hi : 0 ≤ i ∧ i ≤ lineLen g - 1) :
    0 ≤ (slot g i).1 ∧ (slot g i).1 < g.rows ∧ 0 ≤ (slot g i).2 ∧ (slot g i).2 < g.columns ∧
    ¬ IsCorner g (slot g i).1 (slot g i).2 ∧
    (1 ≤ i → i ≤ lineLen g - 2 → IsInterior g (slot g i).1 (slot g i).2) := by
  have hr3 := hb.1
  have hc3 := hb.2.1
  unfold IsCorner IsInterior
  rcases slot_cases hb hon with ⟨h1, h2, h3, h4, h5⟩ | ⟨h1, h2, h3, h4, h5⟩ |
    ⟨h1, h2, h3, h4, h5⟩ | ⟨h1, h2, h3, h4, h5⟩ <;>
  · rw [h5]
    rw [h4] at hi
    simp only [h4]
    omega

/-- A border cell lying on the targeted line beyond the trigger is its far end,
and every interior cell of the line ending at that border cell is a slot
strictly between the two ends. -/
theorem slot_far_end {g : Game} (hb : PlayBoard g) (hon : OnBorder g)
    (rb jb ri ji i : Int) (hi : 1 ≤ i ∧ i ≤ lineLen g - 1)
    (hB : slot g i = (rb, jb)) (hI : IsInterior g ri ji)
    (hline : ((rb = 0 ∨ rb = g.rows - 1) ∧ ji = jb) ∨
      ((jb = 0 ∨ jb = g.columns - 1) ∧ ri = rb)) :
    i = lineLen g - 1 ∧ ∃ i2 : Int, 1 ≤ i2 ∧ i2 ≤ lineLen g - 2 ∧ slot g i2 = (ri, ji) := by
  have hr3 := hb.1
  have hc3 := hb.2.1
  unfold IsInterior at hI
  rcases slot_cases hb hon with ⟨h1, h2, h3, h4, h5⟩ | ⟨h1, h2, h3, h4, h5⟩ |
    ⟨h1, h2, h3, h4, h5⟩ | ⟨h1, h2, h3, h4, h5⟩
  · rw [h5] at hB
    simp only [Prod.mk.injEq] at hB
    rw [h4] at hi ⊢
    refine ⟨by omega, ri, by omega, by omega, ?_⟩
    rw [h5]
    simp only [Prod.mk.injEq, true_and]
    omega
  · rw [h5] at hB
    simp only [Prod.mk.injEq] at hB
    rw [h4] at hi ⊢
    refine ⟨by omega, g.rows - 1 - ri, by omega, by omega, ?_⟩
    rw [h5]
    simp only [Prod.mk.injEq]
    omega
  · rw [h5] at hB
    simp only [Prod.mk.injEq] at hB
    rw [h4] at hi ⊢
    refine ⟨by omega, ji, by omega, by omega, ?_⟩
    rw [h5]
    simp only [Prod.mk.injEq, and_true]
    omega
  · rw [h5] at hB
    simp only [Prod.mk.injEq] at hB
    rw [h4] at hi ⊢
    refine ⟨by omega, g.columns - 1 - ji, by omega, by omega, ?_⟩
    rw [h5]
    simp only [Prod.mk.injEq]
    omega

theorem gameInv_of_wellFormed {g : Game} (hwf : WellFormed g) (hp : ValidPlayer g) :
    GameInv g := by
  refine ⟨wellFormed_playBoard hwf, hp, ?_⟩
  intro rb jb ri ji h1 h2 h3 h4 h5 h6 _ _ h9
  have := hwf.2.2.2 rb h1 h2 jb h3 h4
  simp only [h5, h6, if_false] at this
  exact absurd this.2 h9

theorem gameInv_placement {g : Game} (hinv : GameInv g)
    (hint : IsInterior g g.rowMove g.columnMove) (b1 : List (List Char))
    (hw : writeCell g.board g.rowMove (MOVE_INDEX g) g.currentPlayer = some b1) :
    GameInv { g with board := b1, currentPlayer := otherPlayer g.currentPlayer } := by
  have hrw := readCell_writeCell hw
  have hint2 := hint
  unfold IsInterior at hint2
  apply gameInv_update hinv b1 (writeCell_shape hw)
  · intro r c
    rw [hrw]
    by_cases h : r = g.rowMove ∧ c = MOVE_INDEX g
    · right
      obtain ⟨h1, h2⟩ := h
      unfold MOVE_INDEX at h2
      have he : c / 2 = g.columnMove := by omega
      refine ⟨by omega, ?_, ?_⟩
      · rw [he, h1]
        unfold IsCorner
        omega
      · simp only [h1, h2, MOVE_INDEX, and_self, if_true, Option.some.injEq]
        exact hinv.2.1
    · left
      simp only [h, if_false]
  · intro rb jb ri ji _ _ _ _ _ h6 _ _ h9 h10
    exfalso
    apply h10
    unfold occ at h9 ⊢
    rw [hrw]
    have : ¬ (rb = g.rowMove ∧ 2 * jb + 1 = MOVE_INDEX g) := by
      intro ⟨h11, h12⟩
      unfold MOVE_INDEX at h12
      apply h6
      unfold IsInterior
      omega
    simp only [this, if_false]
    exact h9

theorem gameInv_push {g : Game} (hinv : GameInv g) (hon : OnBorder g)
    (hadj : readCell g.board (slotIndex g 1).1 (slotIndex g 1).2 ≠ some '.')
    (k : Int) (hk : 2 ≤ k ∧ k ≤ lineLen g - 1)
    (hfirst : ∀ i : Int, 2 ≤ i → i < k →
      readCell g.board (slotIndex g i).1 (slotIndex g i).2 ≠ some '.')
    (b2 : List (List Char)) (hpushed : PushedTo g k b2)
    (hshape : b2.map List.length = g.board.map List.length) :
    GameInv { g with board := b2, currentPlayer := otherPlayer g.currentPlayer } := by
  have hb := hinv.1
  obtain ⟨hp1, hp2, hp3⟩ := hpushed
  have hold : ∀ i : Int, 1 ≤ i → i < k →
      readCell g.board (slotIndex g i).1 (slotIndex g i).2 = some 'O' ∨
      readCell g.board (slotIndex g i).1 (slotIndex g i).2 = some 'X' := by
    intro i hi1 hi2
    obtain ⟨h1, h2, h3, h4, h5, _⟩ := slot_cell hb hon i ⟨by omega, by omega⟩
    have hcell := hb.2.2.2 _ h1 h2 _ h3 h4
    simp only [h5, if_false] at hcell
    have hne : readCell g.board (slotIndex g i).1 (slotIndex g i).2 ≠ some '.' := by
      by_cases h : i = 1
      · rw [h]
        exact hadj
      · exact hfirst i (by omega) hi2
    rcases hcell.2 with h | h | h
    · exact absurd h hne
    · exact Or.inl h
    · exact Or.inr h
  have hnew : ∀ i : Int, 1 ≤ i → i ≤ k →
      readCell b2 (slotIndex g i).1 (slotIndex g i).2 = some 'O' ∨
      readCell b2 (slotIndex g i).1 (slotIndex g i).2 = some 'X' := by
    intro i hi1 hi2
    by_cases h : i = 1
    · rw [h, hp1]
      rcases hinv.2.1 with h2 | h2 <;> rw [h2] <;> simp
    · rw [hp2 i (by omega) hi2]
      exact hold (i - 1) (by omega) (by omega)
  apply gameInv_update hinv b2 hshape
  · intro r c
    by_cases h : ∃ i : Int, 1 ≤ i ∧ i ≤ k ∧ slotIndex g i = (r, c)
    · right
      obtain ⟨i, hi1, hi2, hi3⟩ := h
      have h4 := hnew i hi1 hi2
      rw [hi3] at h4
      obtain ⟨_, _, _, _, h5, _⟩ := slot_cell hb hon i ⟨by omega, by omega⟩
      simp only [slotIndex, Prod.mk.injEq] at hi3
      have he : c / 2 = (slot g i).2 := by omega
      refine ⟨by omega, ?_, h4⟩
      rw [he, ← hi3.1]
      exact h5
    · left
      push_neg at h
      exact hp3 r c h
  · intro rb jb ri ji _ _ _ _ _ _ h7 h8 h9 h10
    have hex : ∃ i : Int, 1 ≤ i ∧ i ≤ k ∧ slotIndex g i = (rb, 2 * jb + 1) := by
      by_contra hno
      push_neg at hno
      apply h10
      unfold occ at h9 ⊢
      rw [hp3 rb (2 * jb + 1) hno]
      exact h9
    obtain ⟨i, hi1, hi2, hi3⟩ := hex
    have hslot : slot g i = (rb, jb) := by
      simp only [slotIndex, Prod.mk.injEq] at hi3
      exact Prod.ext hi3.1 (by simp only; omega)
    obtain ⟨hlast, i2, h21, h22, h23⟩ := slot_far_end hb hon rb jb ri ji i
      ⟨hi1, by omega⟩ hslot h7 h8
    have := hnew i2 h21 (by omega)
    have he : slotIndex g i2 = (ri, 2 * ji + 1) := by
      simp only [slotIndex, h23]
    rw [he] at this
    unfold occ
    rcases this with h | h <;> rw [h] <;> simp

/-- The invariant of play is kept by every return of `play_move`. -/
theorem gameInv_play_move (re ce : String) (g g2 : Game) (hinv : GameInv g)
    (h : play_move re ce g = some g2) : GameInv g2 := by
  rcases play_move_cases re ce g g2 hinv.1 h with h1 | ⟨hint, _, b1, hb1, h1⟩ |
    ⟨hon, _, hadj, k, hk1, hk2, _, hfirst, b2, h1, hpushed, _, hshape⟩
  · rw [h1]
    exact hinv
  · rw [h1]
    exact gameInv_placement hinv hint b1 hb1
  · rw [h1]
    exact gameInv_push hinv hon hadj k ⟨hk1, hk2⟩ hfirst b2 hpushed hshape

theorem reachable_gameInv {g : Game} (h : Reachable g) : GameInv g := by
  induction h with
  | start g hwf hp => exact gameInv_of_wellFormed hwf hp
  | move g g2 re ce r c _ hplay ih =>
    exact gameInv_play_move re ce (withMove g r c) g2 ih hplay

/-- C1: on a well-formed board with a parsed move, `play_move` applies a
placement (returns the state whose board is the old one with the single
character at the target's occupancy index overwritten by the mover, and whose
current player is the other player) if and only if the target is strictly
interior and its occupancy is Empty; the overwritten board differs from the old
one only at that occupancy character, and the other player differs from the
mover. -/
theorem play_move_placement_iff (g : Game) (hwf : WellFormed g) (hp : ValidPlayer g) :
    ((∃ b1, writeCell g.board g.rowMove (MOVE_INDEX g) g.currentPlayer = some b1 ∧
        play_move "" "" g =
          some { g with board := b1, currentPlayer := otherPlayer g.currentPlayer }) ↔
      (0 < g.rowMove ∧ g.rowMove < g.rows - 1 ∧ 0 < g.columnMove ∧
        g.columnMove < g.columns - 1 ∧ occ g.board g.rowMove g.columnMove = some '.')) ∧
    (∀ b1, writeCell g.board g.rowMove (MOVE_INDEX g) g.currentPlayer = some b1 →
      ∀ r c : Int, readCell b1 r c =
        if r = g.rowMove ∧ c = 2 * g.columnMove + 1 then some g.currentPlayer
        else readCell g.board r c) ∧
    otherPlayer g.currentPlayer ≠ g.currentPlayer ∧
    (g.currentPlayer = 'O' → otherPlayer g.currentPlayer = 'X') ∧
    (g.currentPlayer = 'X' → otherPlayer g.currentPlayer = 'O') := by
  have hb := wellFormed_playBoard hwf
  have hpdot : g.currentPlayer ≠ '.' := by
    rcases hp with h | h <;> rw [h] <;> decide
  refine ⟨⟨?_, ?_⟩, ?_, otherPlayer_ne _, ?_, ?_⟩
  · rintro ⟨b1, hw, hplay⟩
    have hne : ∀ g2 : Game, g2.currentPlayer = g.currentPlayer →
        some g2 ≠ some { g with board := b1, currentPlayer := otherPlayer g.currentPlayer } := by
      intro g2 h2 h3
      simp only [Option.some.injEq] at h3
      have h4 := congrArg Game.currentPlayer h3
      simp only at h4
      exact otherPlayer_ne _ (h4.symm.trans h2)
    by_cases hint : IsInterior g g.rowMove g.columnMove
    · obtain ⟨h1, h2, h3, h4⟩ := hint
      refine ⟨h1, h2, h3, h4, ?_⟩
      by_contra hocc
      have hx : ((g.rowMove == 0 || g.rowMove == g.rows - 1) !=
          (g.columnMove == 0 || g.columnMove == g.columns - 1)) = false := by
        rw [← Bool.not_eq_true]
        intro hx
        rcases (xorEdge_iff g).mp hx with ⟨h5, _⟩ | ⟨_, h5⟩ <;> omega
      have hg : ("" = "" ∧ "" = "" ∧ g.rowMove > 0 ∧ g.rowMove < g.rows - 1 ∧
          g.columnMove > 0 ∧ g.columnMove < g.columns - 1) := ⟨rfl, rfl, h1, h2, h3, h4⟩
      unfold play_move at hplay
      rw [if_pos hg] at hplay
      unfold occ at hocc
      unfold MOVE_INDEX at hplay
      split at hplay
      · simp at hplay
      · rename_i ch hch
        have hdot : ch ≠ '.' := by
          intro h5
          rw [hch, h5] at hocc
          exact hocc rfl
        simp only [hdot, if_false, play_move_push, hx] at hplay
        simp only [Bool.false_eq_true, and_false, if_false] at hplay
        exact hne g rfl hplay
    · exfalso
      by_cases hx : ((g.rowMove == 0 || g.rowMove == g.rows - 1) !=
          (g.columnMove == 0 || g.columnMove == g.columns - 1)) = true
      · have hread := (readCell_isSome_of_writeCell hw 0 0).2
        have hon : OnBorder g := by
          apply onBorder_of_xor hb.2.2.1 hx
          cases h5 : readCell g.board g.rowMove (MOVE_INDEX g) with
          | none => simp [h5] at hread
          | some ch => exact ⟨ch, rfl⟩
        rw [play_move_border g hb hon] at hplay
        split at hplay
        · rename_i htarget
          rcases push_move_cases g hb hon with ⟨_, h5⟩ | ⟨_, ⟨_, h5⟩ | ⟨k, hk1, _, _, _, b2, h5, hpushed, _⟩⟩
          · rw [h5] at hplay
            exact hne g rfl hplay
          · rw [h5] at hplay
            exact hne g rfl hplay
          · rw [h5] at hplay
            simp only [Option.some.injEq] at hplay
            have h6 := congrArg Game.board hplay
            simp only at h6
            subst h6
            have h7 := hpushed.2.2 g.rowMove (MOVE_INDEX g) (by
              intro i hi1 hi2 heq
              rw [← slotIndex_zero hb hon] at heq
              have := slotIndex_injective hb hon _ _ heq
              omega)
            rw [readCell_writeCell hw, htarget] at h7
            simp only [and_self, if_true, Option.some.injEq] at h7
            exact hpdot h7
        · exact hne g rfl hplay
      · rw [Bool.not_eq_true] at hx
        rw [play_move_ignored "" "" g hint hx] at hplay
        exact hne g rfl hplay
  · rintro ⟨h1, h2, h3, h4, hocc⟩
    unfold occ at hocc
    obtain ⟨b1, hb1⟩ := writeCell_of_readCell hocc g.currentPlayer
    refine ⟨b1, hb1, ?_⟩
    have hg : ("" = "" ∧ "" = "" ∧ g.rowMove > 0 ∧ g.rowMove < g.rows - 1 ∧
        g.columnMove > 0 ∧ g.columnMove < g.columns - 1) := ⟨rfl, rfl, h1, h2, h3, h4⟩
    unfold play_move
    rw [if_pos hg]
    simp only [MOVE_INDEX, hocc, hb1, if_true]
  · intro b1 hw r c
    rw [readCell_writeCell hw]
    rfl
  · intro h
    rw [h]
    decide
  · intro h
    rw [h]
    decide

/-- Witness for C1: the statement instantiated at the sample game with the move
`(1, 2)`, an empty interior cell. -/
theorem play_move_placement_iff_witness :
    WellFormed (sampleMove 1 2) ∧ ValidPlayer (sampleMove 1 2) ∧
    ∃ b1, writeCell (sampleMove 1 2).board 1 (MOVE_INDEX (sampleMove 1 2)) 'O' = some b1 ∧
      play_move "" "" (sampleMove 1 2) =
        some { sampleMove 1 2 with board := b1, currentPlayer := otherPlayer 'O' } :=
  ⟨by decide, by decide,
    (play_move_placement_iff (sampleMove 1 2) (by decide) (by decide)).1.mpr (by decide)⟩

/-- C2: on a board of the data model, an accepted push (non-corner border target
that is Empty, adjacent interior slot occupied, `k` the first Empty slot met from
two steps in, up to the opposite border) makes `play_move` return the state in
which slot `1` holds the mover, every slot `2..k` holds the marker previously one
step nearer the triggering edge, every other occupancy and every weight is
unchanged, and the current player is swapped.  The function `slot` follows the
direction of the push: up, down, left or right. -/
theorem push_shifts_line (g : Game) (hb : PlayBoard g) (hon : OnBorder g)
    (htrig : occ g.board g.rowMove g.columnMove = some '.')
    (hadj : occ g.board (slot g 1).1 (slot g 1).2 ≠ some '.')
    (k : Int) (hk : 2 ≤ k ∧ k ≤ lineLen g - 1)
    (hempty : occ g.board (slot g k).1 (slot g k).2 = some '.')
    (hfirst : ∀ i : Int, 2 ≤ i → i < k → occ g.board (slot g i).1 (slot g i).2 ≠ some '.') :
    ∃ b2, play_move "" "" g =
        some { g with board := b2, currentPlayer := otherPlayer g.currentPlayer } ∧
      occ b2 (slot g 1).1 (slot g 1).2 = some g.currentPlayer ∧
      (∀ i : Int, 2 ≤ i → i ≤ k →
        occ b2 (slot g i).1 (slot g i).2 = occ g.board (slot g (i - 1)).1 (slot g (i - 1)).2) ∧
      (∀ r j : Int, (∀ i : Int, 1 ≤ i → i ≤ k → slot g i ≠ (r, j)) →
        occ b2 r j = occ g.board r j) ∧
      (∀ r j : Int, weight b2 r j = weight g.board r j) ∧
      otherPlayer g.currentPlayer ≠ g.currentPlayer := by
  have hplay := play_move_border g hb hon
  have htrig2 : readCell g.board g.rowMove (MOVE_INDEX g) = some '.' := htrig
  rw [if_pos htrig2] at hplay
  rcases push_move_cases g hb hon with ⟨h1, _⟩ | ⟨_, ⟨h1, _⟩ | ⟨k2, hk1, hk2, hk3, hk4, b2, h5, hpushed, _⟩⟩
  · exact absurd h1 hadj
  · exact absurd hempty (h1 k hk.1 hk.2)
  · have hkk : k2 = k := by
      rcases lt_trichotomy k2 k with h6 | h6 | h6
      · exact absurd hk3 (hfirst k2 hk1 h6)
      · exact h6
      · exact absurd hempty (hk4 k hk.1 h6)
    subst hkk
    refine ⟨b2, hplay.trans h5, hpushed.1, hpushed.2.1, ?_, ?_, otherPlayer_ne _⟩
    · intro r j hrj
      apply hpushed.2.2
      intro i hi1 hi2 heq
      apply hrj i hi1 hi2
      simp only [slotIndex, Prod.mk.injEq] at heq
      exact Prod.ext heq.1 (by simp only; omega)
    · intro r j
      apply hpushed.2.2
      intro i hi1 hi2 heq
      simp only [slotIndex, Prod.mk.injEq] at heq
      omega

/-- Witness for C2: a push to the right on row `2` of the sample game, whose
first empty slot is slot `3`. -/
theorem push_shifts_line_witness :
    PlayBoard (sampleMove 2 0) ∧ OnBorder (sampleMove 2 0) ∧
    ∃ b2, play_move "" "" (sampleMove 2 0) =
        some { sampleMove 2 0 with board := b2, currentPlayer := otherPlayer 'O' } ∧
      occ b2 2 1 = some 'O' :=
  ⟨by decide, by decide,
    (push_shifts_line (sampleMove 2 0) (by decide) (by decide) (by decide) (by decide) 3
      (by decide) (by decide)
      (fun i h1 h2 => by
        have h3 : i = 2 := by omega
        subst h3
        decide)).imp fun _ h => ⟨h.1, h.2.1⟩⟩

/-- C7: on a well-formed board, a move naming a non-corner border cell whose
adjacent interior cell is Empty is rejected by `push_move` and by `play_move`
(whatever the parse strings): the state, board and current player included, is
returned unchanged. -/
theorem push_rejected_adjacent_empty (re ce : String) (g : Game) (hwf : WellFormed g)
    (hon : OnBorder g) (hadj : occ g.board (slot g 1).1 (slot g 1).2 = some '.') :
    push_move g = some g ∧ play_move re ce g = some g := by
  have hb := wellFormed_playBoard hwf
  have hpush : push_move g = some g := by
    rcases push_move_cases g hb hon with ⟨_, h1⟩ | ⟨h1, _⟩
    · exact h1
    · exact absurd hadj h1
  refine ⟨hpush, ?_⟩
  by_cases herr : re = "" ∧ ce = ""
  · obtain ⟨rfl, rfl⟩ := herr
    rw [play_move_border g hb hon]
    split
    · exact hpush
    · rfl
  · exact play_move_parse_error re ce g herr

/-- Witness for C7: the top border cell above the empty cell `(1, 2)` of the
sample game. -/
theorem push_rejected_adjacent_empty_witness :
    WellFormed (sampleMove 0 2) ∧ OnBorder (sampleMove 0 2) ∧
    occ (sampleMove 0 2).board 1 2 = some '.' ∧
    push_move (sampleMove 0 2) = some (sampleMove 0 2) ∧
    play_move "" "" (sampleMove 0 2) = some (sampleMove 0 2) :=
  ⟨by decide, by decide, by decide,
    push_rejected_adjacent_empty "" "" (sampleMove 0 2) (by decide) (by decide) (by decide)⟩

/-- C9 (the code at the failing input): for the parsed move `(0, 100)` on the
4 by 5 sample board, the second condition of `play_move` holds up to its last
conjunct, which indexes row `0` at character `201`, outside the row. -/
theorem play_move_reads_outside_board :
    WellFormed (sampleMove 0 100) ∧
    readCell (sampleMove 0 100).board 0 (MOVE_INDEX (sampleMove 0 100)) = none ∧
    play_move "" "" (sampleMove 0 100) = none := by
  decide

/-- C10: on a board of the data model with a valid current player, every move
`play_move` applies (the returned state differs from the given one: a placement
or a push in any direction) leaves exactly one more stone on the board. -/
theorem stoneCount_applied_move (re ce : String) (g g2 : Game) (hb : PlayBoard g)
    (hp : ValidPlayer g) (h : play_move re ce g = some g2) (happlied : g2 ≠ g) :
    stoneCount g2.board = stoneCount g.board + 1 := by
  have hstone : stoneOf g.currentPlayer = 1 := by
    rcases hp with h1 | h1 <;> rw [h1] <;> decide
  rcases play_move_cases re ce g g2 hb h with h1 | ⟨_, hdot, b1, hb1, h1⟩ |
    ⟨_, _, _, k, _, _, _, _, b2, h1, _, hcount, _⟩
  · exact absurd h1 happlied
  · subst h1
    have hodd : MOVE_INDEX g % 2 = 1 := by
      unfold MOVE_INDEX
      omega
    have := writeCell_stoneCount hb1 hodd hdot
    have h0 : stoneOf '.' = 0 := by decide
    simp only
    omega
  · subst h1
    simp only
    omega

/-- Witness for C10: the push to the right on row `2` of the sample game takes
the board from four stones to five. -/
theorem stoneCount_applied_move_witness :
    PlayBoard (sampleMove 2 0) ∧ ValidPlayer (sampleMove 2 0) ∧
    stoneCount (sampleMove 2 0).board = 4 ∧
    stoneCount ["  0.0.0.  ".toList, "0.1X2.3O0.".toList, "0.4O5X6O0.".toList,
      "  0.0.0.  ".toList] = 4 + 1 :=
  ⟨by decide, by decide, by decide,
    stoneCount_applied_move "" "" (sampleMove 2 0)
      { sampleMove 2 0 with
        currentPlayer := 'X',
        board := ["  0.0.0.  ".toList, "0.1X2.3O0.".toList, "0.4O5X6O0.".toList,
          "  0.0.0.  ".toList] }
      (by decide) (by decide) (by decide) (by decide)⟩

/-! ## Claims on the validator -/

theorem one_nine_of_digit {x : Char} (h : x.isDigit = true) (h0 : x ≠ '0') :
    '1' ≤ x ∧ x ≤ '9' := by
  simp only [Char.isDigit, Bool.and_eq_true, decide_eq_true_eq] at h
  obtain ⟨h1, h2⟩ := h
  have h3 : (48 : Nat) ≤ x.val.toNat := h1
  have h4 : x.val.toNat ≠ 48 := by
    intro h5
    apply h0
    apply Char.ext
    apply UInt32.ext
    exact h5
  constructor
  · show (49 : Nat) ≤ x.val.toNat
    omega
  · exact h2

/-- C3: for every well-formed board (at least 3 by 3, `rows` rows of
`2 * columns` characters, blank corners, border cells `0.`, interior cells a
digit `1`-`9` followed by `.`, `O` or `X`), a current player `O` or `X` and no
unparsed text after the two dimensions, the scan of
`file_contents_error_handler` ends with border-zero count
`2 * (rows + columns) - 8`, interior-zero count `0` and invalid-character count
`0`, and the handler returns the normal status. -/
theorem validator_accepts_wellFormed (g : Game) (hwf : WellFormed g) (hp : ValidPlayer g) :
    scanBoard g = some ⟨2 * (g.rows + g.columns) - 8, 0, 0⟩ ∧
    file_contents_error_handler g "" "" ExitCodes.EXIT_NORMAL =
      some ExitCodes.EXIT_NORMAL := by
  obtain ⟨k, hk, h1, h2, h3⟩ := scanBoard_wellFormed hwf
  have hr3 := hwf.1
  have hc3 := hwf.2.1
  have hkeq : k = ⟨2 * (g.rows + g.columns) - 8, 0, 0⟩ := by
    cases k
    simp only [Counters.mk.injEq]
    exact ⟨h1, h2, h3⟩
  refine ⟨by rw [hk, hkeq], ?_⟩
  have hup : g.currentPlayer = g.currentPlayer.toUpper := by
    rcases hp with h | h <;> rw [h] <;> decide
  have hxo : ¬ (g.currentPlayer ≠ 'X' ∧ g.currentPlayer ≠ 'O') := by
    rcases hp with h | h <;> rw [h] <;> decide
  unfold file_contents_error_handler
  rw [hk]
  simp only
  rw [if_neg]
  intro hcond
  rcases hcond with h | h | h | h | h | h | h | h | h | h | h
  · omega
  · omega
  · exact h hup
  · exact h h1
  · exact h h2
  · omega
  · omega
  · exact h h3
  · exact hxo h
  · exact h rfl
  · exact h rfl

/-- Witness for C3: the sample game is well formed and accepted with count 10. -/
theorem validator_accepts_wellFormed_witness :
    WellFormed sampleGame ∧ ValidPlayer sampleGame ∧
    scanBoard sampleGame = some ⟨10, 0, 0⟩ ∧
    file_contents_error_handler sampleGame "" "" ExitCodes.EXIT_NORMAL =
      some ExitCodes.EXIT_NORMAL :=
  ⟨by decide, by decide, validator_accepts_wellFormed sampleGame (by decide) (by decide)⟩

/-- C4: when `file_contents_error_handler` accepts (returns the normal status
it was entered with) a game whose board has `rows` rows of `2 * columns`
characters, then both dimensions are at least 3, the current player is `O` or
`X`, neither dimension left unparsed text, every interior weight is a digit
`1`-`9` and every interior occupancy is `.`, `O` or `X`; and whenever one of
these fails the handler returns the file-contents error status. -/
theorem validator_sound_interior (g : Game) (re ce : String) (hs : Shaped g) :
    (file_contents_error_handler g re ce ExitCodes.EXIT_NORMAL =
        some ExitCodes.EXIT_NORMAL →
      3 ≤ g.rows ∧ 3 ≤ g.columns ∧ ValidPlayer g ∧ re = "" ∧ ce = "" ∧ InteriorValid g) ∧
    (¬ (3 ≤ g.rows ∧ 3 ≤ g.columns ∧ ValidPlayer g ∧ re = "" ∧ ce = "" ∧ InteriorValid g) →
      file_contents_error_handler g re ce ExitCodes.EXIT_NORMAL =
        some ExitCodes.EXIT_FILE_CONTENTS) := by
  have hsound : file_contents_error_handler g re ce ExitCodes.EXIT_NORMAL =
        some ExitCodes.EXIT_NORMAL →
      3 ≤ g.rows ∧ 3 ≤ g.columns ∧ ValidPlayer g ∧ re = "" ∧ ce = "" ∧ InteriorValid g := by
    intro h
    obtain ⟨hr3, hc3, hp, hre, hce, k, hk, _, hz1, hz2⟩ := handler_accepts g re ce h
    refine ⟨hr3, hc3, hp, hre, hce, ?_⟩
    intro r j ⟨h1, h2, h3, h4⟩
    obtain ⟨w, hw, hlw, _⟩ := scan_local_sound g hs hr3 hc3 k hk ⟨hz1, hz2⟩ r (2 * j)
      (by omega) (by omega)
    obtain ⟨o, ho, hlo, _⟩ := scan_local_sound g hs hr3 hc3 k hk ⟨hz1, hz2⟩ r (2 * j + 1)
      (by omega) (by omega)
    have hw2 := hlw ⟨h1, h2, by omega, by omega⟩
    have ho2 := hlo ⟨h1, h2, by omega, by omega⟩
    have hw3 := (invalidAt_false_iff (2 * j) w).mp hw2.2
    have ho3 := (invalidAt_false_iff (2 * j + 1) o).mp ho2.2
    constructor
    · exact ⟨w, hw, one_nine_of_digit (hw3.1 (by omega)) hw2.1⟩
    · have := ho3.2 (by omega)
      unfold occ
      rw [ho]
      simpa using this
  refine ⟨hsound, fun hnot => ?_⟩
  rcases handler_cases g re ce ExitCodes.EXIT_NORMAL hs with h | h
  · exact absurd (hsound h) hnot
  · exact h

/-- Witness for C4: the sample game has the declared shape, is accepted, and its
interior is valid. -/
theorem validator_sound_interior_witness :
    Shaped sampleGame ∧
    file_contents_error_handler sampleGame "" "" ExitCodes.EXIT_NORMAL =
      some ExitCodes.EXIT_NORMAL ∧
    InteriorValid sampleGame :=
  ⟨by decide, by decide,
    ((validator_sound_interior sampleGame "" "" (by decide)).1 (by decide)).2.2.2.2.2⟩

/-- C5 (counterexample): the border part of validator soundness fails as
stated; the 3 by 3 file with top row `  0X  ` is accepted although its top
border cell holds a stone. -/
theorem validator_accepts_border_stone :
    ¬ ∀ g : Game, Shaped g →
      file_contents_error_handler g "" "" ExitCodes.EXIT_NORMAL = some ExitCodes.EXIT_NORMAL →
      ∀ r j : Int, 0 ≤ r → r < g.rows → 0 ≤ j → j < g.columns → ¬ IsCorner g r j →
        ¬ IsInterior g r j → weight g.board r j = some '0' ∧ occ g.board r j = some '.' := by
  intro h
  have h1 := h borderStoneGame (by decide) (by decide) 0 1 (by decide) (by decide) (by decide)
    (by decide) (by decide) (by decide)
  exact absurd h1.2 (by decide)

/-- C5 (amended): when `file_contents_error_handler` accepts a board of the
declared shape in which no occupancy position of a first-row or last-row border
cell holds the character `0`, every non-corner border cell has weight `0` and
an occupancy marker `.`, `O` or `X`. -/
theorem validator_sound_border (g : Game) (re ce : String) (hs : Shaped g)
    (hnz : ∀ j : Int, 0 < j → j < g.columns - 1 →
      occ g.board 0 j ≠ some '0' ∧ occ g.board (g.rows - 1) j ≠ some '0')
    (h : file_contents_error_handler g re ce ExitCodes.EXIT_NORMAL =
      some ExitCodes.EXIT_NORMAL)
    (r j : Int) (hr : 0 ≤ r ∧ r < g.rows) (hj : 0 ≤ j ∧ j < g.columns)
    (hnc : ¬ IsCorner g r j) (hni : ¬ IsInterior g r j) :
    weight g.board r j = some '0' ∧
    (occ g.board r j = some '.' ∨ occ g.board r j = some 'O' ∨ occ g.board r j = some 'X') := by
  obtain ⟨hr3, hc3, _, _, _, k, hk, hb, hz1, hz2⟩ := handler_accepts g re ce h
  have hnz2 : ∀ r c : Int, (r = 0 ∨ r = g.rows - 1) → 2 ≤ c → c ≤ 2 * g.columns - 3 →
      c % 2 = 1 → readCell g.board r c ≠ some '0' := by
    intro r c hr h1 h2 h3
    have h4 := hnz (c / 2) (by omega) (by omega)
    have he : 2 * (c / 2) + 1 = c := by omega
    unfold occ at h4
    rw [he] at h4
    rcases hr with hr | hr
    · rw [hr]
      exact h4.1
    · rw [hr]
      exact h4.2
  unfold IsCorner at hnc
  unfold IsInterior at hni
  obtain ⟨w, hw, hbw⟩ := scan_border_sound g hs hr3 hc3 hnz2 k hk hb r (2 * j)
    (by omega) (by omega)
  obtain ⟨o, ho, hlo⟩ := scan_local_sound g hs hr3 hc3 k hk ⟨hz1, hz2⟩ r (2 * j + 1)
    (by omega) (by omega)
  constructor
  · have := hbw.2 (by omega)
    unfold weight
    rw [hw, this]
  · have hinv : invalidAt (2 * j + 1) o = false := by
      by_cases hedge : r = 0 ∨ r = g.rows - 1
      · rcases hlo.2 (Or.inl ⟨hedge, by omega, by omega⟩) with h0 | h0
        · exfalso
          have := hnz2 r (2 * j + 1) hedge (by omega) (by omega) (by omega)
          rw [ho, h0] at this
          exact this rfl
        · exact h0
      · exact (hlo.1 ⟨by omega, by omega, by omega, by omega⟩).2
    have := ((invalidAt_false_iff (2 * j + 1) o).mp hinv).2 (by omega)
    unfold occ
    rw [ho]
    simpa using this

/-- Witness for C5 (amended): the sample game, at its left border cell of row 1. -/
theorem validator_sound_border_witness :
    Shaped sampleGame ∧
    file_contents_error_handler sampleGame "" "" ExitCodes.EXIT_NORMAL =
      some ExitCodes.EXIT_NORMAL ∧
    weight sampleGame.board 1 0 = some '0' ∧
    (occ sampleGame.board 1 0 = some '.' ∨ occ sampleGame.board 1 0 = some 'O' ∨
      occ sampleGame.board 1 0 = some 'X') :=
  ⟨by decide, by decide,
    validator_sound_border sampleGame "" "" (by decide)
      (fun j h1 h2 => by
        have h3 : j = 1 ∨ j = 2 ∨ j = 3 := by
          have h4 : sampleGame.columns = 5 := rfl
          rw [h4] at h2
          omega
        rcases h3 with h3 | h3 | h3 <;> subst h3 <;> decide)
      (by decide) 1 0 (by decide) (by decide) (by decide) (by decide)⟩

/-- C6 (the code at the failing input): the 3 by 3 file whose top-left corner
holds `X` and whose top border cell is written `00` is accepted: the sentinel
`-1` stored in the border-zero count for the corner is counted up again by the
extra `0`, and the count ends at `2 * (3 + 3) - 8 = 4`. -/
theorem validator_accepts_nonblank_corner :
    Shaped cornerGame ∧ weight cornerGame.board 0 0 = some 'X' ∧
    scanBoard cornerGame = some ⟨4, 0, 0⟩ ∧
    file_contents_error_handler cornerGame "" "" ExitCodes.EXIT_NORMAL =
      some ExitCodes.EXIT_NORMAL := by
  decide

/-! ### Searching the interior for an empty cell -/

theorem scanRows_total (rowScan : Int → Option (Option Int)) (step : Int) (n : Nat) (r : Int)
    (h : ∀ m : Nat, m < n → ∃ res, rowScan (r + m * step) = some res) :
    ∃ res, scanRows rowScan step r n = some res := by
  induction n generalizing r with
  | zero => exact ⟨none, rfl⟩
  | succ n ih =>
    obtain ⟨res, hres⟩ := h 0 (by omega)
    simp only [Nat.cast_zero, zero_mul, add_zero] at hres
    unfold scanRows
    rw [hres]
    cases res with
    | some c => exact ⟨some (r, c), rfl⟩
    | none =>
      apply ih
      intro m hm
      obtain ⟨x, hx⟩ := h (m + 1) (by omega)
      refine ⟨x, ?_⟩
      rw [← hx]
      congr 1
      push_cast
      ring

theorem scanRows_spec (rowScan : Int → Option (Option Int)) (step : Int) (n : Nat) (r : Int)
    (res : Option (Int × Int)) (h : scanRows rowScan step r n = some res) :
    (res = none → ∀ m : Nat, m < n → rowScan (r + m * step) = some none) ∧
    (∀ r1 c1, res = some (r1, c1) → ∃ k : Nat, k < n ∧ r1 = r + k * step ∧
      rowScan r1 = some (some c1) ∧ ∀ m : Nat, m < k → rowScan (r + m * step) = some none) := by
  induction n generalizing r with
  | zero =>
    simp only [scanRows, Option.some.injEq] at h
    subst h
    exact ⟨fun _ m hm => by omega, fun r1 c1 h1 => by simp at h1⟩
  | succ n ih =>
    unfold scanRows at h
    split at h
    · simp at h
    · rename_i c hc
      simp only [Option.some.injEq] at h
      subst h
      refine ⟨fun h1 => by simp at h1, fun r1 c1 h1 => ?_⟩
      simp only [Option.some.injEq, Prod.mk.injEq] at h1
      obtain ⟨rfl, rfl⟩ := h1
      exact ⟨0, by omega, by simp, hc, fun m hm => by omega⟩
    · rename_i hnone
      obtain ⟨ih1, ih2⟩ := ih (r + step) h
      constructor
      · intro h1 m hm
        cases m with
        | zero => simpa using hnone
        | succ m =>
          have := ih1 h1 m (by omega)
          rw [← this]
          congr 1
          push_cast
          ring
      · intro r1 c1 h1
        obtain ⟨k, hk, hr1, hfound, hbefore⟩ := ih2 r1 c1 h1
        refine ⟨k + 1, by omega, by rw [hr1]; push_cast; ring, hfound, ?_⟩
        intro m hm
        cases m with
        | zero => simpa using hnone
        | succ m =>
          have := hbefore m (by omega)
          rw [← this]
          congr 1
          push_cast
          ring

/-- The left-to-right search of one interior row: it ends without a hit exactly
when the row has no Empty interior cell, and otherwise stops at the occupancy
index of the leftmost Empty interior cell. -/
theorem rowUp_spec {g : Game} (hb : PlayBoard g) (r : Int) (hr : 0 < r ∧ r < g.rows - 1) :
    ∃ res, scanLine (fun c => readCell g.board r c) 1 3
        (SCORE_COLUMN_OF_LAST_CELL g - 3).toNat = some res ∧
      (res = none → ∀ j : Int, 0 < j → j < g.columns - 1 → occ g.board r j ≠ some '.') ∧
      (∀ c, res = some c → ∃ j : Int, c = 2 * j + 1 ∧ 0 < j ∧ j < g.columns - 1 ∧
        occ g.board r j = some '.' ∧
        ∀ j2 : Int, 0 < j2 → j2 < j → occ g.board r j2 ≠ some '.') := by
  have hw := weight_ne_dot hb r
  obtain ⟨hr3, hc3, hs, _⟩ := hb
  unfold SCORE_COLUMN_OF_LAST_CELL
  obtain ⟨res, hres⟩ := scanLine_total (fun c => readCell g.board r c) 1
    (2 * g.columns - 2 - 3).toNat 3
    (fun m hm => (readCell_isSome_iff hs r _).mpr (by omega))
  have hspec := scanLine_spec _ _ _ _ _ hres
  refine ⟨res, hres, ?_, ?_⟩
  · intro hnone j hj1 hj2
    subst hnone
    obtain ⟨ch, hch, hne⟩ := hspec (2 * j + 1 - 3).toNat (by omega)
    have he : (3 : Int) + ((2 * j + 1 - 3).toNat : Int) * 1 = 2 * j + 1 := by omega
    rw [he] at hch
    unfold occ
    rw [hch]
    simpa using hne
  · intro c hc
    subst hc
    obtain ⟨k, hk, hxk, hcx, hbefore⟩ := hspec
    have hcx1 : readCell g.board r c = some '.' := hcx
    have hodd : c % 2 = 1 := by
      by_contra hne
      obtain ⟨ch, hch, hdot⟩ := hw c hr (by omega) (by omega)
      rw [hch] at hcx1
      simp only [Option.some.injEq] at hcx1
      exact hdot hcx1
    refine ⟨(c - 1) / 2, by omega, by omega, by omega, ?_, ?_⟩
    · unfold occ
      have he : 2 * ((c - 1) / 2) + 1 = c := by omega
      rw [he]
      exact hcx1
    · intro j2 h1 h2
      obtain ⟨ch, hch, hne⟩ := hbefore (2 * j2 + 1 - 3).toNat (by omega)
      have he : (3 : Int) + ((2 * j2 + 1 - 3).toNat : Int) * 1 = 2 * j2 + 1 := by omega
      rw [he] at hch
      unfold occ
      rw [hch]
      simpa using hne

/-- The right-to-left search of one interior row: it ends without a hit exactly
when the row has no Empty interior cell, and otherwise stops at the occupancy
index of the rightmost Empty interior cell. -/
theorem rowDown_spec {g : Game} (hb : PlayBoard g) (r : Int) (hr : 0 < r ∧ r < g.rows - 1) :
    ∃ res, scanLine (fun c => readCell g.board r c) (-1) (LAST_INTERIOR_CELL_COLUMN g)
        (LAST_INTERIOR_CELL_COLUMN g - 2).toNat = some res ∧
      (res = none → ∀ j : Int, 0 < j → j < g.columns - 1 → occ g.board r j ≠ some '.') ∧
      (∀ c, res = some c → ∃ j : Int, c = 2 * j + 1 ∧ 0 < j ∧ j < g.columns - 1 ∧
        occ g.board r j = some '.' ∧
        ∀ j2 : Int, j < j2 → j2 < g.columns - 1 → occ g.board r j2 ≠ some '.') := by
  have hw := weight_ne_dot hb r
  obtain ⟨hr3, hc3, hs, _⟩ := hb
  unfold LAST_INTERIOR_CELL_COLUMN
  obtain ⟨res, hres⟩ := scanLine_total (fun c => readCell g.board r c) (-1)
    (2 * g.columns - 3 - 2).toNat (2 * g.columns - 3)
    (fun m hm => (readCell_isSome_iff hs r _).mpr (by omega))
  have hspec := scanLine_spec _ _ _ _ _ hres
  refine ⟨res, hres, ?_, ?_⟩
  · intro hnone j hj1 hj2
    subst hnone
    obtain ⟨ch, hch, hne⟩ := hspec (2 * g.columns - 3 - (2 * j + 1)).toNat (by omega)
    have he : 2 * g.columns - 3 + ((2 * g.columns - 3 - (2 * j + 1)).toNat : Int) * (-1) =
        2 * j + 1 := by omega
    rw [he] at hch
    unfold occ
    rw [hch]
    simpa using hne
  · intro c hc
    subst hc
    obtain ⟨k, hk, hxk, hcx, hbefore⟩ := hspec
    have hcx1 : readCell g.board r c = some '.' := hcx
    have hodd : c % 2 = 1 := by
      by_contra hne
      obtain ⟨ch, hch, hdot⟩ := hw c hr (by omega) (by omega)
      rw [hch] at hcx1
      simp only [Option.some.injEq] at hcx1
      exact hdot hcx1
    refine ⟨(c - 1) / 2, by omega, by omega, by omega, ?_, ?_⟩
    · unfold occ
      have he : 2 * ((c - 1) / 2) + 1 = c := by omega
      rw [he]
      exact hcx1
    · intro j2 h1 h2
      obtain ⟨ch, hch, hne⟩ := hbefore (2 * g.columns - 3 - (2 * j2 + 1)).toNat (by omega)
      have he : 2 * g.columns - 3 + ((2 * g.columns - 3 - (2 * j2 + 1)).toNat : Int) * (-1) =
          2 * j2 + 1 := by omega
      rw [he] at hch
      unfold occ
      rw [hch]
      simpa using hne

/-- The row-major search of the interior (`type_zero_move` for `O`,
`check_board_full`): no hit exactly when no interior cell is Empty, otherwise
the first Empty interior cell in row-major order. -/
theorem scanUp_spec {g : Game} (hb : PlayBoard g) :
    ∃ res, scanRows (fun r => scanLine (fun c => readCell g.board r c) 1 3
        (SCORE_COLUMN_OF_LAST_CELL g - 3).toNat) 1 1 (g.rows - 2).toNat = some res ∧
      (res = none → ∀ r j : Int, IsInterior g r j → occ g.board r j ≠ some '.') ∧
      (∀ r c, res = some (r, c) → ∃ j : Int, c = 2 * j + 1 ∧ IsInterior g r j ∧
        occ g.board r j = some '.' ∧
        ∀ r2 j2 : Int, IsInterior g r2 j2 → occ g.board r2 j2 = some '.' →
          (r < r2 ∨ (r = r2 ∧ j ≤ j2))) := by
  obtain ⟨res, hres⟩ := scanRows_total
    (fun r => scanLine (fun c => readCell g.board r c) 1 3
      (SCORE_COLUMN_OF_LAST_CELL g - 3).toNat) 1 (g.rows - 2).toNat 1
    (fun m hm => by
      obtain ⟨x, hx, _⟩ := rowUp_spec hb (1 + m * 1) (by omega)
      exact ⟨x, hx⟩)
  obtain ⟨h1, h2⟩ := scanRows_spec _ _ _ _ _ hres
  refine ⟨res, hres, ?_, ?_⟩
  · intro hnone r j ⟨hr1, hr2, hj1, hj2⟩
    have hrow := h1 hnone (r - 1).toNat (by omega)
    have he : (1 : Int) + ((r - 1).toNat : Int) * 1 = r := by omega
    rw [he] at hrow
    obtain ⟨x, hx, hx1, _⟩ := rowUp_spec hb r ⟨hr1, hr2⟩
    have hx0 : x = none := by
      have := hx.symm.trans hrow
      simpa using this
    exact hx1 hx0 j hj1 hj2
  · intro r c hrc
    obtain ⟨k, hk, hr, hfound, hbefore⟩ := h2 r c hrc
    have hrr : 0 < r ∧ r < g.rows - 1 := by omega
    obtain ⟨x, hx, _, hx2⟩ := rowUp_spec hb r hrr
    have hxc : x = some c := by
      have := hx.symm.trans hfound
      simpa using this
    obtain ⟨j, hc, hj1, hj2, hocc, hleft⟩ := hx2 c hxc
    refine ⟨j, hc, ⟨hrr.1, hrr.2, hj1, hj2⟩, hocc, ?_⟩
    intro r2 j2 ⟨hr21, hr22, hj21, hj22⟩ hocc2
    by_cases hlt : r2 < r
    · exfalso
      have hrow := hbefore (r2 - 1).toNat (by omega)
      have he : (1 : Int) + ((r2 - 1).toNat : Int) * 1 = r2 := by omega
      rw [he] at hrow
      obtain ⟨y, hy, hy1, _⟩ := rowUp_spec hb r2 ⟨hr21, hr22⟩
      have hy0 : y = none := by
        have := hy.symm.trans hrow
        simpa using this
      exact hy1 hy0 j2 hj21 hj22 hocc2
    · by_cases heq : r2 = r
      · right
        subst heq
        refine ⟨rfl, ?_⟩
        by_contra hlt2
        exact hleft j2 hj21 (by omega) hocc2
      · left
        omega

/-- The reverse search of the interior (`type_zero_move` for `X`): no hit
exactly when no interior cell is Empty, otherwise the last Empty interior cell
in row-major order. -/
theorem scanDown_spec {g : Game} (hb : PlayBoard g) :
    ∃ res, scanRows (fun r => scanLine (fun c => readCell g.board r c) (-1)
        (LAST_INTERIOR_CELL_COLUMN g) (LAST_INTERIOR_CELL_COLUMN g - 2).toNat)
        (-1) (g.rows - 2) (g.rows - 2).toNat = some res ∧
      (res = none → ∀ r j : Int, IsInterior g r j → occ g.board r j ≠ some '.') ∧
      (∀ r c, res = some (r, c) → ∃ j : Int, c = 2 * j + 1 ∧ IsInterior g r j ∧
        occ g.board r j = some '.' ∧
        ∀ r2 j2 : Int, IsInterior g r2 j2 → occ g.board r2 j2 = some '.' →
          (r2 < r ∨ (r2 = r ∧ j2 ≤ j))) := by
  obtain ⟨res, hres⟩ := scanRows_total
    (fun r => scanLine (fun c => readCell g.board r c) (-1)
      (LAST_INTERIOR_CELL_COLUMN g) (LAST_INTERIOR_CELL_COLUMN g - 2).toNat)
    (-1) (g.rows - 2).toNat (g.rows - 2)
    (fun m hm => by
      obtain ⟨x, hx, _⟩ := rowDown_spec hb (g.rows - 2 + m * (-1)) (by omega)
      exact ⟨x, hx⟩)
  obtain ⟨h1, h2⟩ := scanRows_spec _ _ _ _ _ hres
  refine ⟨res, hres, ?_, ?_⟩
  · intro hnone r j ⟨hr1, hr2, hj1, hj2⟩
    have hrow := h1 hnone (g.rows - 2 - r).toNat (by omega)
    have he : g.rows - 2 + ((g.rows - 2 - r).toNat : Int) * (-1) = r := by omega
    rw [he] at hrow
    obtain ⟨x, hx, hx1, _⟩ := rowDown_spec hb r ⟨hr1, hr2⟩
    have hx0 : x = none := by
      have := hx.symm.trans hrow
      simpa using this
    exact hx1 hx0 j hj1 hj2
  · intro r c hrc
    obtain ⟨k, hk, hr, hfound, hbefore⟩ := h2 r c hrc
    have hrr : 0 < r ∧ r < g.rows - 1 := by omega
    obtain ⟨x, hx, _, hx2⟩ := rowDown_spec hb r hrr
    have hxc : x = some c := by
      have := hx.symm.trans hfound
      simpa using this
    obtain ⟨j, hc, hj1, hj2, hocc, hright⟩ := hx2 c hxc
    refine ⟨j, hc, ⟨hrr.1, hrr.2, hj1, hj2⟩, hocc, ?_⟩
    intro r2 j2 ⟨hr21, hr22, hj21, hj22⟩ hocc2
    by_cases hlt : r < r2
    · exfalso
      have hrow := hbefore (g.rows - 2 - r2).toNat (by omega)
      have he : g.rows - 2 + ((g.rows - 2 - r2).toNat : Int) * (-1) = r2 := by omega
      rw [he] at hrow
      obtain ⟨y, hy, hy1, _⟩ := rowDown_spec hb r2 ⟨hr21, hr22⟩
      have hy0 : y = none := by
        have := hy.symm.trans hrow
        simpa using this
      exact hy1 hy0 j2 hj21 hj22 hocc2
    · by_cases heq : r2 = r
      · right
        subst heq
        refine ⟨rfl, ?_⟩
        by_contra hlt2
        exact hright j2 (by omega) hj22 hocc2
      · left
        omega

/-! ## Claims on the automated moves of type 0 and the full-board test -/

/-- C11: on a well-formed board with at least one Empty interior cell,
`type_zero_move` for player `O` (of type `0`) assigns the first Empty interior
cell in row-major order, and for player `X` (of type `0`) the last Empty
interior cell in row-major order; when exactly one interior cell is Empty, both
players are assigned that cell. -/
theorem type_zero_move_scan_order (g : Game) (hwf : WellFormed g)
    (hex : ∃ r j : Int, IsInterior g r j ∧ occ g.board r j = some '.') :
    (g.currentPlayer = 'O' → g.playerTypeO = '0' →
      ∃ r j : Int, IsInterior g r j ∧ occ g.board r j = some '.' ∧
        (∀ r2 j2 : Int, IsInterior g r2 j2 → occ g.board r2 j2 = some '.' →
          (r < r2 ∨ (r = r2 ∧ j ≤ j2))) ∧
        type_zero_move g = some (some (automated g r j))) ∧
    (g.currentPlayer = 'X' → g.playerTypeX = '0' →
      ∃ r j : Int, IsInterior g r j ∧ occ g.board r j = some '.' ∧
        (∀ r2 j2 : Int, IsInterior g r2 j2 → occ g.board r2 j2 = some '.' →
          (r2 < r ∨ (r2 = r ∧ j2 ≤ j))) ∧
        type_zero_move g = some (some (automated g r j))) ∧
    (∀ r j : Int, IsInterior g r j → occ g.board r j = some '.' →
      (∀ r2 j2 : Int, IsInterior g r2 j2 → occ g.board r2 j2 = some '.' → r2 = r ∧ j2 = j) →
      ((g.currentPlayer = 'O' ∧ g.playerTypeO = '0') ∨
        (g.currentPlayer = 'X' ∧ g.playerTypeX = '0')) →
      type_zero_move g = some (some (automated g r j))) := by
  have hb := wellFormed_playBoard hwf
  obtain ⟨r0, j0, hint0, hocc0⟩ := hex
  have hO : g.currentPlayer = 'O' → g.playerTypeO = '0' →
      ∃ r j : Int, IsInterior g r j ∧ occ g.board r j = some '.' ∧
        (∀ r2 j2 : Int, IsInterior g r2 j2 → occ g.board r2 j2 = some '.' →
          (r < r2 ∨ (r = r2 ∧ j ≤ j2))) ∧
        type_zero_move g = some (some (automated g r j)) := by
    intro hp ht
    obtain ⟨res, hres, hnone, hsome⟩ := scanUp_spec hb
    cases res with
    | none => exact absurd hocc0 (hnone rfl r0 j0 hint0)
    | some rc =>
      obtain ⟨r, c⟩ := rc
      obtain ⟨j, hc, hint, hocc, hfirst⟩ := hsome r c rfl
      refine ⟨r, j, hint, hocc, hfirst, ?_⟩
      have he : COLUMN_MOVE c = j := by
        unfold COLUMN_MOVE
        omega
      unfold type_zero_move
      rw [if_pos ⟨hp, ht⟩, hres]
      simp only [he]
  have hX : g.currentPlayer = 'X' → g.playerTypeX = '0' →
      ∃ r j : Int, IsInterior g r j ∧ occ g.board r j = some '.' ∧
        (∀ r2 j2 : Int, IsInterior g r2 j2 → occ g.board r2 j2 = some '.' →
          (r2 < r ∨ (r2 = r ∧ j2 ≤ j))) ∧
        type_zero_move g = some (some (automated g r j)) := by
    intro hp ht
    obtain ⟨res, hres, hnone, hsome⟩ := scanDown_spec hb
    cases res with
    | none => exact absurd hocc0 (hnone rfl r0 j0 hint0)
    | some rc =>
      obtain ⟨r, c⟩ := rc
      obtain ⟨j, hc, hint, hocc, hlast⟩ := hsome r c rfl
      refine ⟨r, j, hint, hocc, hlast, ?_⟩
      have he : COLUMN_MOVE c = j := by
        unfold COLUMN_MOVE
        omega
      have hnO : ¬ (g.currentPlayer = 'O' ∧ g.playerTypeO = '0') := by
        intro h
        rw [hp] at h
        exact absurd h.1 (by decide)
      unfold type_zero_move
      rw [if_neg hnO, if_pos ⟨hp, ht⟩, hres]
      simp only [he]
  refine ⟨hO, hX, ?_⟩
  intro r j hint hocc huniq hkind
  rcases hkind with ⟨hp, ht⟩ | ⟨hp, ht⟩
  · obtain ⟨r1, j1, hint1, hocc1, _, hmove⟩ := hO hp ht
    obtain ⟨h1, h2⟩ := huniq r1 j1 hint1 hocc1
    rw [hmove, h1, h2]
  · obtain ⟨r1, j1, hint1, hocc1, _, hmove⟩ := hX hp ht
    obtain ⟨h1, h2⟩ := huniq r1 j1 hint1 hocc1
    rw [hmove, h1, h2]

/-- Witness for C11: on the sample board the type-0 player `O` is assigned
`(1, 2)` and the type-0 player `X` is assigned `(2, 3)`. -/
theorem type_zero_move_scan_order_witness :
    WellFormed (autoGame '0' 'O') ∧
    type_zero_move (autoGame '0' 'O') = some (some (automated (autoGame '0' 'O') 1 2)) ∧
    type_zero_move (autoGame '0' 'X') = some (some (automated (autoGame '0' 'X') 2 3)) ∧
    ∃ r j : Int, IsInterior (autoGame '0' 'O') r j ∧
      occ (autoGame '0' 'O').board r j = some '.' ∧
      (∀ r2 j2 : Int, IsInterior (autoGame '0' 'O') r2 j2 →
        occ (autoGame '0' 'O').board r2 j2 = some '.' → (r < r2 ∨ (r = r2 ∧ j ≤ j2))) ∧
      type_zero_move (autoGame '0' 'O') = some (some (automated (autoGame '0' 'O') r j)) :=
  ⟨by decide, by decide, by decide,
    (type_zero_move_scan_order (autoGame '0' 'O') (by decide)
      ⟨1, 2, by decide, by decide⟩).1 rfl rfl⟩

/-- What `check_board_full` returns on a board of the data model. -/
theorem check_board_full_spec {g : Game} (hb : PlayBoard g) :
    (check_board_full g = some ExitCodes.EXIT_FULL_BOARD ∧
      ∀ r j : Int, IsInterior g r j → occ g.board r j ≠ some '.') ∨
    (check_board_full g = some ExitCodes.EXIT_NORMAL ∧
      ∃ r j : Int, IsInterior g r j ∧ occ g.board r j = some '.') := by
  obtain ⟨res, hres, hnone, hsome⟩ := scanUp_spec hb
  cases res with
  | none =>
    left
    refine ⟨?_, hnone rfl⟩
    unfold check_board_full
    rw [hres]
  | some rc =>
    right
    obtain ⟨r, c⟩ := rc
    obtain ⟨j, _, hint, hocc, _⟩ := hsome r c rfl
    refine ⟨?_, r, j, hint, hocc⟩
    unfold check_board_full
    rw [hres]

/-- C17: on a board of the data model (every well-formed board is one, and so
is every board reached in play), `check_board_full` reports the full board
exactly when no interior cell is Empty, and reports the normal status, with
which the turn loop goes on, exactly when some interior cell is Empty; a
well-formed board with a valid player, which passes validation, and with no
Empty interior cell gives `main` the full-board status, not the file-contents
error. -/
theorem check_board_full_iff (g : Game) (hb : PlayBoard g) :
    (check_board_full g = some ExitCodes.EXIT_FULL_BOARD ↔
      ∀ r j : Int, IsInterior g r j → occ g.board r j ≠ some '.') ∧
    (check_board_full g = some ExitCodes.EXIT_NORMAL ↔
      ∃ r j : Int, IsInterior g r j ∧ occ g.board r j = some '.') ∧
    (WellFormed g → ValidPlayer g →
      (∀ r j : Int, IsInterior g r j → occ g.board r j ≠ some '.') →
      file_contents_error_handler g "" "" ExitCodes.EXIT_NORMAL =
        some ExitCodes.EXIT_NORMAL ∧
      load_status g "" "" = some ExitCodes.EXIT_FULL_BOARD) := by
  have hspec := check_board_full_spec hb
  have h1 : check_board_full g = some ExitCodes.EXIT_FULL_BOARD ↔
      ∀ r j : Int, IsInterior g r j → occ g.board r j ≠ some '.' := by
    constructor
    · intro h
      rcases hspec with ⟨_, h2⟩ | ⟨h2, _⟩
      · exact h2
      · rw [h] at h2
        exact absurd h2 (by decide)
    · intro h
      rcases hspec with ⟨h2, _⟩ | ⟨_, r, j, hint, hocc⟩
      · exact h2
      · exact absurd hocc (h r j hint)
  have h2 : check_board_full g = some ExitCodes.EXIT_NORMAL ↔
      ∃ r j : Int, IsInterior g r j ∧ occ g.board r j = some '.' := by
    constructor
    · intro h
      rcases hspec with ⟨h2, _⟩ | ⟨_, h2⟩
      · rw [h] at h2
        exact absurd h2 (by decide)
      · exact h2
    · intro ⟨r, j, hint, hocc⟩
      rcases hspec with ⟨_, h2⟩ | ⟨h2, _⟩
      · exact absurd hocc (h2 r j hint)
      · exact h2
  refine ⟨h1, h2, ?_⟩
  intro hwf hp hfull
  obtain ⟨k, hk, hb1, hb2, hb3⟩ := scanBoard_wellFormed hwf
  have hup : g.currentPlayer = g.currentPlayer.toUpper := by
    rcases hp with h | h <;> rw [h] <;> decide
  have hxo : ¬ (g.currentPlayer ≠ 'X' ∧ g.currentPlayer ≠ 'O') := by
    rcases hp with h | h <;> rw [h] <;> decide
  have hr3 := hwf.1
  have hc3 := hwf.2.1
  have hacc : file_contents_error_handler g "" "" ExitCodes.EXIT_NORMAL =
      some ExitCodes.EXIT_NORMAL := by
    unfold file_contents_error_handler
    rw [hk]
    simp only
    rw [if_neg]
    intro hcond
    rcases hcond with h | h | h | h | h | h | h | h | h | h | h
    · omega
    · omega
    · exact h hup
    · exact h hb1
    · exact h hb2
    · omega
    · omega
    · exact h hb3
    · exact hxo h
    · exact h rfl
    · exact h rfl
  refine ⟨hacc, ?_⟩
  unfold load_status
  rw [hacc, h1.mpr hfull]

/-- Witness for C17: the 3 by 4 game whose two interior cells hold stones. -/
theorem check_board_full_iff_witness :
    PlayBoard fullGame ∧ check_board_full fullGame = some ExitCodes.EXIT_FULL_BOARD ∧
    load_status fullGame "" "" = some ExitCodes.EXIT_FULL_BOARD ∧
    (check_board_full fullGame = some ExitCodes.EXIT_FULL_BOARD ↔
      ∀ r j : Int, IsInterior fullGame r j → occ fullGame.board r j ≠ some '.') :=
  ⟨by decide, by decide, by decide, (check_board_full_iff fullGame (by decide)).1⟩


/-! ### Scores -/

theorem isDigit_not_marker {w : Char} (hw : w.isDigit = true) :
    isspace w = false ∧ w ≠ '-' ∧ w ≠ '+' ∧ w ≠ 'O' ∧ w ≠ 'X' ∧ w ≠ '.' ∧ w ≠ ' ' := by
  refine ⟨?_, ?_, ?_, ?_, ?_, ?_, ?_⟩
  · by_contra h
    simp only [isspace, Bool.not_eq_false, Bool.or_eq_true, decide_eq_true_eq] at h
    rcases h with ((((h | h) | h) | h) | h) | h <;> subst h <;> exact absurd hw (by decide)
  all_goals (intro h; subst h; exact absurd hw (by decide))

/-- On a digit followed by a non-digit, `atoi` is the value of the digit. -/
theorem atoi_digit (w o : Char) (rest : List Char) (hw : w.isDigit = true)
    (ho : o.isDigit = false) : atoi (w :: o :: rest) = digitValue w := by
  obtain ⟨hsp, hm, hp, -⟩ := isDigit_not_marker hw
  unfold atoi
  simp only [List.dropWhile, hsp]
  split
  · rename_i heq
    simp only [List.cons.injEq] at heq
    exact absurd heq.1 hm
  · rename_i heq
    simp only [List.cons.injEq] at heq
    exact absurd heq.1 hp
  · simp [digitsValue, hw, ho]

theorem atoiAt_cell (b : List (List Char)) (r c : Int) (w o : Char) (hc : 0 ≤ c)
    (h1 : readCell b r c = some w) (h2 : readCell b r (c + 1) = some o)
    (hw : w.isDigit = true) (ho : o.isDigit = false) :
    atoiAt b r c = some (digitValue w) := by
  unfold readCell at h1 h2
  unfold atoiAt
  by_cases hr : r < 0
  · simp [hr] at h1
  simp only [hr, if_false] at h1 h2
  rw [if_neg (by omega)]
  cases hrow : b[r.toNat]? with
  | none => simp [hrow] at h1
  | some row =>
    simp only [hrow] at h1 h2 ⊢
    unfold readRow at h1 h2
    rw [if_neg (by omega)] at h1 h2
    have e : (c + 1).toNat = c.toNat + 1 := by omega
    rw [e] at h2
    obtain ⟨l1, hl1⟩ := List.getElem?_eq_some_iff.mp h1
    obtain ⟨l2, hl2⟩ := List.getElem?_eq_some_iff.mp h2
    rw [if_pos (by omega), List.drop_eq_getElem_cons l1, List.drop_eq_getElem_cons l2,
      hl1, hl2, atoi_digit w o _ hw ho]


theorem atoiAt_total {g : Game} (hs : Shaped g) (r c : Int) (hr0 : 0 ≤ r) (hr : r < g.rows)
    (hc0 : 0 ≤ c) (hc : c ≤ 2 * g.columns) : ∃ v, atoiAt g.board r c = some v := by
  obtain ⟨hlen, hrows⟩ := hs
  unfold atoiAt
  rw [if_neg (by omega)]
  have hlt : r.toNat < g.board.length := by omega
  rw [List.getElem?_eq_getElem hlt]
  have := hrows _ (List.getElem_mem hlt)
  simp only
  rw [if_pos (by omega)]
  exact ⟨_, rfl⟩

theorem pushGuard_total (g : Game) (a b c : Int × Int)
    (ha : ∃ x, readCell g.board a.1 a.2 = some x) (hb : ∃ x, readCell g.board b.1 b.2 = some x)
    (hc : ∃ x, readCell g.board c.1 c.2 = some x) : ∃ v, pushGuard g a b c = some v := by
  obtain ⟨x, hx⟩ := ha
  obtain ⟨y, hy⟩ := hb
  obtain ⟨z, hz⟩ := hc
  unfold pushGuard
  rw [hx, hy, hz]
  simp only
  split_ifs <;> exact ⟨_, rfl⟩

theorem walkLine_total (g : Game) (opponent : Char) (cellAt colAt pushAt : Int → Int × Int)
    (step : Int) (n : Nat) (i : Int) (s : Int × Int)
    (h : ∀ k : Nat, k < n →
      (∃ x, readCell g.board (cellAt (i + step * k)).1 (cellAt (i + step * k)).2 = some x) ∧
      (∃ v, atoiAt g.board (colAt (i + step * k)).1 (colAt (i + step * k)).2 = some v) ∧
      (∃ v, atoiAt g.board (pushAt (i + step * k)).1 (pushAt (i + step * k)).2 = some v)) :
    ∃ s1, walkLine g opponent cellAt colAt pushAt step n i s = some s1 := by
  induction n generalizing i s with
  | zero => exact ⟨s, rfl⟩
  | succ n ih =>
    have h0 := h 0 (by omega)
    simp only [Nat.cast_zero, mul_zero, add_zero] at h0
    obtain ⟨⟨x, hx⟩, ⟨a, ha⟩, ⟨p, hp⟩⟩ := h0
    have hnext : ∀ s2, ∃ s1,
        walkLine g opponent cellAt colAt pushAt step n (i + step) s2 = some s1 := fun s2 =>
      ih (i + step) s2 (fun k hk => by
        have := h (k + 1) (by omega)
        have e : i + step * ((k + 1 : Nat) : Int) = i + step + step * (k : Int) := by
          push_cast
          ring
        rw [e] at this
        exact this)
    unfold walkLine
    rw [hx]
    simp only [ha, hp]
    split_ifs
    · exact hnext _
    · exact ⟨s, rfl⟩
    · exact hnext _

theorem lineAdvantage_total (g : Game) (opponent : Char) (a b c : Int × Int)
    (cellAt colAt pushAt : Int → Int × Int) (step : Int) (n : Nat) (start : Int)
    (hg : ∃ v, pushGuard g a b c = some v)
    (hw : ∀ s, ∃ s1, walkLine g opponent cellAt colAt pushAt step n start s = some s1) :
    ∃ v, lineAdvantage g opponent a b c cellAt colAt pushAt step n start = some v := by
  obtain ⟨v, hv⟩ := hg
  obtain ⟨s1, hs1⟩ := hw (0, 0)
  unfold lineAdvantage
  rw [hv, hs1]
  cases v <;> exact ⟨_, rfl⟩

/-- The line loop returns at the first line whose body succeeds. -/
theorem firstLine_spec (adv : Int → Option Bool) (step : Int) (n : Nat) (i : Int)
    (htot : ∀ k : Nat, k < n → ∃ v, adv (i + step * k) = some v) :
    ∃ res, firstLine adv step n i = some res ∧
      (res = none → ∀ k : Nat, k < n → adv (i + step * k) = some false) ∧
      (∀ x, res = some x → ∃ k : Nat, k < n ∧ x = i + step * k ∧ adv x = some true ∧
        ∀ k1 : Nat, k1 < k → adv (i + step * k1) = some false) := by
  induction n generalizing i with
  | zero =>
    exact ⟨none, rfl, fun _ k hk => absurd hk (by omega), fun x hx => by simp at hx⟩
  | succ n ih =>
    obtain ⟨v, hv⟩ := htot 0 (by omega)
    simp only [Nat.cast_zero, mul_zero, add_zero] at hv
    unfold firstLine
    rw [hv]
    cases v with
    | true =>
      refine ⟨some i, rfl, fun h => by simp at h, fun x hx => ?_⟩
      simp only [Option.some.injEq] at hx
      subst hx
      exact ⟨0, by omega, by simp, hv, fun k1 hk1 => absurd hk1 (by omega)⟩
    | false =>
      have e : ∀ k : Nat, i + step * ((k + 1 : Nat) : Int) = i + step + step * (k : Int) :=
        fun k => by
          push_cast
          ring
      obtain ⟨res, hres, hnone, hsome⟩ := ih (i + step) (fun k hk => by
        have := htot (k + 1) (by omega)
        rw [e] at this
        exact this)
      refine ⟨res, hres, fun h k hk => ?_, fun x hx => ?_⟩
      · cases k with
        | zero => simpa using hv
        | succ k =>
          rw [e]
          exact hnone h k (by omega)
      · obtain ⟨k, hk, hxk, hadv, hbefore⟩ := hsome x hx
        refine ⟨k + 1, by omega, by rw [e]; exact hxk, hadv, fun k1 hk1 => ?_⟩
        cases k1 with
        | zero => simpa using hv
        | succ k1 =>
          rw [e]
          exact hbefore k1 (by omega)


theorem read_total {g : Game} (hs : Shaped g) (r c : Int) (hr0 : 0 ≤ r) (hr : r < g.rows)
    (hc0 : 0 ≤ c) (hc : c < 2 * g.columns) : ∃ x, readCell g.board r c = some x :=
  (readCell_isSome_iff hs r c).mpr ⟨hr0, hr, hc0, hc⟩

theorem downAdvantage_total {g : Game} (hs : Shaped g) (hr3 : 3 ≤ g.rows) (opponent : Char)
    (c : Int) (hc1 : 1 ≤ c) (hc : c < 2 * g.columns) :
    ∃ v, downAdvantage g opponent c = some v := by
  unfold downAdvantage
  refine lineAdvantage_total g opponent _ _ _ _ _ _ _ _ _
    (pushGuard_total g _ _ _ (read_total hs _ _ (by omega)
      (by omega) (by omega) hc)
      (read_total hs _ _ (by omega)
      (by omega) (by omega) hc)
      (read_total hs _ _ (by omega)
      (by omega) (by omega) hc))
    (fun s => walkLine_total g opponent _ _ _ _ _ _ s (fun k hk => ⟨?_, ?_, ?_⟩))
  · exact read_total hs _ _ (by omega)
      (by omega) (by omega) hc
  · exact atoiAt_total hs _ _ (by omega)
      (by omega) (by omega)
      (by omega)
  · exact atoiAt_total hs _ _ (by omega)
      (by omega) (by omega)
      (by omega)

theorem upAdvantage_total {g : Game} (hs : Shaped g) (hr3 : 3 ≤ g.rows) (opponent : Char)
    (c : Int) (hc1 : 1 ≤ c) (hc : c < 2 * g.columns) :
    ∃ v, upAdvantage g opponent c = some v := by
  unfold upAdvantage
  refine lineAdvantage_total g opponent _ _ _ _ _ _ _ _ _
    (pushGuard_total g _ _ _ (read_total hs _ _ (by omega)
      (by omega) (by omega) hc)
      (read_total hs _ _ (by omega)
      (by omega) (by omega) hc)
      (read_total hs _ _ (by omega)
      (by omega) (by omega) hc))
    (fun s => walkLine_total g opponent _ _ _ _ _ _ s (fun k hk => ⟨?_, ?_, ?_⟩))
  · exact read_total hs _ _ (by omega)
      (by omega) (by omega) hc
  · exact atoiAt_total hs _ _ (by omega)
      (by omega) (by omega)
      (by omega)
  · exact atoiAt_total hs _ _ (by omega)
      (by omega) (by omega)
      (by omega)

theorem leftAdvantage_total {g : Game} (hs : Shaped g) (hc3 : 3 ≤ g.columns) (opponent : Char)
    (r : Int) (hr0 : 0 ≤ r) (hr : r < g.rows) :
    ∃ v, leftAdvantage g opponent r = some v := by
  unfold leftAdvantage LAST_CELL_COLUMN LAST_INTERIOR_CELL_COLUMN
  refine lineAdvantage_total g opponent _ _ _ _ _ _ _ _ _
    (pushGuard_total g _ _ _ (read_total hs _ _ hr0 hr (by omega)
      (by omega))
      (read_total hs _ _ hr0 hr (by omega)
      (by omega))
      (read_total hs _ _ hr0 hr (by omega)
      (by omega)))
    (fun s => walkLine_total g opponent _ _ _ _ _ _ s (fun k hk => ⟨?_, ?_, ?_⟩))
  · exact read_total hs _ _ hr0 hr (by omega)
      (by omega)
  · exact atoiAt_total hs _ _ hr0 hr (by omega)
      (by omega)
  · exact atoiAt_total hs _ _ hr0 hr (by omega)
      (by omega)

theorem rightAdvantage_total {g : Game} (hs : Shaped g) (hc3 : 3 ≤ g.columns)
    (opponent : Char) (r : Int) (hr0 : 0 ≤ r) (hr : r < g.rows) :
    ∃ v, rightAdvantage g opponent r = some v := by
  unfold rightAdvantage LAST_CELL_COLUMN SCORE_COLUMN_OF_LAST_INTERIOR_CELL
  refine lineAdvantage_total g opponent _ _ _ _ _ _ _ _ _
    (pushGuard_total g _ _ _ (read_total hs _ _ hr0 hr (by omega)
      (by omega))
      (read_total hs _ _ hr0 hr (by omega)
      (by omega))
      (read_total hs _ _ hr0 hr (by omega)
      (by omega)))
    (fun s => walkLine_total g opponent _ _ _ _ _ _ s (fun k hk => ⟨?_, ?_, ?_⟩))
  · exact read_total hs _ _ hr0 hr (by omega)
      (by omega)
  · exact atoiAt_total hs _ _ hr0 hr (by omega)
      (by omega)
  · exact atoiAt_total hs _ _ hr0 hr (by omega)
      (by omega)


/-- The push-down search returns the lowest logical column whose loop body
succeeds, and `0` when there is none. -/
theorem type_one_push_down_spec (g : Game) (opponent : Char) (hb : PlayBoard g) :
    ∃ res, type_one_push_down g opponent = some res ∧
      (res = none → ∀ j : Int, 1 ≤ j → j < g.columns - 1 →
        downAdvantage g opponent (2 * j + 1) = some false) ∧
      (∀ t, res = some t → ∃ j : Int, 1 ≤ j ∧ j < g.columns - 1 ∧ t = automated g 0 j ∧
        downAdvantage g opponent (2 * j + 1) = some true ∧
        ∀ j1 : Int, 1 ≤ j1 → j1 < j → downAdvantage g opponent (2 * j1 + 1) = some false) := by
  obtain ⟨hr3, hc3, hs, -⟩ := hb
  obtain ⟨res, hres, hnone, hsome⟩ := firstLine_spec (downAdvantage g opponent) 2
    ((SCORE_COLUMN_OF_LAST_CELL g - 2) / 2).toNat 3 (fun k hk => by
      unfold SCORE_COLUMN_OF_LAST_CELL at hk
      exact downAdvantage_total hs hr3 opponent _ (by omega) (by omega))
  unfold type_one_push_down
  rw [hres]
  unfold SCORE_COLUMN_OF_LAST_CELL at hnone hsome
  cases res with
  | none =>
    refine ⟨none, rfl, fun _ j hj1 hj => ?_, fun t ht => by simp at ht⟩
    have := hnone rfl (j - 1).toNat (by omega)
    have e : (3 : Int) + 2 * ((j - 1).toNat : Int) = 2 * j + 1 := by omega
    rw [e] at this
    exact this
  | some c =>
    refine ⟨_, rfl, fun h => by simp at h, fun t ht => ?_⟩
    simp only [Option.some.injEq] at ht
    obtain ⟨k, hk, hck, hadv, hbefore⟩ := hsome c rfl
    have ec : c = 2 * ((k : Int) + 1) + 1 := by omega
    refine ⟨(k : Int) + 1, by omega, by omega, ?_, by rw [← ec]; exact hadv, fun j1 h1 h2 => ?_⟩
    · rw [← ht]
      unfold COLUMN_MOVE
      congr 1
      omega
    · have := hbefore (j1 - 1).toNat (by omega)
      have e : (3 : Int) + 2 * ((j1 - 1).toNat : Int) = 2 * j1 + 1 := by omega
      rw [e] at this
      exact this

/-- The push-left search returns the lowest row whose loop body succeeds. -/
theorem type_one_push_left_spec (g : Game) (opponent : Char) (hb : PlayBoard g) :
    ∃ res, type_one_push_left g opponent = some res ∧
      (res = none → ∀ r : Int, 1 ≤ r → r < g.rows - 1 →
        leftAdvantage g opponent r = some false) ∧
      (∀ t, res = some t → ∃ r : Int, 1 ≤ r ∧ r < g.rows - 1 ∧
        t = automated g r (g.columns - 1) ∧ leftAdvantage g opponent r = some true ∧
        ∀ r1 : Int, 1 ≤ r1 → r1 < r → leftAdvantage g opponent r1 = some false) := by
  obtain ⟨hr3, hc3, hs, -⟩ := hb
  obtain ⟨res, hres, hnone, hsome⟩ := firstLine_spec (leftAdvantage g opponent) 1
    (g.rows - 2).toNat 1 (fun k hk =>
      leftAdvantage_total hs hc3 opponent _ (by omega) (by omega))
  unfold type_one_push_left
  rw [hres]
  cases res with
  | none =>
    refine ⟨none, rfl, fun _ r hr1 hr => ?_, fun t ht => by simp at ht⟩
    have := hnone rfl (r - 1).toNat (by omega)
    have e : (1 : Int) + 1 * ((r - 1).toNat : Int) = r := by omega
    rw [e] at this
    exact this
  | some r =>
    refine ⟨_, rfl, fun h => by simp at h, fun t ht => ?_⟩
    simp only [Option.some.injEq] at ht
    obtain ⟨k, hk, hrk, hadv, hbefore⟩ := hsome r rfl
    refine ⟨r, by omega, by omega, ht.symm, hadv, fun r1 h1 h2 => ?_⟩
    have := hbefore (r1 - 1).toNat (by omega)
    have e : (1 : Int) + 1 * ((r1 - 1).toNat : Int) = r1 := by omega
    rw [e] at this
    exact this

/-- The push-up search returns the highest logical column whose loop body
succeeds. -/
theorem type_one_push_up_spec (g : Game) (opponent : Char) (hb : PlayBoard g) :
    ∃ res, type_one_push_up g opponent = some res ∧
      (res = none → ∀ j : Int, 1 ≤ j → j < g.columns - 1 →
        upAdvantage g opponent (2 * j + 1) = some false) ∧
      (∀ t, res = some t → ∃ j : Int, 1 ≤ j ∧ j < g.columns - 1 ∧
        t = automated g (g.rows - 1) j ∧ upAdvantage g opponent (2 * j + 1) = some true ∧
        ∀ j1 : Int, j < j1 → j1 < g.columns - 1 →
          upAdvantage g opponent (2 * j1 + 1) = some false) := by
  obtain ⟨hr3, hc3, hs, -⟩ := hb
  obtain ⟨res, hres, hnone, hsome⟩ := firstLine_spec (upAdvantage g opponent) (-2)
    ((LAST_INTERIOR_CELL_COLUMN g - 1) / 2).toNat (LAST_INTERIOR_CELL_COLUMN g) (fun k hk => by
      unfold LAST_INTERIOR_CELL_COLUMN at hk ⊢
      exact upAdvantage_total hs hr3 opponent _ (by omega) (by omega))
  unfold type_one_push_up
  rw [hres]
  unfold LAST_INTERIOR_CELL_COLUMN at hnone hsome
  cases res with
  | none =>
    refine ⟨none, rfl, fun _ j hj1 hj => ?_, fun t ht => by simp at ht⟩
    have := hnone rfl (g.columns - 2 - j).toNat (by omega)
    have e : 2 * g.columns - 3 + -2 * ((g.columns - 2 - j).toNat : Int) = 2 * j + 1 := by omega
    rw [e] at this
    exact this
  | some c =>
    refine ⟨_, rfl, fun h => by simp at h, fun t ht => ?_⟩
    simp only [Option.some.injEq] at ht
    obtain ⟨k, hk, hck, hadv, hbefore⟩ := hsome c rfl
    have ec : c = 2 * (g.columns - 2 - (k : Int)) + 1 := by omega
    refine ⟨g.columns - 2 - (k : Int), by omega, by omega, ?_, by rw [← ec]; exact hadv,
      fun j1 h1 h2 => ?_⟩
    · rw [← ht]
      unfold COLUMN_MOVE
      congr 1
      omega
    · have := hbefore (g.columns - 2 - j1).toNat (by omega)
      have e : 2 * g.columns - 3 + -2 * ((g.columns - 2 - j1).toNat : Int) = 2 * j1 + 1 := by
        omega
      rw [e] at this
      exact this

/-- The push-right search returns the highest row whose loop body succeeds. -/
theorem type_one_push_right_spec (g : Game) (opponent : Char) (hb : PlayBoard g) :
    ∃ res, type_one_push_right g opponent = some res ∧
      (res = none → ∀ r : Int, 1 ≤ r → r < g.rows - 1 →
        rightAdvantage g opponent r = some false) ∧
      (∀ t, res = some t → ∃ r : Int, 1 ≤ r ∧ r < g.rows - 1 ∧ t = automated g r 0 ∧
        rightAdvantage g opponent r = some true ∧
        ∀ r1 : Int, r < r1 → r1 < g.rows - 1 → rightAdvantage g opponent r1 = some false) := by
  obtain ⟨hr3, hc3, hs, -⟩ := hb
  obtain ⟨res, hres, hnone, hsome⟩ := firstLine_spec (rightAdvantage g opponent) (-1)
    (g.rows - 2).toNat (g.rows - 2) (fun k hk =>
      rightAdvantage_total hs hc3 opponent _ (by omega) (by omega))
  unfold type_one_push_right
  rw [hres]
  cases res with
  | none =>
    refine ⟨none, rfl, fun _ r hr1 hr => ?_, fun t ht => by simp at ht⟩
    have := hnone rfl (g.rows - 2 - r).toNat (by omega)
    have e : g.rows - 2 + -1 * ((g.rows - 2 - r).toNat : Int) = r := by omega
    rw [e] at this
    exact this
  | some r =>
    refine ⟨_, rfl, fun h => by simp at h, fun t ht => ?_⟩
    simp only [Option.some.injEq] at ht
    obtain ⟨k, hk, hrk, hadv, hbefore⟩ := hsome r rfl
    refine ⟨r, by omega, by omega, ht.symm, hadv, fun r1 h1 h2 => ?_⟩
    have := hbefore (g.rows - 2 - r1).toNat (by omega)
    have e : g.rows - 2 + -1 * ((g.rows - 2 - r1).toNat : Int) = r1 := by omega
    rw [e] at this
    exact this


theorem push_down_found (g : Game) (opponent : Char) (hb : PlayBoard g)
    (h : ∃ j : Int, 1 ≤ j ∧ j < g.columns - 1 ∧
      downAdvantage g opponent (2 * j + 1) = some true) :
    ∃ t, type_one_push_down g opponent = some (some t) ∧ t.game.rowMove = 0 ∧
      1 ≤ t.game.columnMove ∧ t.game.columnMove < g.columns - 1 := by
  obtain ⟨res, hres, hnone, hsome⟩ := type_one_push_down_spec g opponent hb
  obtain ⟨j, hj1, hj, hadv⟩ := h
  cases res with
  | none =>
    have := hnone rfl j hj1 hj
    rw [hadv] at this
    simp at this
  | some t =>
    obtain ⟨j0, h1, h2, ht, -⟩ := hsome t rfl
    subst ht
    exact ⟨_, hres, rfl, h1, h2⟩

theorem push_down_none (g : Game) (opponent : Char) (hb : PlayBoard g)
    (h : ∀ j : Int, 1 ≤ j → j < g.columns - 1 →
      downAdvantage g opponent (2 * j + 1) ≠ some true) :
    type_one_push_down g opponent = some none := by
  obtain ⟨res, hres, -, hsome⟩ := type_one_push_down_spec g opponent hb
  cases res with
  | none => exact hres
  | some t =>
    obtain ⟨j0, h1, h2, -, hadv, -⟩ := hsome t rfl
    exact absurd hadv (h j0 h1 h2)

theorem push_left_found (g : Game) (opponent : Char) (hb : PlayBoard g)
    (h : ∃ r : Int, 1 ≤ r ∧ r < g.rows - 1 ∧ leftAdvantage g opponent r = some true) :
    ∃ t, type_one_push_left g opponent = some (some t) ∧ t.game.columnMove = g.columns - 1 ∧
      1 ≤ t.game.rowMove ∧ t.game.rowMove < g.rows - 1 := by
  obtain ⟨res, hres, hnone, hsome⟩ := type_one_push_left_spec g opponent hb
  obtain ⟨r, hr1, hr, hadv⟩ := h
  cases res with
  | none =>
    have := hnone rfl r hr1 hr
    rw [hadv] at this
    simp at this
  | some t =>
    obtain ⟨r0, h1, h2, ht, -⟩ := hsome t rfl
    subst ht
    exact ⟨_, hres, rfl, h1, h2⟩

theorem push_left_none (g : Game) (opponent : Char) (hb : PlayBoard g)
    (h : ∀ r : Int, 1 ≤ r → r < g.rows - 1 → leftAdvantage g opponent r ≠ some true) :
    type_one_push_left g opponent = some none := by
  obtain ⟨res, hres, -, hsome⟩ := type_one_push_left_spec g opponent hb
  cases res with
  | none => exact hres
  | some t =>
    obtain ⟨r0, h1, h2, -, hadv, -⟩ := hsome t rfl
    exact absurd hadv (h r0 h1 h2)

theorem push_up_found (g : Game) (opponent : Char) (hb : PlayBoard g)
    (h : ∃ j : Int, 1 ≤ j ∧ j < g.columns - 1 ∧
      upAdvantage g opponent (2 * j + 1) = some true) :
    ∃ t, type_one_push_up g opponent = some (some t) ∧ t.game.rowMove = g.rows - 1 ∧
      1 ≤ t.game.columnMove ∧ t.game.columnMove < g.columns - 1 := by
  obtain ⟨res, hres, hnone, hsome⟩ := type_one_push_up_spec g opponent hb
  obtain ⟨j, hj1, hj, hadv⟩ := h
  cases res with
  | none =>
    have := hnone rfl j hj1 hj
    rw [hadv] at this
    simp at this
  | some t =>
    obtain ⟨j0, h1, h2, ht, -⟩ := hsome t rfl
    subst ht
    exact ⟨_, hres, rfl, h1, h2⟩

theorem push_up_none (g : Game) (opponent : Char) (hb : PlayBoard g)
    (h : ∀ j : Int, 1 ≤ j → j < g.columns - 1 →
      upAdvantage g opponent (2 * j + 1) ≠ some true) :
    type_one_push_up g opponent = some none := by
  obtain ⟨res, hres, -, hsome⟩ := type_one_push_up_spec g opponent hb
  cases res with
  | none => exact hres
  | some t =>
    obtain ⟨j0, h1, h2, -, hadv, -⟩ := hsome t rfl
    exact absurd hadv (h j0 h1 h2)

theorem push_right_found (g : Game) (opponent : Char) (hb : PlayBoard g)
    (h : ∃ r : Int, 1 ≤ r ∧ r < g.rows - 1 ∧ rightAdvantage g opponent r = some true) :
    ∃ t, type_one_push_right g opponent = some (some t) ∧ t.game.columnMove = 0 ∧
      1 ≤ t.game.rowMove ∧ t.game.rowMove < g.rows - 1 := by
  obtain ⟨res, hres, hnone, hsome⟩ := type_one_push_right_spec g opponent hb
  obtain ⟨r, hr1, hr, hadv⟩ := h
  cases res with
  | none =>
    have := hnone rfl r hr1 hr
    rw [hadv] at this
    simp at this
  | some t =>
    obtain ⟨r0, h1, h2, ht, -⟩ := hsome t rfl
    subst ht
    exact ⟨_, hres, rfl, h1, h2⟩

theorem push_right_none (g : Game) (opponent : Char) (hb : PlayBoard g)
    (h : ∀ r : Int, 1 ≤ r → r < g.rows - 1 → rightAdvantage g opponent r ≠ some true) :
    type_one_push_right g opponent = some none := by
  obtain ⟨res, hres, -, hsome⟩ := type_one_push_right_spec g opponent hb
  cases res with
  | none => exact hres
  | some t =>
    obtain ⟨r0, h1, h2, -, hadv, -⟩ := hsome t rfl
    exact absurd hadv (h r0 h1 h2)


/-- Claim C12: the type 1 player tries the directions in a fixed order. If some
column offers an advantageous push-down, `type_one_move` returns the push-down
(row 0); otherwise, if some row offers an advantageous push-left, the push-left
(last column); otherwise the push-up (last row); otherwise the push-right
(column 0); the placement search `type_one_highest_cell` decides only when no
line in any direction is advantageous, and whenever some line is advantageous
the returned move is not an interior cell. -/
theorem type_one_move_priority (g : Game) (opponent : Char) (hb : PlayBoard g) :
    (DownOffers g opponent → ∃ t, type_one_move g opponent = some t ∧
      type_one_push_down g opponent = some (some t) ∧ t.game.rowMove = 0) ∧
    (¬ DownOffers g opponent → LeftOffers g opponent →
      ∃ t, type_one_move g opponent = some t ∧
        type_one_push_left g opponent = some (some t) ∧ t.game.columnMove = g.columns - 1) ∧
    (¬ DownOffers g opponent → ¬ LeftOffers g opponent → UpOffers g opponent →
      ∃ t, type_one_move g opponent = some t ∧
        type_one_push_up g opponent = some (some t) ∧ t.game.rowMove = g.rows - 1) ∧
    (¬ DownOffers g opponent → ¬ LeftOffers g opponent → ¬ UpOffers g opponent →
      RightOffers g opponent → ∃ t, type_one_move g opponent = some t ∧
        type_one_push_right g opponent = some (some t) ∧ t.game.columnMove = 0) ∧
    (¬ DownOffers g opponent → ¬ LeftOffers g opponent → ¬ UpOffers g opponent →
      ¬ RightOffers g opponent → type_one_move g opponent = type_one_highest_cell g) ∧
    (DownOffers g opponent ∨ LeftOffers g opponent ∨ UpOffers g opponent ∨
      RightOffers g opponent → ∃ t, type_one_move g opponent = some t ∧
        ¬ IsInterior g t.game.rowMove t.game.columnMove) := by
  have hD := push_down_found g opponent hb
  have hL := push_left_found g opponent hb
  have hU := push_up_found g opponent hb
  have hR := push_right_found g opponent hb
  have nD : ¬ DownOffers g opponent → type_one_push_down g opponent = some none := fun h =>
    push_down_none g opponent hb (fun j h1 h2 h3 => h ⟨j, h1, h2, h3⟩)
  have nL : ¬ LeftOffers g opponent → type_one_push_left g opponent = some none := fun h =>
    push_left_none g opponent hb (fun j h1 h2 h3 => h ⟨j, h1, h2, h3⟩)
  have nU : ¬ UpOffers g opponent → type_one_push_up g opponent = some none := fun h =>
    push_up_none g opponent hb (fun j h1 h2 h3 => h ⟨j, h1, h2, h3⟩)
  have nR : ¬ RightOffers g opponent → type_one_push_right g opponent = some none := fun h =>
    push_right_none g opponent hb (fun j h1 h2 h3 => h ⟨j, h1, h2, h3⟩)
  have c1 : DownOffers g opponent → ∃ t, type_one_move g opponent = some t ∧
      type_one_push_down g opponent = some (some t) ∧ t.game.rowMove = 0 := fun h => by
    obtain ⟨t, ht, hrow, -⟩ := hD h
    exact ⟨t, by unfold type_one_move; rw [ht], ht, hrow⟩
  have c2 : ¬ DownOffers g opponent → LeftOffers g opponent →
      ∃ t, type_one_move g opponent = some t ∧
        type_one_push_left g opponent = some (some t) ∧
        t.game.columnMove = g.columns - 1 := fun h1 h => by
    obtain ⟨t, ht, hcol, -⟩ := hL h
    exact ⟨t, by unfold type_one_move; rw [nD h1, ht], ht, hcol⟩
  have c3 : ¬ DownOffers g opponent → ¬ LeftOffers g opponent → UpOffers g opponent →
      ∃ t, type_one_move g opponent = some t ∧
        type_one_push_up g opponent = some (some t) ∧
        t.game.rowMove = g.rows - 1 := fun h1 h2 h => by
    obtain ⟨t, ht, hrow, -⟩ := hU h
    exact ⟨t, by unfold type_one_move; rw [nD h1, nL h2, ht], ht, hrow⟩
  have c4 : ¬ DownOffers g opponent → ¬ LeftOffers g opponent → ¬ UpOffers g opponent →
      RightOffers g opponent → ∃ t, type_one_move g opponent = some t ∧
        type_one_push_right g opponent = some (some t) ∧
        t.game.columnMove = 0 := fun h1 h2 h3 h => by
    obtain ⟨t, ht, hcol, -⟩ := hR h
    exact ⟨t, by unfold type_one_move; rw [nD h1, nL h2, nU h3, ht], ht, hcol⟩
  refine ⟨c1, c2, c3, c4, fun h1 h2 h3 h4 => ?_, fun h => ?_⟩
  · unfold type_one_move
    rw [nD h1, nL h2, nU h3, nR h4]
  · have hr3 : 3 ≤ g.rows := hb.1
    have hc3 : 3 ≤ g.columns := hb.2.1
    by_cases h1 : DownOffers g opponent
    · obtain ⟨t, ht, -, hrow⟩ := c1 h1
      exact ⟨t, ht, fun hi => by unfold IsInterior at hi; omega⟩
    by_cases h2 : LeftOffers g opponent
    · obtain ⟨t, ht, -, hcol⟩ := c2 h1 h2
      exact ⟨t, ht, fun hi => by unfold IsInterior at hi; omega⟩
    by_cases h3 : UpOffers g opponent
    · obtain ⟨t, ht, -, hrow⟩ := c3 h1 h2 h3
      exact ⟨t, ht, fun hi => by unfold IsInterior at hi; omega⟩
    have h4 : RightOffers g opponent := by
      rcases h with h | h | h | h
      exacts [absurd h h1, absurd h h2, absurd h h3, h]
    obtain ⟨t, ht, -, hcol⟩ := c4 h1 h2 h3 h4
    exact ⟨t, ht, fun hi => by unfold IsInterior at hi; omega⟩

/-- On a board where both a push-down and a push-left are advantageous the
returned move has row 0. -/
theorem type_one_move_priority_witness :
    PlayBoard pushChoiceGame ∧ DownOffers pushChoiceGame 'X' ∧ LeftOffers pushChoiceGame 'X' ∧
      ∃ t, type_one_move pushChoiceGame 'X' = some t ∧
        type_one_push_down pushChoiceGame 'X' = some (some t) ∧ t.game.rowMove = 0 :=
  ⟨by decide, ⟨1, by decide, by decide, by decide⟩, ⟨1, by decide, by decide, by decide⟩,
    (type_one_move_priority pushChoiceGame 'X' (by decide)).1
      ⟨1, by decide, by decide, by decide⟩⟩

/-- Claim C13: within a direction the line chosen is the first advantageous one
in that direction's scan order, whatever the score differences on later lines:
the lowest logical column for push-down, the lowest row for push-left, the
highest logical column for push-up, the highest row for push-right; every line
scanned before it is not advantageous, and a direction yields a push exactly
when one of its lines is advantageous. -/
theorem type_one_line_order (g : Game) (opponent : Char) (hb : PlayBoard g) :
    (∃ res, type_one_push_down g opponent = some res ∧
      (res = none → ∀ j : Int, 1 ≤ j → j < g.columns - 1 →
        downAdvantage g opponent (2 * j + 1) = some false) ∧
      (∀ t, res = some t → ∃ j : Int, 1 ≤ j ∧ j < g.columns - 1 ∧ t = automated g 0 j ∧
        downAdvantage g opponent (2 * j + 1) = some true ∧
        ∀ j1 : Int, 1 ≤ j1 → j1 < j →
          downAdvantage g opponent (2 * j1 + 1) = some false)) ∧
    (∃ res, type_one_push_left g opponent = some res ∧
      (res = none → ∀ r : Int, 1 ≤ r → r < g.rows - 1 →
        leftAdvantage g opponent r = some false) ∧
      (∀ t, res = some t → ∃ r : Int, 1 ≤ r ∧ r < g.rows - 1 ∧
        t = automated g r (g.columns - 1) ∧ leftAdvantage g opponent r = some true ∧
        ∀ r1 : Int, 1 ≤ r1 → r1 < r → leftAdvantage g opponent r1 = some false)) ∧
    (∃ res, type_one_push_up g opponent = some res ∧
      (res = none → ∀ j : Int, 1 ≤ j → j < g.columns - 1 →
        upAdvantage g opponent (2 * j + 1) = some false) ∧
      (∀ t, res = some t → ∃ j : Int, 1 ≤ j ∧ j < g.columns - 1 ∧
        t = automated g (g.rows - 1) j ∧ upAdvantage g opponent (2 * j + 1) = some true ∧
        ∀ j1 : Int, j < j1 → j1 < g.columns - 1 →
          upAdvantage g opponent (2 * j1 + 1) = some false)) ∧
    (∃ res, type_one_push_right g opponent = some res ∧
      (res = none → ∀ r : Int, 1 ≤ r → r < g.rows - 1 →
        rightAdvantage g opponent r = some false) ∧
      (∀ t, res = some t → ∃ r : Int, 1 ≤ r ∧ r < g.rows - 1 ∧ t = automated g r 0 ∧
        rightAdvantage g opponent r = some true ∧
        ∀ r1 : Int, r < r1 → r1 < g.rows - 1 →
          rightAdvantage g opponent r1 = some false)) :=
  ⟨type_one_push_down_spec g opponent hb, type_one_push_left_spec g opponent hb,
    type_one_push_up_spec g opponent hb, type_one_push_right_spec g opponent hb⟩

/-- On a board where push-down lowers the opponent's score by 1 in column 1 and
by 9 in column 3, column 1 is chosen; of the two advantageous rows for
push-left, row 1 is chosen. -/
theorem type_one_line_order_witness :
    PlayBoard pushChoiceGame ∧
      downAdvantage pushChoiceGame 'X' 3 = some true ∧
      downAdvantage pushChoiceGame 'X' 7 = some true ∧
      type_one_push_down pushChoiceGame 'X' = some (some (automated pushChoiceGame 0 1)) ∧
      leftAdvantage pushChoiceGame 'X' 1 = some true ∧
      leftAdvantage pushChoiceGame 'X' 2 = some true ∧
      type_one_push_left pushChoiceGame 'X' = some (some (automated pushChoiceGame 1 4)) ∧
      ∃ res, type_one_push_down pushChoiceGame 'X' = some res ∧
        (res = none → ∀ j : Int, 1 ≤ j → j < pushChoiceGame.columns - 1 →
          downAdvantage pushChoiceGame 'X' (2 * j + 1) = some false) ∧
        (∀ t, res = some t → ∃ j : Int, 1 ≤ j ∧ j < pushChoiceGame.columns - 1 ∧
          t = automated pushChoiceGame 0 j ∧
          downAdvantage pushChoiceGame 'X' (2 * j + 1) = some true ∧
          ∀ j1 : Int, 1 ≤ j1 → j1 < j →
            downAdvantage pushChoiceGame 'X' (2 * j1 + 1) = some false) :=
  ⟨by decide, by decide, by decide, by decide, by decide, by decide, by decide,
    (type_one_line_order pushChoiceGame 'X' (by decide)).1⟩

/-- Claim C14 (the code at a failing input): on a well-formed 4 by 4 board where
no push is advantageous, the scores are 0 to 1 and the Empty cell `(1, 1)` holds
the largest weight 9, `type_one_highest_cell` seeds `maxScore` with 9 without
assigning `maxRow` and `maxColumn`, no later cell is strictly larger, and the
last block reads the two locals unassigned: no placement on `(1, 1)` is
returned. -/
theorem type_one_highest_cell_unassigned :
    WellFormed greedyGame ∧ occ greedyGame.board 1 1 = some '.' ∧
      weight greedyGame.board 1 1 = some '9' ∧
      type_one_push_down greedyGame 'X' = some none ∧
      type_one_push_left greedyGame 'X' = some none ∧
      type_one_push_up greedyGame 'X' = some none ∧
      type_one_push_right greedyGame 'X' = some none ∧
      current_score_calc greedyGame = some (0, 1) ∧
      type_one_highest_cell greedyGame = none ∧
      type_one_highest_cell greedyGame ≠ some (automated greedyGame 1 1) ∧
      type_one_move greedyGame 'X' = none := by
  decide


/-! ### Saving -/

theorem saveRows_total (b : List (List Char)) (n : Nat) (r : Int) (hr : 0 ≤ r)
    (h : r + n ≤ b.length) : ∃ text, saveRows b n r = some text := by
  induction n generalizing r with
  | zero => exact ⟨[], rfl⟩
  | succ n ih =>
    obtain ⟨text, htext⟩ := ih (r + 1) (by omega) (by push_cast at h ⊢; omega)
    have hlt : r.toNat < b.length := by push_cast at h; omega
    unfold saveRows
    rw [if_neg (by omega), List.getElem?_eq_getElem hlt]
    simp only [htext]
    exact ⟨_, rfl⟩

/-- A save request hands `play_move` the move `(0, 0)` with empty error strings
on the unchanged game. -/
theorem human_move_save (g : Game) (rest : List Char) (opened : Bool)
    (hrows : g.rows ≤ g.board.length) :
    ∃ out, human_move ('s' :: rest) g opened =
      some ({ move := String.mk ('s' :: rest), rowMoveErrors := "", columnMoveErrors := "",
              game := withMove g 0 0 }, out) := by
  obtain ⟨text, htext⟩ := saveRows_total g.board g.rows.toNat 0 (le_refl _) (by omega)
  have htext1 : saveRows (withMove g 0 0).board (withMove g 0 0).rows.toNat 0 = some text :=
    htext
  unfold human_move
  rw [if_neg (by simp), if_neg (by simp)]
  unfold save_game saveText
  simp only [htext1]
  split_ifs <;> exact ⟨_, rfl⟩

/-- Claim C19: a save request does not consume a turn. For every game whose
board holds its `rows` rows and every input line beginning with `s` (the bare
`s` included, and whether or not the save file can be opened), `human_move`
returns through `save_game` with the move `(0, 0)`, and the `play_move` call
that follows leaves the board and `currentPlayer` exactly as they were. -/
theorem save_keeps_turn (g : Game) (rest : List Char) (opened : Bool)
    (hrows : g.rows ≤ g.board.length) :
    ∃ t out g2, human_move ('s' :: rest) g opened = some (t, out) ∧
      play_move t.rowMoveErrors t.columnMoveErrors t.game = some g2 ∧
      g2.board = g.board ∧ g2.currentPlayer = g.currentPlayer ∧
      g2.rows = g.rows ∧ g2.columns = g.columns := by
  obtain ⟨out, hout⟩ := human_move_save g rest opened hrows
  refine ⟨_, out, withMove g 0 0, hout, ?_, rfl, rfl, rfl, rfl⟩
  exact play_move_ignored "" "" (withMove g 0 0)
    (fun hi => absurd hi.1 (lt_irrefl 0)) (by simp [withMove])

/-- The bare `s` and a save to a file on the sample game: the same player is to
move on the same board. -/
theorem save_keeps_turn_witness :
    human_move "s".toList sampleGame true =
      some ({ move := "s", rowMoveErrors := "", columnMoveErrors := "",
              game := withMove sampleGame 0 0 }, none) ∧
    play_move "" "" (withMove sampleGame 0 0) = some (withMove sampleGame 0 0) ∧
    ∃ t out g2, human_move ('s' :: "ave.txt".toList) sampleGame true = some (t, out) ∧
      play_move t.rowMoveErrors t.columnMoveErrors t.game = some g2 ∧
      g2.board = sampleGame.board ∧ g2.currentPlayer = sampleGame.currentPlayer ∧
      g2.rows = sampleGame.rows ∧ g2.columns = sampleGame.columns :=
  ⟨by decide, by decide, save_keeps_turn sampleGame "ave.txt".toList true (by decide)⟩


/-! ### Numbers as text -/

theorem digitChar_spec (d : Nat) (hd : d < 10) :
    (Char.ofNat (48 + d)).isDigit = true ∧ digitValue (Char.ofNat (48 + d)) = d := by
  interval_cases d <;> exact ⟨by decide, by decide⟩

theorem natText_isDigit (n : Nat) : ∀ ch ∈ natText n, ch.isDigit = true := by
  intro ch hch
  unfold natText at hch
  split_ifs at hch with h0
  · simp only [List.mem_singleton] at hch
    subst hch
    decide
  · simp only [List.mem_map, List.mem_reverse] at hch
    obtain ⟨d, hd, rfl⟩ := hch
    exact (digitChar_spec d (Nat.digits_lt_base (by norm_num) hd)).1

theorem natText_ne_nil (n : Nat) : natText n ≠ [] := by
  unfold natText
  split_ifs with h0
  · simp
  · simp only [ne_eq, List.map_eq_nil_iff, List.reverse_eq_nil_iff]
    exact Nat.digits_ne_nil_iff_ne_zero.mpr h0

theorem natText_length (n : Nat) (h : n < 10 ^ 19) : (natText n).length ≤ 19 := by
  unfold natText
  split_ifs with h0
  · simp
  · simp only [List.length_map, List.length_reverse]
    rw [Nat.digits_len 10 n (by norm_num) h0]
    exact Nat.log_lt_of_lt_pow h0 h

/-- The digit loop on a big-endian digit list. -/
theorem digitsValue_map (l : List Nat) (hl : ∀ d ∈ l, d < 10) (acc : Int) :
    digitsValue (l.map (fun d => Char.ofNat (48 + d))) acc =
      l.foldl (fun (a : Int) (d : Nat) => a * 10 + (d : Int)) acc := by
  induction l generalizing acc with
  | nil => rfl
  | cons d l ih =>
    obtain ⟨h1, h2⟩ := digitChar_spec d (hl d (List.mem_cons_self _ _))
    simp only [List.map_cons, digitsValue, h1, if_true, h2, List.foldl_cons]
    exact ih (fun x hx => hl x (List.mem_cons_of_mem _ hx)) _

theorem foldl_ofDigits (l : List Nat) :
    l.reverse.foldl (fun (a : Int) (d : Nat) => a * 10 + (d : Int)) 0 = (Nat.ofDigits 10 l : Nat) := by
  induction l with
  | nil => simp
  | cons d l ih =>
    simp only [List.reverse_cons, List.foldl_append, List.foldl_cons, List.foldl_nil, ih,
      Nat.ofDigits_cons]
    push_cast
    ring

theorem digitsValue_natText (n : Nat) : digitsValue (natText n) 0 = n := by
  unfold natText
  split_ifs with h0
  · subst h0
    decide
  · rw [digitsValue_map _ (fun d hd => Nat.digits_lt_base (by norm_num) (List.mem_reverse.mp hd)),
      foldl_ofDigits, Nat.ofDigits_digits]

/-- Reading back the text of a non-negative `long` with `strtol` gives the
value and leaves nothing unparsed. -/
theorem strtol_natText (n : Nat) (h : (n : Int) ≤ LONG_MAX) : strtol (natText n) = ((n : Int), []) := by
  have hdig := natText_isDigit n
  have hval := digitsValue_natText n
  cases htext : natText n with
  | nil => exact absurd htext (natText_ne_nil n)
  | cons d ds =>
    rw [htext] at hdig hval
    have hd : d.isDigit = true := hdig d (List.mem_cons_self _ _)
    obtain ⟨hsp, hm, hp, -⟩ := isDigit_not_marker hd
    have hdrop : (d :: ds).dropWhile Char.isDigit = [] :=
      List.dropWhile_eq_nil_iff.mpr hdig
    have hs1 : (d :: ds).dropWhile isspace = d :: ds := by
      simp [List.dropWhile, hsp]
    unfold strtol
    simp only [hs1]
    have hs2 : (match d :: ds with
        | '-' :: r => r
        | '+' :: r => r
        | _ => d :: ds) = d :: ds := by
      split
      · rename_i heq
        simp only [List.cons.injEq] at heq
        exact absurd heq.1 hm
      · rename_i heq
        simp only [List.cons.injEq] at heq
        exact absurd heq.1 hp
      · rfl
    rw [hs2]
    simp only [List.head?_cons, Option.map_some', hd, if_true, Option.some.injEq, hm, if_false,
      hval, hdrop]
    unfold LONG_MAX at h
    unfold LONG_MAX LONG_MIN
    congr 1
    omega


/-! ### Lines and tokens -/

theorem strtok_first (a b : List Char) (ha : a ≠ []) (hsp : ∀ ch ∈ a, ch ≠ ' ') :
    strtok (a ++ ' ' :: b) = some (a, b) := by
  cases a with
  | nil => exact absurd rfl ha
  | cons d ds =>
    have hd : d ≠ ' ' := hsp d (List.mem_cons_self _ _)
    have h1 : (d :: ds ++ ' ' :: b).dropWhile (fun ch => decide (ch = ' ')) =
        d :: (ds ++ ' ' :: b) := by
      simp [List.dropWhile, hd]
    have h2 : (d :: ds ++ ' ' :: b).takeWhile (fun ch => decide (ch ≠ ' ')) = d :: ds := by
      rw [List.takeWhile_append_of_pos (fun ch hch => by simpa using hsp ch hch)]
      simp [List.takeWhile]
    have h3 : (d :: ds ++ ' ' :: b).dropWhile (fun ch => decide (ch ≠ ' ')) = ' ' :: b := by
      rw [List.dropWhile_append_of_pos (fun ch hch => by simpa using hsp ch hch)]
      simp [List.dropWhile]
    unfold strtok
    rw [h1]
    simp only
    rw [← List.cons_append, h2, h3]
    rfl

theorem strtok_last (a : List Char) (ha : a ≠ []) (hsp : ∀ ch ∈ a, ch ≠ ' ') :
    strtok a = some (a, []) := by
  cases a with
  | nil => exact absurd rfl ha
  | cons d ds =>
    have hd : d ≠ ' ' := hsp d (List.mem_cons_self _ _)
    have h1 : (d :: ds).dropWhile (fun ch => decide (ch = ' ')) = d :: ds := by
      simp [List.dropWhile, hd]
    have h2 : (d :: ds).takeWhile (fun ch => decide (ch ≠ ' ')) = d :: ds :=
      List.takeWhile_eq_self_iff.mpr (fun ch hch => by simpa using hsp ch hch)
    have h3 : (d :: ds).dropWhile (fun ch => decide (ch ≠ ' ')) = [] :=
      List.dropWhile_eq_nil_iff.mpr (fun ch hch => by simpa using hsp ch hch)
    unfold strtok
    rw [h1]
    simp only
    rw [h2, h3]
    rfl

theorem space_counter_pair (a b : List Char) (ha : ∀ ch ∈ a, ch ≠ ' ')
    (hb : ∀ ch ∈ b, ch ≠ ' ') : space_counter (a ++ ' ' :: b) = 1 := by
  have h1 : a.count ' ' = 0 := List.count_eq_zero.mpr (fun h => ha ' ' h rfl)
  have h2 : b.count ' ' = 0 := List.count_eq_zero.mpr (fun h => hb ' ' h rfl)
  unfold space_counter
  rw [List.count_append, List.count_cons_self, h1, h2]
  rfl

theorem readLineLoop_line (size : Nat) (eofFlag : Bool) (line rest acc : List Char)
    (hnl : ∀ ch ∈ line, ch ≠ '\n') (hlen : acc.length + line.length ≤ size) :
    readLineLoop size eofFlag (line ++ '\n' :: rest) acc =
      some (acc.reverse ++ line, rest, eofFlag) := by
  induction line generalizing acc with
  | nil => simp [readLineLoop]
  | cons c line ih =>
    have hc : c ≠ '\n' := hnl c (List.mem_cons_self _ _)
    simp only [List.length_cons] at hlen
    rw [List.cons_append]
    unfold readLineLoop
    rw [if_neg hc, if_pos (by omega), ih (c :: acc)
      (fun ch hch => hnl ch (List.mem_cons_of_mem _ hch))
      (by simp only [List.length_cons]; omega)]
    simp

/-- A line that fits the buffer is read back as it was written. -/
theorem read_line_line (size : Nat) (eofFlag : Bool) (line rest : List Char)
    (hnl : ∀ ch ∈ line, ch ≠ '\n') (hlen : line.length ≤ size) :
    read_line (line ++ '\n' :: rest) size eofFlag = some (line, rest, eofFlag) := by
  unfold read_line
  rw [readLineLoop_line size eofFlag line rest [] hnl (by simpa using hlen)]
  simp

/-- The rows written by `save_game` are read back by `init_board`. -/
theorem readRows_saveRows (b : List (List Char)) (size : Nat)
    (hrow : ∀ row ∈ b, (∀ ch ∈ row, ch ≠ '\n') ∧ row.length ≤ size ∧
      row ≠ "test_EOF".toList) (n : Nat) :
    ∀ (r : Int) (text : List Char), 0 ≤ r → saveRows b n r = some text →
      ∀ (tail : List Char) (eofFlag : Bool),
        readRows size n (text ++ tail) eofFlag =
          some ((b.drop r.toNat).take n, tail, eofFlag) := by
  induction n with
  | zero =>
    intro r text _ h tail eofFlag
    simp only [saveRows, Option.some.injEq] at h
    subst h
    simp [readRows]
  | succ n ih =>
    intro r text hr h tail eofFlag
    unfold saveRows at h
    rw [if_neg (by omega)] at h
    cases hget : b[r.toNat]? with
    | none => simp [hget] at h
    | some row =>
      simp only [hget] at h
      cases hrest : saveRows b n (r + 1) with
      | none => simp [hrest] at h
      | some text1 =>
        simp only [hrest, Option.some.injEq] at h
        subst h
        obtain ⟨hlt, hrowEq⟩ := List.getElem?_eq_some_iff.mp hget
        obtain ⟨hnl, hlen, hne⟩ := hrow row (hrowEq ▸ List.getElem_mem hlt)
        have e : (r + 1).toNat = r.toNat + 1 := by omega
        have hih := ih (r + 1) text1 (by omega) hrest tail eofFlag
        unfold readRows
        rw [List.append_assoc, List.cons_append,
          read_line_line size eofFlag row (text1 ++ tail) hnl hlen]
        simp only
        rw [if_neg hne, hih, e, List.drop_eq_getElem_cons hlt, hrowEq]
        simp


/-! ### The save and load round trip -/

/-- No character of a well-formed board is a newline, and the first character
of every row is a blank or `0`. -/
theorem wellFormed_cell_char {g : Game} (hwf : WellFormed g) (r c : Int) (x : Char)
    (hr : 0 ≤ r ∧ r < g.rows) (hc : 0 ≤ c ∧ c < 2 * g.columns)
    (hx : readCell g.board r c = some x) : x ≠ '\n' ∧ (c = 0 → x = ' ' ∨ x = '0') := by
  have hr3 : 3 ≤ g.rows := hwf.1
  have hc3 : 3 ≤ g.columns := hwf.2.1
  obtain ⟨y, hy, hcorner, hborder, hinner⟩ := wellFormed_char hwf r c hr hc
  rw [hx] at hy
  simp only [Option.some.injEq] at hy
  subst hy
  by_cases h1 : (r = 0 ∨ r = g.rows - 1) ∧ (c < 2 ∨ 2 * g.columns - 2 ≤ c)
  · have := hcorner h1
    subst this
    exact ⟨by decide, fun _ => Or.inl rfl⟩
  by_cases h2 : ((r = 0 ∨ r = g.rows - 1) ∧ 2 ≤ c ∧ c < 2 * g.columns - 2) ∨
      (0 < r ∧ r < g.rows - 1 ∧ (c < 2 ∨ 2 * g.columns - 2 ≤ c))
  · obtain ⟨he, ho⟩ := hborder h2
    rcases Int.emod_two_eq_zero_or_one c with hpar | hpar
    · have := he hpar
      subst this
      exact ⟨by decide, fun _ => Or.inr rfl⟩
    · have := ho hpar
      subst this
      exact ⟨by decide, fun h0 => by omega⟩
  have h3 : 0 < r ∧ r < g.rows - 1 ∧ 2 ≤ c ∧ c < 2 * g.columns - 2 := by omega
  obtain ⟨he, ho⟩ := hinner h3
  refine ⟨?_, fun h0 => by omega⟩
  rcases Int.emod_two_eq_zero_or_one c with hpar | hpar
  · obtain ⟨hlo, -⟩ := he hpar
    intro h
    subst h
    exact absurd hlo (by decide)
  · rcases ho hpar with h | h | h <;> subst h <;> decide

theorem wellFormed_row {g : Game} (hwf : WellFormed g) :
    ∀ row ∈ g.board, (row.length : Int) = 2 * g.columns ∧ (∀ ch ∈ row, ch ≠ '\n') ∧
      row ≠ "test_EOF".toList := by
  have hc3 : 3 ≤ g.columns := hwf.2.1
  obtain ⟨hlen, hrows⟩ := hwf.2.2.1
  intro row hrow
  have hl := hrows row hrow
  obtain ⟨i, hi, hrowEq⟩ := List.mem_iff_getElem.mp hrow
  have hread : ∀ (c : Nat) (hcl : c < row.length),
      readCell g.board (i : Int) (c : Int) = some (row[c]) := by
    intro c hcl
    unfold readCell
    rw [if_neg (by omega)]
    simp only [Int.toNat_ofNat, List.getElem?_eq_getElem hi, hrowEq]
    unfold readRow
    rw [if_neg (by omega)]
    simp only [Int.toNat_ofNat, List.getElem?_eq_getElem hcl]
  refine ⟨hl, fun ch hch => ?_, fun heq => ?_⟩
  · obtain ⟨c, hcl, hchEq⟩ := List.mem_iff_getElem.mp hch
    have := (wellFormed_cell_char hwf i c _ (by omega) (by omega) (hread c hcl)).1
    rw [hchEq] at this
    exact this
  · have h0 : 0 < row.length := by omega
    have := (wellFormed_cell_char hwf i (0 : Nat) _ (by omega) (by omega) (hread 0 h0)).2
      (by simp)
    have hhead : row[0]? = some ' ' ∨ row[0]? = some '0' := by
      rw [List.getElem?_eq_getElem h0]
      simpa using this
    rw [heq] at hhead
    revert hhead
    decide

/-- The validator accepts a well-formed game with a valid current player. -/
theorem handler_wellFormed {g : Game} (hwf : WellFormed g) (hp : ValidPlayer g) :
    file_contents_error_handler g "" "" ExitCodes.EXIT_NORMAL =
      some ExitCodes.EXIT_NORMAL := by
  obtain ⟨k, hk, h1, h2, h3⟩ := scanBoard_wellFormed hwf
  have hr3 := hwf.1
  have hc3 := hwf.2.1
  have hup : g.currentPlayer = g.currentPlayer.toUpper := by
    rcases hp with h | h <;> rw [h] <;> decide
  have hxo : ¬ (g.currentPlayer ≠ 'X' ∧ g.currentPlayer ≠ 'O') := by
    rcases hp with h | h <;> rw [h] <;> decide
  unfold file_contents_error_handler
  rw [hk]
  simp only
  rw [if_neg]
  intro hcond
  rcases hcond with h | h | h | h | h | h | h | h | h | h | h
  · omega
  · omega
  · exact h hup
  · exact h h1
  · exact h h2
  · omega
  · omega
  · exact h h3
  · exact hxo h
  · exact h rfl
  · exact h rfl


theorem natText_chars (n : Nat) : ∀ ch ∈ natText n, ch ≠ ' ' ∧ ch ≠ '\n' := by
  intro ch hch
  obtain ⟨hsp, -, -, -, -, -, hb⟩ := isDigit_not_marker (natText_isDigit n ch hch)
  refine ⟨hb, fun h => ?_⟩
  subst h
  exact absurd hsp (by decide)

/-- The header and player lines written by `save_game` are read back by
`file_setup` as the same dimensions and player, with nothing left unparsed. -/
theorem file_setup_saved (g g0 : Game) (hr0 : 0 ≤ g.rows) (hc0 : 0 ≤ g.columns)
    (hp : ValidPlayer g) (hr : g.rows ≤ LONG_MAX) (hc : g.columns ≤ LONG_MAX)
    (rowsText : List Char) :
    file_setup (printLong g.rows ++ ' ' :: printLong g.columns ++ '\n' :: g.currentPlayer ::
        '\n' :: rowsText) g0 =
      some { game := { g0 with
                       rows := g.rows
                       columns := g.columns
                       currentPlayer := g.currentPlayer }
             file := rowsText
             rowErrors := some ""
             columnErrors := some ""
             eofFlag := false } := by
  have eA : printLong g.rows = natText g.rows.toNat := by
    unfold printLong
    rw [if_neg (by omega)]
  have eB : printLong g.columns = natText g.columns.toNat := by
    unfold printLong
    rw [if_neg (by omega)]
  have hA := natText_chars g.rows.toNat
  have hB := natText_chars g.columns.toNat
  have hAn := natText_ne_nil g.rows.toNat
  have hBn := natText_ne_nil g.columns.toNat
  have hAv := strtol_natText g.rows.toNat (by omega)
  have hBv := strtol_natText g.columns.toNat (by omega)
  have hAl := natText_length g.rows.toNat (by unfold LONG_MAX at hr; omega)
  have hBl := natText_length g.columns.toNat (by unfold LONG_MAX at hc; omega)
  have er : ((g.rows.toNat : Nat) : Int) = g.rows := by omega
  have ec : ((g.columns.toNat : Nat) : Int) = g.columns := by omega
  rw [er] at hAv
  rw [ec] at hBv
  rw [eA, eB]
  generalize natText g.rows.toNat = a at hA hAn hAv hAl
  generalize natText g.columns.toNat = b at hB hBn hBv hBl
  have hpn : g.currentPlayer ≠ '\n' := by
    rcases hp with h | h <;> rw [h] <;> decide
  have etext : a ++ ' ' :: b ++ '\n' :: g.currentPlayer :: '\n' :: rowsText =
      (a ++ ' ' :: b) ++ '\n' :: ([g.currentPlayer] ++ '\n' :: rowsText) := by simp
  have hline : read_line ((a ++ ' ' :: b) ++ '\n' :: ([g.currentPlayer] ++ '\n' :: rowsText))
      81 false = some (a ++ ' ' :: b, [g.currentPlayer] ++ '\n' :: rowsText, false) :=
    read_line_line 81 false _ _ (fun ch hch => by
      rcases List.mem_append.mp hch with h | h
      · exact (hA ch h).2
      · rcases List.mem_cons.mp h with h | h
        · subst h
          decide
        · exact (hB ch h).2) (by simp only [List.length_append, List.length_cons]; omega)
  have hsc : space_counter (a ++ ' ' :: b) = 1 :=
    space_counter_pair a b (fun ch h => (hA ch h).1) (fun ch h => (hB ch h).1)
  have hne : a ++ ' ' :: b ≠ "test_EOF".toList := fun h => by
    rw [h] at hsc
    revert hsc
    decide
  have hplayer : read_line ([g.currentPlayer] ++ '\n' :: rowsText) 1 false =
      some ([g.currentPlayer], rowsText, false) :=
    read_line_line 1 false _ _ (fun ch hch => by
      simp only [List.mem_singleton] at hch
      subst hch
      exact hpn) (by simp)
  unfold file_setup
  rw [etext, hline]
  simp only
  rw [if_neg (not_not.mpr hsc), if_pos ⟨trivial, hne⟩,
    strtok_first a b hAn (fun ch h => (hA ch h).1)]
  simp only
  rw [hplayer]
  simp only
  rw [strtok_last b hBn (fun ch h => (hB ch h).1)]
  simp only
  rw [hAv, hBv]


/-- The text saved from a well-formed game loads as the same game. -/
theorem loadGame_saved (g g0 : Game) (hwf : WellFormed g) (hp : ValidPlayer g)
    (hr : g.rows ≤ LONG_MAX) (hc : g.columns ≤ LONG_MAX) :
    ∃ text, saveText g = some text ∧
      loadGame text g0 = some (ExitCodes.EXIT_NORMAL,
        { g0 with
          rows := g.rows
          columns := g.columns
          currentPlayer := g.currentPlayer
          board := g.board }) := by
  have hr3 : 3 ≤ g.rows := hwf.1
  have hc3 : 3 ≤ g.columns := hwf.2.1
  have hlen : (g.board.length : Int) = g.rows := hwf.2.2.1.1
  obtain ⟨rowsText, hrt⟩ := saveRows_total g.board g.rows.toNat 0 (le_refl _) (by omega)
  have hsave : saveText g = some (printLong g.rows ++ ' ' :: printLong g.columns ++ '\n' ::
      g.currentPlayer :: '\n' :: rowsText) := by
    unfold saveText
    rw [hrt]
  have hrows := wellFormed_row hwf
  have hread := readRows_saveRows g.board (2 * g.columns + 1).toNat (fun row h =>
    ⟨(hrows row h).2.1, by have := (hrows row h).1; omega, (hrows row h).2.2⟩)
    g.rows.toNat 0 rowsText (le_refl _) hrt [] false
  have htake : (List.drop (0 : Int).toNat g.board).take g.rows.toNat = g.board := by
    simp only [Int.toNat_zero, List.drop_zero]
    exact List.take_of_length_le (by omega)
  rw [List.append_nil, htake] at hread
  have hsize : ((2 * g.columns + 1) % 2 ^ 64).toNat = (2 * g.columns + 1).toNat := by
    unfold LONG_MAX at hc
    rw [Int.emod_eq_of_lt (by omega) (by omega)]
  have hacc : file_contents_error_handler
      { g0 with
        rows := g.rows
        columns := g.columns
        currentPlayer := g.currentPlayer
        board := g.board } "" "" ExitCodes.EXIT_NORMAL = some ExitCodes.EXIT_NORMAL :=
    handler_wellFormed hwf hp
  refine ⟨_, hsave, ?_⟩
  unfold loadGame
  rw [file_setup_saved g g0 (by omega) (by omega) hp hr hc rowsText]
  simp only
  unfold init_board
  simp only
  rw [hsize, hread]
  simp only
  unfold handlerAfterLoad
  rw [hacc]
  simp only [ne_eq, not_true_eq_false, if_false, hacc]

/-- Claim C18: save/load round trip. For every well-formed game with a valid
current player (its dimensions being C `long` values), the text `save_game`
writes - the line `rows columns`, the current-player line, then each board row
- is read back by `file_setup` and `init_board` without overrunning a buffer,
is accepted by `file_contents_error_handler` with the normal status, and gives
the same rows, columns and current player and an identical board. -/
theorem save_load_round_trip (g g0 : Game) (hwf : WellFormed g) (hp : ValidPlayer g)
    (hr : g.rows ≤ LONG_MAX) (hc : g.columns ≤ LONG_MAX) :
    ∃ text g1, saveText g = some text ∧
      (∀ move opened, 1 < (move : List Char).length → opened = true →
        ∃ t, save_game move g opened = some (t, some text)) ∧
      loadGame text g0 = some (ExitCodes.EXIT_NORMAL, g1) ∧
      g1.rows = g.rows ∧ g1.columns = g.columns ∧ g1.currentPlayer = g.currentPlayer ∧
      g1.board = g.board ∧ g1.playerTypeO = g0.playerTypeO ∧
      g1.playerTypeX = g0.playerTypeX := by
  obtain ⟨text, hsave, hload⟩ := loadGame_saved g g0 hwf hp hr hc
  refine ⟨text, _, hsave, fun move opened hm ho => ?_, hload, rfl, rfl, rfl, rfl, rfl, rfl⟩
  have hsave1 : saveText (withMove g 0 0) = some text := hsave
  unfold save_game
  simp only [hm, ho, if_true, hsave1]
  exact ⟨_, rfl⟩

/-- The sample game saved and loaded again. -/
theorem save_load_round_trip_witness :
    WellFormed sampleGame ∧ ValidPlayer sampleGame ∧
      ∃ text g1, saveText sampleGame = some text ∧
        (∀ move opened, 1 < (move : List Char).length → opened = true →
          ∃ t, save_game move sampleGame opened = some (t, some text)) ∧
        loadGame text fullGame = some (ExitCodes.EXIT_NORMAL, g1) ∧
        g1.rows = sampleGame.rows ∧ g1.columns = sampleGame.columns ∧
        g1.currentPlayer = sampleGame.currentPlayer ∧ g1.board = sampleGame.board ∧
        g1.playerTypeO = fullGame.playerTypeO ∧ g1.playerTypeX = fullGame.playerTypeX :=
  ⟨by decide, by decide,
    save_load_round_trip sampleGame fullGame (by decide) (by decide) (by decide) (by decide)⟩


/-! ### The border during play -/

/-- No move changes a weight character or the dimensions. -/
theorem play_move_weights (re ce : String) (g g2 : Game) (hb : PlayBoard g)
    (h : play_move re ce g = some g2) :
    g2.rows = g.rows ∧ g2.columns = g.columns ∧
      ∀ r j : Int, weight g2.board r j = weight g.board r j := by
  rcases play_move_cases re ce g g2 hb h with h1 | ⟨_, _, b1, hb1, h1⟩ |
    ⟨_, _, _, k, _, _, _, _, b2, h1, hpushed, _, _⟩
  · rw [h1]
    exact ⟨rfl, rfl, fun _ _ => rfl⟩
  · rw [h1]
    refine ⟨rfl, rfl, fun r j => ?_⟩
    unfold weight
    simp only
    rw [readCell_writeCell hb1]
    rw [if_neg]
    unfold MOVE_INDEX
    intro hcontra
    omega
  · rw [h1]
    refine ⟨rfl, rfl, fun r j => ?_⟩
    unfold weight
    simp only
    apply hpushed.2.2
    intro i _ _ hcontra
    unfold slotIndex at hcontra
    simp only [Prod.mk.injEq] at hcontra
    omega

theorem weightsOK_of_wellFormed {g : Game} (hwf : WellFormed g) : WeightsOK g := by
  intro r j h1 h2 h3 h4 hcorner
  have := hwf.2.2.2 r h1 h2 j h3 h4
  rw [if_neg hcorner] at this
  by_cases hint : IsInterior g r j
  · rw [if_pos hint] at this ⊢
    exact this.1
  · rw [if_neg hint] at this ⊢
    exact this.1

/-- Every state reached in play keeps the weights of a well-formed board. -/
theorem reachable_weightsOK {g : Game} (h : Reachable g) : WeightsOK g := by
  induction h with
  | start g hwf _ => exact weightsOK_of_wellFormed hwf
  | move g g2 re ce r c hreach hplay ih =>
    have hinv0 : GameInv g := reachable_gameInv hreach
    have hinv : GameInv (withMove g r c) := hinv0
    obtain ⟨hrows, hcols, hw⟩ := play_move_weights re ce (withMove g r c) g2 hinv.1 hplay
    have hrows1 : g2.rows = g.rows := hrows
    have hcols1 : g2.columns = g.columns := hcols
    have hw1 : ∀ r j : Int, weight g2.board r j = weight g.board r j := hw
    intro r1 j1 h1 h2 h3 h4 hcorner
    have hc2 : ¬ IsCorner g r1 j1 := by
      unfold IsCorner at hcorner ⊢
      rw [hrows1, hcols1] at hcorner
      exact hcorner
    have := ih r1 j1 h1 (by omega) h3 (by omega) hc2
    have hiff : IsInterior g2 r1 j1 ↔ IsInterior g r1 j1 := by
      unfold IsInterior
      rw [hrows1, hcols1]
    rw [hw1]
    by_cases hint : IsInterior g r1 j1
    · rw [if_pos hint] at this
      rw [if_pos (hiff.mpr hint)]
      exact this
    · rw [if_neg hint] at this
      rw [if_neg (fun h => hint (hiff.mp h))]
      exact this

/-- Claim C20 (counterexample): the state `play_move` returns from the
well-formed `smallGame` for the push `(0, 1)` has the stone `X` on the bottom
border cell `(2, 1)`, so not every reachable state keeps its border cells
Empty. -/
theorem border_stone_after_push :
    ¬ ∀ g : Game, Reachable g → ∀ r j : Int, 0 ≤ r → r < g.rows → 0 ≤ j → j < g.columns →
      ¬ IsCorner g r j → ¬ IsInterior g r j →
      weight g.board r j = some '0' ∧ occ g.board r j = some '.' := by
  intro h
  have hreach : Reachable pushedGame :=
    Reachable.move smallGame pushedGame "" "" 0 1
      (Reachable.start smallGame (by decide) (by decide)) (by decide)
  have := (h pushedGame hreach 2 1 (by decide) (by decide) (by decide) (by decide) (by decide)
    (by decide)).2
  revert this
  decide

/-- Claim C20 (amended): starting from any well-formed board, after any sequence
of moves applied by `play_move` every non-corner border cell still has weight
`0`; its occupancy is Empty or a stone `O` or `X`, and a stone stands on a
border cell only when every interior cell of the line ending at it is
occupied. -/
theorem border_cells_in_play (g : Game) (h : Reachable g) :
    ∀ r j : Int, 0 ≤ r → r < g.rows → 0 ≤ j → j < g.columns →
      ¬ IsCorner g r j → ¬ IsInterior g r j →
      weight g.board r j = some '0' ∧
      (occ g.board r j = some '.' ∨ occ g.board r j = some 'O' ∨
        occ g.board r j = some 'X') ∧
      (occ g.board r j ≠ some '.' → ∀ ri ji : Int, IsInterior g ri ji →
        (((r = 0 ∨ r = g.rows - 1) ∧ ji = j) ∨ ((j = 0 ∨ j = g.columns - 1) ∧ ri = r)) →
        occ g.board ri ji ≠ some '.') := by
  intro r j h1 h2 h3 h4 hcorner hint
  have hinv : GameInv g := reachable_gameInv h
  have hw := reachable_weightsOK h r j h1 h2 h3 h4 hcorner
  rw [if_neg hint] at hw
  have hcell := hinv.1.2.2.2 r h1 h2 j h3 h4
  rw [if_neg hcorner] at hcell
  exact ⟨hw, hcell.2, fun hocc ri ji hi hline =>
    hinv.2.2 r j ri ji h1 h2 h3 h4 hcorner hint hi hline hocc⟩

/-- The amended border invariant on the state reached by pushing the stone of
`smallGame` down: the bottom border cell keeps weight `0` and holds `X`. -/
theorem border_cells_in_play_witness :
    Reachable pushedGame ∧ occ pushedGame.board 2 1 = some 'X' ∧
      weight pushedGame.board 2 1 = some '0' ∧
      (occ pushedGame.board 2 1 = some '.' ∨ occ pushedGame.board 2 1 = some 'O' ∨
        occ pushedGame.board 2 1 = some 'X') :=
  have hreach : Reachable pushedGame :=
    Reachable.move smallGame pushedGame "" "" 0 1
      (Reachable.start smallGame (by decide) (by decide)) (by decide)
  have hcell := border_cells_in_play pushedGame hreach 2 1 (by decide) (by decide) (by decide)
    (by decide) (by decide) (by decide)
  ⟨hreach, by decide, hcell.1, hcell.2.1⟩


/-! ## Claims on the human move text, full lines and the mover's stone -/

/-- Claim C21 (the code at failing inputs): the line `+1 2`, which starts with a
sign, and the line `1 \t2`, which holds a tab, pass the tests of `human_move`;
`strtol` skips the sign and the tab, so both give the candidate `(1, 2)` with
empty error strings, and `play_move` places a stone there. -/
theorem human_move_accepts_signed_line :
    human_move "+1 2".toList sampleGame true =
      some ({ move := "+1 2", rowMoveErrors := "", columnMoveErrors := "",
              game := withMove sampleGame 1 2 }, none) ∧
    human_move "1 \t2".toList sampleGame true =
      some ({ move := "1 \t2", rowMoveErrors := "", columnMoveErrors := "",
              game := withMove sampleGame 1 2 }, none) ∧
    occ sampleGame.board 1 2 = some '.' ∧
    ∃ b1, play_move "" "" (withMove sampleGame 1 2) =
        some { withMove sampleGame 1 2 with board := b1, currentPlayer := 'X' } ∧
      occ b1 1 2 = some 'O' :=
  ⟨by decide, by decide, by decide,
    ["  0.0.0.  ".toList, "0.1X2O3O0.".toList, "0.4X5O6.0.".toList, "  0.0.0.  ".toList],
    by decide, by decide⟩

/-- Claim C22 (counterexample): on the sample board every interior cell of
column 1 holds a stone, yet the push triggered at `(0, 1)` is applied: the
stones move down, the last one onto the Empty border cell `(3, 1)`, and the
player is swapped. -/
theorem full_interior_line_is_pushed :
    WellFormed (sampleMove 0 1) ∧ OnBorder (sampleMove 0 1) ∧
    (∀ i : Int, 1 ≤ i → i ≤ lineLen (sampleMove 0 1) - 2 →
      occ sampleGame.board (slot (sampleMove 0 1) i).1 (slot (sampleMove 0 1) i).2 ≠
        some '.') ∧
    play_move "" "" (sampleMove 0 1) =
      some { sampleMove 0 1 with
             board := ["  0.0.0.  ".toList, "0.1O2.3O0.".toList, "0.4X5O6.0.".toList,
               "  0X0.0.  ".toList]
             currentPlayer := 'X' } ∧
    play_move "" "" (sampleMove 0 1) ≠ some (sampleMove 0 1) := by
  refine ⟨by decide, by decide, ?_, by decide, by decide⟩
  intro i h1 h2
  have h3 : i ≤ 2 := h2
  have hi : i = 1 ∨ i = 2 := by omega
  rcases hi with h | h <;> subst h <;> decide

/-- Claim C22 (amended): for every board of the data model and every push
trigger on a line with no Empty slot to receive the shift - the interior cells
and the opposite border cell all hold stones - the push changes nothing:
`play_move` returns the state as it was, with the same board and the same
current player. -/
theorem push_full_line_noop (re ce : String) (g : Game) (hb : PlayBoard g) (hon : OnBorder g)
    (hfull : ∀ i : Int, 1 ≤ i → i ≤ lineLen g - 1 →
      occ g.board (slot g i).1 (slot g i).2 ≠ some '.') :
    play_move re ce g = some g := by
  by_cases herr : re = "" ∧ ce = ""
  · obtain ⟨rfl, rfl⟩ := herr
    rw [play_move_border g hb hon]
    split
    · rcases push_move_cases g hb hon with ⟨_, h5⟩ | ⟨_, ⟨_, h5⟩ | ⟨k, hk1, hk2, hk3, _⟩⟩
      · exact h5
      · exact h5
      · exact absurd hk3 (hfull k (by omega) hk2)
    · rfl
  · exact play_move_parse_error re ce g herr

/-- A push on the full column 1 of the 3 by 3 board whose bottom border cell
holds a stone changes nothing. -/
theorem push_full_line_noop_witness :
    PlayBoard (withMove pushedGame 0 1) ∧ OnBorder (withMove pushedGame 0 1) ∧
      play_move "" "" (withMove pushedGame 0 1) = some (withMove pushedGame 0 1) :=
  ⟨by decide, by decide,
    push_full_line_noop "" "" (withMove pushedGame 0 1) (by decide) (by decide) (by
      intro i h1 h2
      have h3 : i ≤ 2 := h2
      have hi : i = 1 ∨ i = 2 := by omega
      rcases hi with h | h <;> subst h <;> decide)⟩


/-- Claim C25 (counterexample): after the push triggered at the bottom border
cell `(3, 1)` of the sample board, the mover `O` stands on `(2, 1)`, the interior
cell next to the triggering edge; the interior cell `(1, 1)` nearest the
opposite edge and the opposite border cell `(0, 1)` both hold `X`. -/
theorem push_mover_not_at_far_end :
    WellFormed (sampleMove 3 1) ∧ OnBorder (sampleMove 3 1) ∧
    slot (sampleMove 3 1) 1 = (2, 1) ∧
    slot (sampleMove 3 1) (lineLen (sampleMove 3 1) - 2) = (1, 1) ∧
    slot (sampleMove 3 1) (lineLen (sampleMove 3 1) - 1) = (0, 1) ∧
    ∃ b2, play_move "" "" (sampleMove 3 1) =
        some { sampleMove 3 1 with board := b2, currentPlayer := 'X' } ∧
      occ b2 2 1 = some 'O' ∧ occ b2 1 1 = some 'X' ∧ occ b2 0 1 = some 'X' :=
  ⟨by decide, by decide, by decide, by decide, by decide,
    ["  0X0.0.  ".toList, "0.1X2.3O0.".toList, "0.4O5O6.0.".toList, "  0.0.0.  ".toList],
    by decide, by decide, by decide, by decide⟩

/-- Claim C27 (the code at a failing input): on a well-formed board with Empty
interior cells, `X` of type 1 to move, no push is advantageous, the scores
differ and the Empty cell `(1, 1)` holds the largest weight; `type_one_move`
ends in the last block of `type_one_highest_cell` with `maxRow` and `maxColumn`
unassigned, so no move that `play_move` accepts is produced. -/
theorem type_one_move_no_progress :
    WellFormed stuckGame ∧ ValidPlayer stuckGame ∧ stuckGame.playerTypeX = '1' ∧
    otherPlayer stuckGame.currentPlayer = 'O' ∧
    occ stuckGame.board 1 1 = some '.' ∧
    current_score_calc stuckGame = some (0, 1) ∧
    type_one_move stuckGame 'O' = none := by
  decide

/-- Claim C28 (the code at failing inputs): the human lines `0 -3` and `3 7`
pass the tests of `human_move` with empty error strings; for the parsed moves
`(0, -3)` and `(3, 7)` on the well-formed 4 by 5 sample board the second
condition of `play_move` indexes row 0 at character `-5` and row 3 at character
`15`, outside the 10 characters of the row. -/
theorem human_line_reads_outside_board :
    WellFormed sampleGame ∧
    human_move "0 -3".toList sampleGame true =
      some ({ move := "0 -3", rowMoveErrors := "", columnMoveErrors := "",
              game := withMove sampleGame 0 (-3) }, none) ∧
    MOVE_INDEX (withMove sampleGame 0 (-3)) = -5 ∧
    readCell sampleGame.board 0 (-5) = none ∧
    play_move "" "" (withMove sampleGame 0 (-3)) = none ∧
    human_move "3 7".toList sampleGame true =
      some ({ move := "3 7", rowMoveErrors := "", columnMoveErrors := "",
              game := withMove sampleGame 3 7 }, none) ∧
    MOVE_INDEX (withMove sampleGame 3 7) = 15 ∧
    readCell sampleGame.board 3 15 = none ∧
    play_move "" "" (withMove sampleGame 3 7) = none := by
  decide


/-! ### Loops that return: searches -/

/-- A loop whose body leaves the state as it is and returns at a hit returns at
the first hit. -/
theorem loopRet_search {σ ρ : Type} (body : Int → σ → Option (σ ⊕ ρ)) (step : Int) (s : σ)
    (hit : Int → Option ρ) (n : Nat) (i : Int)
    (hbody : ∀ k : Nat, k < n → body (i + step * k) s =
      some (searchStep s (hit (i + step * k)))) :
    ((∀ k : Nat, k < n → hit (i + step * k) = none) ∧
        loopRet body step n i s = some (Sum.inl s)) ∨
      ∃ k : Nat, k < n ∧ ∃ v, hit (i + step * k) = some v ∧
        (∀ k1 : Nat, k1 < k → hit (i + step * k1) = none) ∧
        loopRet body step n i s = some (Sum.inr v) := by
  induction n generalizing i with
  | zero => exact Or.inl ⟨fun k hk => absurd hk (by omega), rfl⟩
  | succ n ih =>
    have e : ∀ k : Nat, i + step * ((k + 1 : Nat) : Int) = i + step + step * (k : Int) :=
      fun k => by
        push_cast
        ring
    have h0 := hbody 0 (by omega)
    simp only [Nat.cast_zero, mul_zero, add_zero] at h0
    cases hh : hit i with
    | some v =>
      rw [hh] at h0
      right
      refine ⟨0, by omega, v, by simpa using hh, fun k1 hk1 => absurd hk1 (by omega), ?_⟩
      unfold loopRet
      rw [h0]
      rfl
    | none =>
      rw [hh] at h0
      have hstep : loopRet body step (n + 1) i s = loopRet body step n (i + step) s := by
        rw [loopRet, h0]
        rfl
      rcases ih (i + step) (fun k hk => by
        have := hbody (k + 1) (by omega)
        rw [e] at this
        exact this) with ⟨hnone, hres⟩ | ⟨k, hk, v, hv, hbefore, hres⟩
      · left
        refine ⟨fun k hk => ?_, by rw [hstep, hres]⟩
        cases k with
        | zero => simpa using hh
        | succ k =>
          rw [e]
          exact hnone k (by omega)
      · right
        refine ⟨k + 1, by omega, v, by rw [e]; exact hv, fun k1 hk1 => ?_, by rw [hstep, hres]⟩
        cases k1 with
        | zero => simpa using hh
        | succ k1 =>
          rw [e]
          exact hbefore k1 (by omega)


/-- The loop nest over the interior, with a body that leaves the state as it is
and returns at a hit, returns at the first hit in row-major order. -/
theorem interiorLoop_search {σ : Type} (g : Game)
    (body : Int → Int → σ → Option (σ ⊕ (Int × Int))) (s : σ)
    (hit : Int → Int → Option (Int × Int))
    (hbody : ∀ r j : Int, IsInterior g r j → body r (2 * j) s =
      some (searchStep s (hit r j))) :
    ((∀ r j : Int, IsInterior g r j → hit r j = none) ∧
        interiorLoop g body s = some (Sum.inl s)) ∨
      ∃ r j v, IsInterior g r j ∧ hit r j = some v ∧
        (∀ r2 j2 : Int, IsInterior g r2 j2 → (r2 < r ∨ (r2 = r ∧ j2 < j)) →
          hit r2 j2 = none) ∧
        interiorLoop g body s = some (Sum.inr v) := by
  have hrow : ∀ r : Int, 1 ≤ r → r < g.rows - 1 →
      ((∀ j : Int, 1 ≤ j → j < g.columns - 1 → hit r j = none) ∧
        loopRet (body r) 2 ((SCORE_COLUMN_OF_LAST_CELL g - 1) / 2).toNat 2 s =
          some (Sum.inl s)) ∨
      ∃ j v, 1 ≤ j ∧ j < g.columns - 1 ∧ hit r j = some v ∧
        (∀ j2 : Int, 1 ≤ j2 → j2 < j → hit r j2 = none) ∧
        loopRet (body r) 2 ((SCORE_COLUMN_OF_LAST_CELL g - 1) / 2).toNat 2 s =
          some (Sum.inr v) := by
    intro r hr1 hr2
    have hcol : ∀ k : Nat, k < ((SCORE_COLUMN_OF_LAST_CELL g - 1) / 2).toNat →
        (2 : Int) + 2 * (k : Int) = 2 * ((k : Int) + 1) ∧ (k : Int) + 1 < g.columns - 1 := by
      intro k hk
      unfold SCORE_COLUMN_OF_LAST_CELL at hk
      omega
    rcases loopRet_search (body r) 2 s (fun c => hit r (c / 2))
        ((SCORE_COLUMN_OF_LAST_CELL g - 1) / 2).toNat 2 (fun k hk => by
          obtain ⟨e, hlt⟩ := hcol k hk
          have e2 : ((2 : Int) + 2 * (k : Int)) / 2 = (k : Int) + 1 := by omega
          simp only [e2]
          rw [e]
          exact hbody r ((k : Int) + 1) ⟨by omega, hr2, by omega, hlt⟩) with
      ⟨hnone, hres⟩ | ⟨k, hk, v, hv, hbefore, hres⟩
    · left
      refine ⟨fun j hj1 hj2 => ?_, hres⟩
      have := hnone (j - 1).toNat (by unfold SCORE_COLUMN_OF_LAST_CELL; omega)
      have e2 : ((2 : Int) + 2 * ((j - 1).toNat : Int)) / 2 = j := by omega
      simp only [e2] at this
      exact this
    · right
      obtain ⟨_, hlt⟩ := hcol k hk
      have e2 : ((2 : Int) + 2 * (k : Int)) / 2 = (k : Int) + 1 := by omega
      simp only [e2] at hv
      refine ⟨(k : Int) + 1, v, by omega, hlt, hv, fun j2 h1 h2 => ?_, hres⟩
      have := hbefore (j2 - 1).toNat (by omega)
      have e3 : ((2 : Int) + 2 * ((j2 - 1).toNat : Int)) / 2 = j2 := by omega
      simp only [e3] at this
      exact this
  rcases loopRet_search
      (fun r s1 => loopRet (body r) 2 ((SCORE_COLUMN_OF_LAST_CELL g - 1) / 2).toNat 2 s1) 1 s
      (fun r =>
        match loopRet (body r) 2 ((SCORE_COLUMN_OF_LAST_CELL g - 1) / 2).toNat 2 s with
        | some (Sum.inr v) => some v
        | _ => none)
      (g.rows - 2).toNat 1 (fun k hk => by
        rcases hrow (1 + 1 * (k : Int)) (by omega) (by omega) with
          ⟨_, hres⟩ | ⟨_, _, _, _, _, _, hres⟩ <;>
        · simp only [hres]
          rfl) with
    ⟨hnone, hres⟩ | ⟨k, hk, v, hv, hbefore, hres⟩
  · left
    refine ⟨fun r j hint => ?_, hres⟩
    obtain ⟨h1, h2, h3, h4⟩ := hint
    have hk := hnone (r - 1).toNat (by omega)
    have e : (1 : Int) + 1 * ((r - 1).toNat : Int) = r := by omega
    rw [e] at hk
    rcases hrow r (by omega) h2 with ⟨hn, _⟩ | ⟨_, _, _, _, _, _, hr⟩
    · exact hn j (by omega) h4
    · rw [hr] at hk
      simp at hk
  · right
    have hr1 : (1 : Int) ≤ 1 + 1 * (k : Int) := by omega
    have hr2 : (1 : Int) + 1 * (k : Int) < g.rows - 1 := by omega
    rcases hrow (1 + 1 * (k : Int)) hr1 hr2 with ⟨_, hr⟩ | ⟨j, v2, hj1, hj2, hj, hjb, hr⟩
    · rw [hr] at hv
      simp at hv
    · rw [hr] at hv
      simp only [Option.some.injEq] at hv
      subst hv
      refine ⟨1 + 1 * (k : Int), j, v2, ⟨by omega, hr2, by omega, hj2⟩, hj,
        fun r2 j2 hint hlt => ?_, hres⟩
      obtain ⟨h1, h2, h3, h4⟩ := hint
      rcases hlt with hlt | ⟨heq, hlt⟩
      · have hk2 := hbefore (r2 - 1).toNat (by omega)
        have e : (1 : Int) + 1 * ((r2 - 1).toNat : Int) = r2 := by omega
        rw [e] at hk2
        rcases hrow r2 (by omega) h2 with ⟨hn, _⟩ | ⟨_, _, _, _, _, _, hr3⟩
        · exact hn j2 (by omega) h4
        · rw [hr3] at hk2
          simp at hk2
      · rw [heq]
        exact hjb j2 (by omega) hlt


/-! ### The placement search of the type 1 player -/

/-- On a board of the data model, `atoi` at the weight position of a non-corner
cell is the weight of the cell. -/
theorem atoiAt_weight {g : Game} (hb : PlayBoard g) (r j : Int) (hr0 : 0 ≤ r)
    (hr : r < g.rows) (hj0 : 0 ≤ j) (hj : j < g.columns) (hcorner : ¬ IsCorner g r j) :
    atoiAt g.board r (2 * j) = some (weightValue g.board r j) ∧
      ∃ o, occ g.board r j = some o ∧ (o = '.' ∨ o = 'O' ∨ o = 'X') := by
  have hcell := hb.2.2.2 r hr0 hr j hj0 hj
  rw [if_neg hcorner] at hcell
  obtain ⟨⟨w, hw, hwd⟩, ho⟩ := hcell
  have hval : weightValue g.board r j = digitValue w := by
    unfold weightValue
    rw [hw]
  rw [hval]
  rcases ho with ho | ho | ho
  · exact ⟨atoiAt_cell g.board r (2 * j) w '.' (by omega) hw ho hwd (by decide),
      _, ho, Or.inl rfl⟩
  · exact ⟨atoiAt_cell g.board r (2 * j) w 'O' (by omega) hw ho hwd (by decide),
      _, ho, Or.inr (Or.inl rfl)⟩
  · exact ⟨atoiAt_cell g.board r (2 * j) w 'X' (by omega) hw ho hwd (by decide),
      _, ho, Or.inr (Or.inr rfl)⟩

theorem interior_cell {g : Game} (hb : PlayBoard g) (r j : Int) (hint : IsInterior g r j) :
    atoiAt g.board r (2 * j) = some (weightValue g.board r j) ∧
      ∃ o, occ g.board r j = some o ∧ (o = '.' ∨ o = 'O' ∨ o = 'X') := by
  obtain ⟨h1, h2, h3, h4⟩ := hint
  exact atoiAt_weight hb r j (by omega) (by omega) (by omega) (by omega)
    (fun hc => by unfold IsCorner at hc; omega)

/-- With tied scores the body of the first loop nest returns at an Empty cell
heavier than the running maximum and changes nothing otherwise. -/
theorem highestStep_tied {g : Game} (hb : PlayBoard g) (r j : Int) (hint : IsInterior g r j)
    (s : Int × Option (Int × Int)) :
    highestStep g true r (2 * j) s =
      some (searchStep s (if occ g.board r j = some '.' ∧ s.1 < weightValue g.board r j
        then some (r, j) else none)) := by
  obtain ⟨hat, o, ho, _⟩ := interior_cell hb r j hint
  have ho2 : readCell g.board r (2 * j + 1) = some o := ho
  have e : 2 * j / 2 = j := by omega
  unfold highestStep
  rw [ho2, hat, ho]
  simp only [e, Option.some.injEq]
  by_cases hdot : o = '.'
  · by_cases hlt : s.1 < weightValue g.board r j
    · simp [hdot, hlt, searchStep]
    · simp [hdot, hlt, searchStep]
  · simp [hdot, searchStep]

theorem firstEmptyStep_spec {g : Game} (hb : PlayBoard g) (r j : Int)
    (hint : IsInterior g r j) (s : Unit) :
    firstEmptyStep g r (2 * j) s =
      some (searchStep s (if occ g.board r j = some '.' then some (r, j) else none)) := by
  obtain ⟨_, o, ho, _⟩ := interior_cell hb r j hint
  have ho2 : readCell g.board r (2 * j + 1) = some o := ho
  have e : 2 * j / 2 = j := by omega
  unfold firstEmptyStep
  rw [ho2, ho]
  simp only [e, Option.some.injEq]
  by_cases hdot : o = '.'
  · simp [hdot, searchStep]
  · simp [hdot, searchStep]


/-- With tied scores `type_one_highest_cell` returns the first Empty interior
cell heavier than the seed of the running maximum, and the first Empty interior
cell when no Empty cell is heavier than the seed. -/
theorem highest_cell_tied_spec (g : Game) (hb : PlayBoard g) (s : Int)
    (htie : current_score_calc g = some (s, s))
    (hex : ∃ r j : Int, IsInterior g r j ∧ occ g.board r j = some '.') :
    ∃ r j : Int, type_one_highest_cell g = some (automated g r j) ∧
      IsInterior g r j ∧ occ g.board r j = some '.' ∧
      ((∃ r2 j2 : Int, IsInterior g r2 j2 ∧ occ g.board r2 j2 = some '.' ∧
          seedScore g < weightValue g.board r2 j2) →
        seedScore g < weightValue g.board r j ∧
        ∀ r2 j2 : Int, IsInterior g r2 j2 → occ g.board r2 j2 = some '.' →
          seedScore g < weightValue g.board r2 j2 → (r < r2 ∨ (r = r2 ∧ j ≤ j2))) ∧
      ((∀ r2 j2 : Int, IsInterior g r2 j2 → occ g.board r2 j2 = some '.' →
          weightValue g.board r2 j2 ≤ seedScore g) →
        ∀ r2 j2 : Int, IsInterior g r2 j2 → occ g.board r2 j2 = some '.' →
          (r < r2 ∨ (r = r2 ∧ j ≤ j2))) := by
  have hr3 := hb.1
  have hc3 := hb.2.1
  have h11 : IsInterior g 1 1 := ⟨by omega, by omega, by omega, by omega⟩
  obtain ⟨hat, o, ho, _⟩ := interior_cell hb 1 1 h11
  have ho2 : readCell g.board 1 3 = some o := ho
  have hat2 : atoiAt g.board 1 2 = some (weightValue g.board 1 1) := hat
  have hseed : (if o = '.' then atoiAt g.board 1 2 else some 0) = some (seedScore g) := by
    unfold seedScore
    rw [ho, hat2]
    by_cases hdot : o = '.'
    · simp [hdot]
    · simp [hdot]
  have hlex : ∀ r j r2 j2 : Int, ¬ (r2 < r ∨ (r2 = r ∧ j2 < j)) → (r < r2 ∨ (r = r2 ∧ j ≤ j2)) := by
    intro r j r2 j2 h
    omega
  unfold type_one_highest_cell
  rw [htie]
  simp only [ho2, hseed, decide_True, if_true]
  rcases interiorLoop_search g (highestStep g true) (seedScore g, none)
      (fun r j => if occ g.board r j = some '.' ∧ seedScore g < weightValue g.board r j
        then some (r, j) else none)
      (fun r j hint => highestStep_tied hb r j hint (seedScore g, none)) with
    ⟨hnone, hres⟩ | ⟨r, j, v, hint, hv, hbefore, hres⟩
  · rw [hres]
    simp only
    have hle : ∀ r2 j2 : Int, IsInterior g r2 j2 → occ g.board r2 j2 = some '.' →
        weightValue g.board r2 j2 ≤ seedScore g := by
      intro r2 j2 hint2 hocc2
      have := hnone r2 j2 hint2
      by_contra hgt
      simp [hocc2, not_le.mp hgt] at this
    rcases interiorLoop_search g (firstEmptyStep g) ()
        (fun r j => if occ g.board r j = some '.' then some (r, j) else none)
        (fun r j hint => firstEmptyStep_spec hb r j hint ()) with
      ⟨hnone2, _⟩ | ⟨r, j, v, hint, hv, hbefore, hres2⟩
    · obtain ⟨r0, j0, hint0, hocc0⟩ := hex
      have := hnone2 r0 j0 hint0
      simp [hocc0] at this
    · rw [hres2]
      have hocc : occ g.board r j = some '.' := by
        by_contra hne
        simp [hne] at hv
      simp only [hocc, if_true, Option.some.injEq] at hv
      subst hv
      refine ⟨r, j, rfl, hint, hocc, fun ⟨r2, j2, hint2, hocc2, hgt⟩ => ?_,
        fun _ r2 j2 hint2 hocc2 => ?_⟩
      · exact absurd (hle r2 j2 hint2 hocc2) (not_le.mpr hgt)
      · apply hlex
        intro hlt
        have := hbefore r2 j2 hint2 hlt
        simp [hocc2] at this
  · rw [hres]
    have hcond : occ g.board r j = some '.' ∧ seedScore g < weightValue g.board r j := by
      by_contra hne
      simp only [hne, if_false] at hv
      exact absurd hv (by simp)
    simp only [hcond, and_self, if_true, Option.some.injEq] at hv
    subst hv
    refine ⟨r, j, rfl, hint, hcond.1, fun _ => ⟨hcond.2, fun r2 j2 hint2 hocc2 hgt => ?_⟩,
      fun hle => ?_⟩
    · apply hlex
      intro hlt
      have := hbefore r2 j2 hint2 hlt
      simp [hocc2, hgt] at this
    · exact absurd (hle r j hint hcond.1) (not_le.mpr hcond.2)


theorem digitValue_one_nine {w : Char} (hlo : '1' ≤ w) (hhi : w ≤ '9') :
    1 ≤ digitValue w ∧ digitValue w ≤ 9 := by
  have h1 : (49 : Nat) ≤ w.val.toNat := hlo
  have h2 : w.val.toNat ≤ (57 : Nat) := hhi
  have e : w.toNat = w.val.toNat := rfl
  unfold digitValue
  rw [e]
  omega

/-- Claim C24 (counterexample): on a well-formed board without stones the
scores are tied, no push is advantageous and the first Empty interior cell in
row-major order is `(1, 1)`, with weight 2; `type_one_highest_cell` starts its
running maximum at that weight and returns `(1, 2)`, the first Empty cell with a
larger weight. -/
theorem tied_fallback_skips_first_empty :
    WellFormed tiedGame ∧ current_score_calc tiedGame = some (0, 0) ∧
    type_one_push_down tiedGame 'X' = some none ∧
    type_one_push_left tiedGame 'X' = some none ∧
    type_one_push_up tiedGame 'X' = some none ∧
    type_one_push_right tiedGame 'X' = some none ∧
    IsInterior tiedGame 1 1 ∧ occ tiedGame.board 1 1 = some '.' ∧
    type_one_highest_cell tiedGame = some (automated tiedGame 1 2) ∧
    type_one_move tiedGame 'X' = some (automated tiedGame 1 2) ∧
    automated tiedGame 1 2 ≠ automated tiedGame 1 1 := by
  decide

/-- Claim C24 (amended): for every well-formed board with at least one Empty
interior cell on which no push is advantageous and `scoreO = scoreX`,
`type_one_move` returns through `type_one_highest_cell` a placement on an Empty
interior cell, found without scanning further: the first Empty interior cell in
row-major order whose weight is larger than the seed of the running maximum -
the weight of cell `(1, 1)` when that cell is Empty, else zero - and, when no
Empty cell is heavier than the seed, the first Empty interior cell. When cell
`(1, 1)` is not Empty this is the first Empty interior cell. -/
theorem type_one_highest_cell_tied (g : Game) (opponent : Char) (hwf : WellFormed g)
    (hex : ∃ r j : Int, IsInterior g r j ∧ occ g.board r j = some '.')
    (s : Int) (htie : current_score_calc g = some (s, s))
    (hdown : ¬ DownOffers g opponent) (hleft : ¬ LeftOffers g opponent)
    (hup : ¬ UpOffers g opponent) (hright : ¬ RightOffers g opponent) :
    ∃ r j : Int, type_one_highest_cell g = some (automated g r j) ∧
      type_one_move g opponent = some (automated g r j) ∧
      IsInterior g r j ∧ occ g.board r j = some '.' ∧
      ((∃ r2 j2 : Int, IsInterior g r2 j2 ∧ occ g.board r2 j2 = some '.' ∧
          seedScore g < weightValue g.board r2 j2) →
        seedScore g < weightValue g.board r j ∧
        ∀ r2 j2 : Int, IsInterior g r2 j2 → occ g.board r2 j2 = some '.' →
          seedScore g < weightValue g.board r2 j2 → (r < r2 ∨ (r = r2 ∧ j ≤ j2))) ∧
      ((∀ r2 j2 : Int, IsInterior g r2 j2 → occ g.board r2 j2 = some '.' →
          weightValue g.board r2 j2 ≤ seedScore g) →
        ∀ r2 j2 : Int, IsInterior g r2 j2 → occ g.board r2 j2 = some '.' →
          (r < r2 ∨ (r = r2 ∧ j ≤ j2))) ∧
      (occ g.board 1 1 ≠ some '.' →
        ∀ r2 j2 : Int, IsInterior g r2 j2 → occ g.board r2 j2 = some '.' →
          (r < r2 ∨ (r = r2 ∧ j ≤ j2))) := by
  have hb := wellFormed_playBoard hwf
  obtain ⟨r, j, hres, hint, hocc, hA, hB⟩ := highest_cell_tied_spec g hb s htie hex
  have hmove : type_one_move g opponent = type_one_highest_cell g := by
    unfold type_one_move
    rw [push_down_none g opponent hb (fun j h1 h2 h3 => hdown ⟨j, h1, h2, h3⟩),
      push_left_none g opponent hb (fun j h1 h2 h3 => hleft ⟨j, h1, h2, h3⟩),
      push_up_none g opponent hb (fun j h1 h2 h3 => hup ⟨j, h1, h2, h3⟩),
      push_right_none g opponent hb (fun j h1 h2 h3 => hright ⟨j, h1, h2, h3⟩)]
  refine ⟨r, j, hres, hmove.trans hres, hint, hocc, hA, hB, fun h11 r2 j2 hint2 hocc2 => ?_⟩
  have hseed : seedScore g = 0 := by
    unfold seedScore
    rw [if_neg h11]
  have hpos : ∀ r3 j3 : Int, IsInterior g r3 j3 → seedScore g < weightValue g.board r3 j3 := by
    intro r3 j3 hint3
    have hw := weightsOK_of_wellFormed hwf r3 j3 (by have := hint3.1; omega) (by
      have := hint3.2.1; omega) (by have := hint3.2.2.1; omega) (by
      have := hint3.2.2.2; omega) (fun hc => by
        unfold IsCorner at hc
        unfold IsInterior at hint3
        omega)
    rw [if_pos hint3] at hw
    obtain ⟨w, hw1, hlo, hhi⟩ := hw
    rw [hseed]
    unfold weightValue
    rw [hw1]
    have := (digitValue_one_nine hlo hhi).1
    simp only
    omega
  exact (hA ⟨r, j, hint, hocc, hpos r j hint⟩).2 r2 j2 hint2 hocc2 (hpos r2 j2 hint2)

/-- The tied fallback on the board without stones: the cell returned is Empty
and interior, and it is `(1, 2)`. -/
theorem type_one_highest_cell_tied_witness :
    WellFormed tiedGame ∧ current_score_calc tiedGame = some (0, 0) ∧
    type_one_highest_cell tiedGame = some (automated tiedGame 1 2) ∧
    ∃ r j : Int, type_one_highest_cell tiedGame = some (automated tiedGame r j) ∧
      type_one_move tiedGame 'X' = some (automated tiedGame r j) ∧
      IsInterior tiedGame r j ∧ occ tiedGame.board r j = some '.' :=
  have hcols : ∀ j : Int, 1 ≤ j → j < tiedGame.columns - 1 → j = 1 ∨ j = 2 := by
    intro j h1 h2
    have h3 : j < 3 := h2
    omega
  have hrows : ∀ r : Int, 1 ≤ r → r < tiedGame.rows - 1 → r = 1 ∨ r = 2 := by
    intro r h1 h2
    have h3 : r < 3 := h2
    omega
  have hthm := type_one_highest_cell_tied tiedGame 'X' (by decide)
    ⟨1, 1, by decide, by decide⟩ 0 (by decide)
    (fun ⟨j, h1, h2, h3⟩ => by
      rcases hcols j h1 h2 with h | h <;> subst h <;> exact absurd h3 (by decide))
    (fun ⟨r, h1, h2, h3⟩ => by
      rcases hrows r h1 h2 with h | h <;> subst h <;> exact absurd h3 (by decide))
    (fun ⟨j, h1, h2, h3⟩ => by
      rcases hcols j h1 h2 with h | h <;> subst h <;> exact absurd h3 (by decide))
    (fun ⟨r, h1, h2, h3⟩ => by
      rcases hrows r h1 h2 with h | h <;> subst h <;> exact absurd h3 (by decide))
  ⟨by decide, by decide, by decide,
    hthm.elim fun r h => h.elim fun j hj => ⟨r, j, hj.1, hj.2.1, hj.2.2.1, hj.2.2.2.1⟩⟩


/-! ### Sums -/

theorem sumUpTo_congr (f f2 : Int → Int) (n : Nat)
    (h : ∀ t : Nat, t < n → f2 t = f t) : sumUpTo f2 n = sumUpTo f n := by
  induction n with
  | zero => rfl
  | succ n ih =>
    simp only [sumUpTo]
    rw [ih (fun t ht => h t (by omega)), h n (by omega)]

theorem sumUpTo_front (f : Int → Int) (n : Nat) :
    sumUpTo f (n + 1) = f 0 + sumUpTo (fun t => f (t + 1)) n := by
  induction n with
  | zero => simp [sumUpTo]
  | succ n ih =>
    rw [sumUpTo, ih]
    simp only [sumUpTo]
    push_cast
    ring

/-- The walk adds, for every position before the first `.` (or up to the loop
bound) that holds the opponent, the two numbers read there. -/
theorem walkLine_sum (g : Game) (opponent : Char) (hopp : opponent ≠ '.')
    (cellAt colAt pushAt : Int → Int × Int) (step : Int) (n : Nat) :
    ∀ (m : Nat) (i : Int) (s : Int × Int) (o : Int → Char) (a p : Int → Int), m ≤ n →
      (∀ t : Nat, t < m →
        readCell g.board (cellAt (i + step * t)).1 (cellAt (i + step * t)).2 = some (o t) ∧
        o t ≠ '.' ∧
        atoiAt g.board (colAt (i + step * t)).1 (colAt (i + step * t)).2 = some (a t) ∧
        atoiAt g.board (pushAt (i + step * t)).1 (pushAt (i + step * t)).2 = some (p t)) →
      (m = n ∨
        readCell g.board (cellAt (i + step * m)).1 (cellAt (i + step * m)).2 = some '.') →
      walkLine g opponent cellAt colAt pushAt step n i s =
        some (s.1 + sumUpTo (fun t => if o t = opponent then a t else 0) m,
          s.2 + sumUpTo (fun t => if o t = opponent then p t else 0) m) := by
  induction n with
  | zero =>
    intro m i s o a p hm _ _
    have : m = 0 := by omega
    subst this
    simp [walkLine, sumUpTo]
  | succ n ih =>
    intro m i s o a p hm hcell hend
    cases m with
    | zero =>
      have hdot : readCell g.board (cellAt i).1 (cellAt i).2 = some '.' := by
        rcases hend with h | h
        · omega
        · simpa using h
      unfold walkLine
      rw [hdot]
      simp [Ne.symm hopp, sumUpTo]
    | succ m =>
      have e : ∀ t : Nat, i + step * ((t + 1 : Nat) : Int) = i + step + step * (t : Int) :=
        fun t => by
          push_cast
          ring
      obtain ⟨h1, h2, h3, h4⟩ := hcell 0 (by omega)
      simp only [Nat.cast_zero, mul_zero, add_zero] at h1 h3 h4
      have hrec := fun s2 => ih m (i + step) s2 (fun t => o (t + 1)) (fun t => a (t + 1))
        (fun t => p (t + 1)) (by omega) (fun t ht => by
          have := hcell (t + 1) (by omega)
          rw [e] at this
          push_cast at this
          exact this) (by
          rcases hend with h | h
          · left
            omega
          · right
            rw [e] at h
            exact h)
      unfold walkLine
      rw [h1]
      simp only [h3, h4]
      rw [sumUpTo_front, sumUpTo_front]
      by_cases hO : o 0 = opponent
      · rw [if_pos (by simpa using hO), hrec]
        simp only [Nat.cast_zero, hO, if_true, Option.some.injEq, Prod.mk.injEq]
        constructor <;> ring
      · rw [if_neg (by simpa using hO), if_neg (by simpa using h2), hrec]
        simp only [Nat.cast_zero, hO, if_false, Option.some.injEq, Prod.mk.injEq]
        constructor <;> ring


/-- The cell of a slot of the targeted line on a board of the data model: its
weight is read by `atoi` and its occupancy is one of `.`, `O`, `X`. -/
theorem slot_values {g : Game} (hb : PlayBoard g) (hon : OnBorder g) (i : Int)
    (hi : 0 ≤ i ∧ i ≤ lineLen g - 1) :
    atoiAt g.board (slot g i).1 (2 * (slot g i).2) =
        some (weightValue g.board (slot g i).1 (slot g i).2) ∧
      ∃ o, occ g.board (slot g i).1 (slot g i).2 = some o ∧ (o = '.' ∨ o = 'O' ∨ o = 'X') := by
  obtain ⟨h1, h2, h3, h4, h5, _⟩ := slot_cell hb hon i hi
  exact atoiAt_weight hb _ _ h1 h2 h3 h4 h5

/-- A walk whose positions are the slots of the targeted line ends with the sums
over the opponent's stones on the slots before the first Empty slot `k`. -/
theorem walk_slots (g : Game) (opponent : Char) (hb : PlayBoard g) (hon : OnBorder g)
    (hopp : opponent ≠ '.') (cellAt colAt pushAt : Int → Int × Int) (step start : Int)
    (n : Nat) (hn : (n : Int) = lineLen g - 2)
    (hcell : ∀ t : Nat, t < n → cellAt (start + step * t) = slotIndex g (t + 1))
    (hcol : ∀ t : Nat, t < n →
      colAt (start + step * t) = ((slot g (t + 1)).1, 2 * (slot g (t + 1)).2))
    (hpush : ∀ t : Nat, t < n →
      pushAt (start + step * t) = ((slot g (t + 2)).1, 2 * (slot g (t + 2)).2))
    (k : Int) (hk : 2 ≤ k ∧ k ≤ lineLen g - 1)
    (hempty : k ≤ lineLen g - 2 → occ g.board (slot g k).1 (slot g k).2 = some '.')
    (hfull : ∀ i : Int, 1 ≤ i → i < k → occ g.board (slot g i).1 (slot g i).2 ≠ some '.') :
    walkLine g opponent cellAt colAt pushAt step n start (0, 0) =
      some (scoreIfNotPushed g opponent k, scoreIfPushed g opponent k) := by
  have hm : (k - 1).toNat ≤ n := by omega
  have hwalk := walkLine_sum g opponent hopp cellAt colAt pushAt step n (k - 1).toNat start
    (0, 0) (fun t => (occ g.board (slot g (t + 1)).1 (slot g (t + 1)).2).getD ' ')
    (fun t => weightValue g.board (slot g (t + 1)).1 (slot g (t + 1)).2)
    (fun t => weightValue g.board (slot g (t + 2)).1 (slot g (t + 2)).2) hm
    (fun t ht => by
      obtain ⟨hat, o, ho, _⟩ := slot_values hb hon ((t : Int) + 1) ⟨by omega, by omega⟩
      obtain ⟨hat2, _⟩ := slot_values hb hon ((t : Int) + 2) ⟨by omega, by omega⟩
      have hne := hfull ((t : Int) + 1) (by omega) (by omega)
      rw [hcell t (by omega), hcol t (by omega), hpush t (by omega)]
      refine ⟨?_, ?_, hat, hat2⟩
      · show occ g.board (slot g ((t : Int) + 1)).1 (slot g ((t : Int) + 1)).2 =
          some ((occ g.board (slot g ((t : Int) + 1)).1 (slot g ((t : Int) + 1)).2).getD ' ')
        rw [ho]
        rfl
      · simp only [ho, Option.getD_some]
        intro e
        rw [e] at ho
        exact hne ho)
    (by
      by_cases hlast : k ≤ lineLen g - 2
      · right
        have e : ((k - 1).toNat : Int) + 1 = k := by omega
        rw [hcell (k - 1).toNat (by omega), e]
        exact hempty hlast
      · left
        omega)
  rw [hwalk]
  unfold scoreIfNotPushed scoreIfPushed
  simp only [zero_add, Option.some.injEq, Prod.mk.injEq]
  constructor
  · apply sumUpTo_congr
    intro t ht
    obtain ⟨_, o, ho, _⟩ := slot_values hb hon ((t : Int) + 1) ⟨by omega, by omega⟩
    unfold stayScore
    simp only [ho, Option.getD_some, Option.some.injEq]
  · apply sumUpTo_congr
    intro t ht
    obtain ⟨_, o, ho, _⟩ := slot_values hb hon ((t : Int) + 1) ⟨by omega, by omega⟩
    unfold movedScore
    have e : (t : Int) + 1 + 1 = (t : Int) + 2 := by ring
    simp only [ho, Option.getD_some, Option.some.injEq, e]


/-- The loop body that scans the line of a non-corner border cell tests the
three slots `0`, `1` and `lineLen - 1` and walks the interior slots in order,
reading the weight of each slot and of the slot after it. -/
theorem move_dispatch (g : Game) (opponent : Char) (hb : PlayBoard g) (hon : OnBorder g) :
    ∃ (cellAt colAt pushAt : Int → Int × Int) (step start : Int) (n : Nat),
      moveAdvantage g opponent =
        lineAdvantage g opponent (slotIndex g 0) (slotIndex g 1) (slotIndex g (lineLen g - 1))
          cellAt colAt pushAt step n start ∧
      moveScores g opponent = walkLine g opponent cellAt colAt pushAt step n start (0, 0) ∧
      (n : Int) = lineLen g - 2 ∧
      (∀ t : Nat, t < n → cellAt (start + step * t) = slotIndex g (t + 1)) ∧
      (∀ t : Nat, t < n →
        colAt (start + step * t) = ((slot g (t + 1)).1, 2 * (slot g (t + 1)).2)) ∧
      (∀ t : Nat, t < n →
        pushAt (start + step * t) = ((slot g (t + 2)).1, 2 * (slot g (t + 2)).2)) := by
  have hr3 := hb.1
  have hc3 := hb.2.1
  rcases slot_cases hb hon with ⟨h1, h2, h3, h4, h5⟩ | ⟨h1, h2, h3, h4, h5⟩ |
    ⟨h1, h2, h3, h4, h5⟩ | ⟨h1, h2, h3, h4, h5⟩
  · have n1 : ¬ g.rowMove = g.rows - 1 := by omega
    have e0 : slotIndex g 0 = (0, MOVE_INDEX g) := by
      simp only [slotIndex, h5, MOVE_INDEX]
    have e1 : slotIndex g 1 = (1, MOVE_INDEX g) := by
      simp only [slotIndex, h5, MOVE_INDEX]
    have eL : slotIndex g (lineLen g - 1) = (g.rows - 1, MOVE_INDEX g) := by
      simp only [slotIndex, h5, h4, MOVE_INDEX]
    refine ⟨fun r => (r + 1, MOVE_INDEX g), fun r => (r + 1, MOVE_INDEX g - 1),
      fun r => (r + 2, MOVE_INDEX g - 1), 1, 0, (g.rows - 2).toNat, ?_, ?_,
      by rw [h4]; omega, ?_, ?_, ?_⟩
    · unfold moveAdvantage
      rw [if_neg n1, if_pos h1, e0, e1, eL]
      rfl
    · unfold moveScores
      rw [if_neg n1, if_pos h1]
      rfl
    · intro t _
      simp only [slotIndex, h5, MOVE_INDEX, Prod.mk.injEq]
      refine ⟨?_, ?_⟩ <;> first | trivial | omega
    · intro t _
      simp only [h5, MOVE_INDEX, Prod.mk.injEq]
      refine ⟨?_, ?_⟩ <;> first | trivial | omega
    · intro t _
      simp only [h5, MOVE_INDEX, Prod.mk.injEq]
      refine ⟨?_, ?_⟩ <;> first | trivial | omega
  · have e0 : slotIndex g 0 = (g.rows - 1, MOVE_INDEX g) := by
      simp only [slotIndex, h5, MOVE_INDEX, sub_zero]
    have e1 : slotIndex g 1 = (g.rows - 2, MOVE_INDEX g) := by
      simp only [slotIndex, h5, MOVE_INDEX, Prod.mk.injEq]
      refine ⟨?_, ?_⟩ <;> first | trivial | omega
    have eL : slotIndex g (lineLen g - 1) = (0, MOVE_INDEX g) := by
      simp only [slotIndex, h5, h4, MOVE_INDEX, Prod.mk.injEq]
      refine ⟨?_, ?_⟩ <;> first | trivial | omega
    refine ⟨fun r => (r - 1, MOVE_INDEX g), fun r => (r - 1, MOVE_INDEX g - 1),
      fun r => (r - 2, MOVE_INDEX g - 1), -1, g.rows - 1, (g.rows - 2).toNat, ?_, ?_,
      by rw [h4]; omega, ?_, ?_, ?_⟩
    · unfold moveAdvantage
      rw [if_pos h1, e0, e1, eL]
      rfl
    · unfold moveScores
      rw [if_pos h1]
      rfl
    · intro t _
      simp only [slotIndex, h5, MOVE_INDEX, Prod.mk.injEq]
      refine ⟨?_, ?_⟩ <;> first | trivial | omega
    · intro t _
      simp only [h5, MOVE_INDEX, Prod.mk.injEq]
      refine ⟨?_, ?_⟩ <;> first | trivial | omega
    · intro t _
      simp only [h5, MOVE_INDEX, Prod.mk.injEq]
      refine ⟨?_, ?_⟩ <;> first | trivial | omega
  · have n1 : ¬ g.rowMove = g.rows - 1 := by omega
    have n2 : ¬ g.rowMove = 0 := by omega
    have n3 : ¬ g.columnMove = g.columns - 1 := by omega
    have e0 : slotIndex g 0 = (g.rowMove, 1) := by
      simp only [slotIndex, h5, Prod.mk.injEq]
      refine ⟨?_, ?_⟩ <;> trivial
    have e1 : slotIndex g 1 = (g.rowMove, 3) := by
      simp only [slotIndex, h5, Prod.mk.injEq]
      refine ⟨?_, ?_⟩ <;> trivial
    have eL : slotIndex g (lineLen g - 1) = (g.rowMove, LAST_CELL_COLUMN g) := by
      simp only [slotIndex, h5, h4, LAST_CELL_COLUMN, Prod.mk.injEq]
      refine ⟨?_, ?_⟩ <;> first | trivial | omega
    refine ⟨fun c => (g.rowMove, c + 2), fun c => (g.rowMove, c + 1),
      fun c => (g.rowMove, c + 3), 2, 1,
      (SCORE_COLUMN_OF_LAST_INTERIOR_CELL g / 2).toNat, ?_, ?_,
      by rw [h4]; unfold SCORE_COLUMN_OF_LAST_INTERIOR_CELL; omega, ?_, ?_, ?_⟩
    · unfold moveAdvantage
      rw [if_neg n1, if_neg n2, if_neg n3, e0, e1, eL]
      rfl
    · unfold moveScores
      rw [if_neg n1, if_neg n2, if_neg n3]
      rfl
    · intro t _
      simp only [slotIndex, h5, Prod.mk.injEq]
      refine ⟨?_, ?_⟩ <;> first | trivial | omega
    · intro t _
      simp only [h5, Prod.mk.injEq]
      refine ⟨?_, ?_⟩ <;> first | trivial | omega
    · intro t _
      simp only [h5, Prod.mk.injEq]
      refine ⟨?_, ?_⟩ <;> first | trivial | omega
  · have n1 : ¬ g.rowMove = g.rows - 1 := by omega
    have n2 : ¬ g.rowMove = 0 := by omega
    have e0 : slotIndex g 0 = (g.rowMove, LAST_CELL_COLUMN g) := by
      simp only [slotIndex, h5, LAST_CELL_COLUMN, Prod.mk.injEq]
      refine ⟨?_, ?_⟩ <;> first | trivial | omega
    have e1 : slotIndex g 1 = (g.rowMove, LAST_INTERIOR_CELL_COLUMN g) := by
      simp only [slotIndex, h5, LAST_INTERIOR_CELL_COLUMN, Prod.mk.injEq]
      refine ⟨?_, ?_⟩ <;> first | trivial | omega
    have eL : slotIndex g (lineLen g - 1) = (g.rowMove, 1) := by
      simp only [slotIndex, h5, h4, Prod.mk.injEq]
      refine ⟨?_, ?_⟩ <;> first | trivial | omega
    refine ⟨fun c => (g.rowMove, c - 2), fun c => (g.rowMove, c - 3),
      fun c => (g.rowMove, c - 5), -2, LAST_CELL_COLUMN g,
      ((LAST_CELL_COLUMN g - 3) / 2).toNat, ?_, ?_,
      by rw [h4]; unfold LAST_CELL_COLUMN; omega, ?_, ?_, ?_⟩
    · unfold moveAdvantage
      rw [if_neg n1, if_neg n2, if_pos h1, e0, e1, eL]
      rfl
    · unfold moveScores
      rw [if_neg n1, if_neg n2, if_pos h1]
      rfl
    · intro t _
      simp only [slotIndex, h5, LAST_CELL_COLUMN, Prod.mk.injEq]
      refine ⟨?_, ?_⟩ <;> first | trivial | omega
    · intro t _
      simp only [h5, LAST_CELL_COLUMN, Prod.mk.injEq]
      refine ⟨?_, ?_⟩ <;> first | trivial | omega
    · intro t _
      simp only [h5, LAST_CELL_COLUMN, Prod.mk.injEq]
      refine ⟨?_, ?_⟩ <;> first | trivial | omega


theorem pushGuard_eval (g : Game) (a b c : Int × Int) (x y z : Char)
    (ha : readCell g.board a.1 a.2 = some x) (hb : readCell g.board b.1 b.2 = some y)
    (hc : readCell g.board c.1 c.2 = some z) :
    pushGuard g a b c = some (decide (x ≠ '.' ∨ y = '.' ∨ z ≠ '.')) := by
  unfold pushGuard
  rw [ha, hb, hc]
  by_cases hx : x = '.'
  · by_cases hy : y = '.'
    · simp [hx, hy]
    · simp [hx, hy]
  · simp [hx]

/-- A line with the trigger Empty, the adjacent slot occupied and the opposite
border slot Empty has a first Empty slot `k`, and `push_move` pushes up to it. -/
theorem push_first_empty (g : Game) (hb : PlayBoard g) (hon : OnBorder g)
    (hadj : occ g.board (slot g 1).1 (slot g 1).2 ≠ some '.')
    (hfar : occ g.board (slot g (lineLen g - 1)).1 (slot g (lineLen g - 1)).2 = some '.') :
    ∃ k : Int, 2 ≤ k ∧ k ≤ lineLen g - 1 ∧
      occ g.board (slot g k).1 (slot g k).2 = some '.' ∧
      (∀ i : Int, 1 ≤ i → i < k → occ g.board (slot g i).1 (slot g i).2 ≠ some '.') ∧
      ∃ b2, push_move g =
          some { g with board := b2, currentPlayer := otherPlayer g.currentPlayer } ∧
        PushedTo g k b2 ∧ b2.map List.length = g.board.map List.length := by
  have hlen : 3 ≤ lineLen g := by
    unfold lineLen
    split
    · exact hb.1
    · exact hb.2.1
  rcases push_move_cases g hb hon with ⟨h1, _⟩ |
    ⟨_, ⟨h1, _⟩ | ⟨k, hk1, hk2, hk3, hk4, b2, h5, hpushed, _, hshape⟩⟩
  · exact absurd h1 hadj
  · exact absurd hfar (h1 (lineLen g - 1) (by omega) (le_refl _))
  · refine ⟨k, hk1, hk2, hk3, fun i hi1 hi2 => ?_, b2, h5, hpushed, hshape⟩
    by_cases h : i = 1
    · rw [h]
      exact hadj
    · exact hk4 i (by omega) hi2

/-- The push evaluation of the type 1 player on the line of a non-corner border
cell: without the push precondition the loop body does not succeed; with it, the
walk covers the slots before the first Empty slot `k` and the body succeeds
exactly when the sum after the shift is smaller. -/
theorem move_evaluation (g : Game) (opponent : Char) (hb : PlayBoard g) (hon : OnBorder g)
    (hopp : opponent ≠ '.') :
    (¬ (occ g.board (slot g 0).1 (slot g 0).2 = some '.' ∧
        occ g.board (slot g 1).1 (slot g 1).2 ≠ some '.' ∧
        occ g.board (slot g (lineLen g - 1)).1 (slot g (lineLen g - 1)).2 = some '.') →
      moveAdvantage g opponent = some false) ∧
    (occ g.board (slot g 0).1 (slot g 0).2 = some '.' →
      occ g.board (slot g 1).1 (slot g 1).2 ≠ some '.' →
      occ g.board (slot g (lineLen g - 1)).1 (slot g (lineLen g - 1)).2 = some '.' →
      ∀ k : Int, 2 ≤ k → k ≤ lineLen g - 1 →
        occ g.board (slot g k).1 (slot g k).2 = some '.' →
        (∀ i : Int, 1 ≤ i → i < k → occ g.board (slot g i).1 (slot g i).2 ≠ some '.') →
        moveScores g opponent =
          some (scoreIfNotPushed g opponent k, scoreIfPushed g opponent k) ∧
        moveAdvantage g opponent =
          some (decide (scoreIfPushed g opponent k < scoreIfNotPushed g opponent k))) := by
  have hlen : 3 ≤ lineLen g := by
    unfold lineLen
    split
    · exact hb.1
    · exact hb.2.1
  obtain ⟨cellAt, colAt, pushAt, step, start, n, hadv, hscores, hn, hcell, hcol, hpush⟩ :=
    move_dispatch g opponent hb hon
  obtain ⟨_, x, hx, _⟩ := slot_values hb hon 0 ⟨le_refl _, by omega⟩
  obtain ⟨_, y, hy, _⟩ := slot_values hb hon 1 ⟨by omega, by omega⟩
  obtain ⟨_, z, hz, _⟩ := slot_values hb hon (lineLen g - 1) ⟨by omega, le_refl _⟩
  have hguard := pushGuard_eval g (slotIndex g 0) (slotIndex g 1) (slotIndex g (lineLen g - 1))
    x y z hx hy hz
  constructor
  · intro hpre
    have hcond : x ≠ '.' ∨ y = '.' ∨ z ≠ '.' := by
      by_contra hno
      push_neg at hno
      apply hpre
      rw [hx, hy, hz, hno.1, hno.2.2]
      exact ⟨rfl, fun e => hno.2.1 (by simpa using e), rfl⟩
    rw [hadv]
    unfold lineAdvantage
    rw [hguard]
    simp [hcond]
  · intro h0 h1 hL k hk1 hk2 hempty hfull
    rw [hx] at h0
    rw [hy] at h1
    rw [hz] at hL
    simp only [Option.some.injEq] at h0 hL
    have hy2 : y ≠ '.' := fun e => h1 (by rw [e])
    have hwalk := walk_slots g opponent hb hon hopp cellAt colAt pushAt step start n hn hcell
      hcol hpush k ⟨hk1, hk2⟩ (fun _ => hempty) hfull
    refine ⟨hscores.trans hwalk, ?_⟩
    rw [hadv]
    unfold lineAdvantage
    rw [hguard, hwalk]
    simp [h0, hy2, hL]


/-! ## Claims on the push evaluation of the type 1 player -/

/-- Claim C23 (counterexample): on a well-formed board with `O` to move, the
interior cell next to the top edge of column 1 holds the mover's own stone and
the cell below it a stone of `X` on weight 9. The walk of `type_one_push_down`
passes over the own stone, ends with the sums 9 and 0, and the line is
advantageous: `type_one_move` returns the push `(0, 1)`. -/
theorem own_stone_line_is_advantageous :
    WellFormed ownStoneGame ∧ ownStoneGame.currentPlayer = 'O' ∧
    occ ownStoneGame.board 0 1 = some '.' ∧ occ ownStoneGame.board 1 1 = some 'O' ∧
    occ ownStoneGame.board 2 1 = some 'X' ∧ occ ownStoneGame.board 3 1 = some '.' ∧
    downScores ownStoneGame 'X' 3 = some (9, 0) ∧
    downAdvantage ownStoneGame 'X' 3 = some true ∧
    type_one_move ownStoneGame 'X' = some (automated ownStoneGame 0 1) := by
  decide

/-- Claim C23 (amended): for a line scanned by the type 1 player - the line of
the non-corner border cell `(rowMove, columnMove)` on a board of the data model -
that meets the push precondition (trigger Empty, adjacent interior cell
occupied, opposite border cell Empty), with `k` the first Empty slot of the
line: `scoreCol` (scoreIfNotPushed) is the sum of the weights under the
opponent's stones on the slots `1 .. k - 1`, the stones the push would shift
(the mover's own stones among them are passed over and do not end the walk),
`scorePush` (scoreIfPushed) is the sum of the weights one slot further from the
triggering edge for those same stones, and the line is advantageous exactly when
`scoreIfPushed < scoreIfNotPushed`. A line that does not meet the precondition
is not advantageous. -/
theorem push_evaluation (g : Game) (opponent : Char) (hb : PlayBoard g) (hon : OnBorder g)
    (hopp : opponent ≠ '.') :
    (g.rowMove = 0 →
      moveAdvantage g opponent = downAdvantage g opponent (2 * g.columnMove + 1) ∧
      moveScores g opponent = downScores g opponent (2 * g.columnMove + 1)) ∧
    (g.rowMove = g.rows - 1 →
      moveAdvantage g opponent = upAdvantage g opponent (2 * g.columnMove + 1) ∧
      moveScores g opponent = upScores g opponent (2 * g.columnMove + 1)) ∧
    (g.columnMove = g.columns - 1 →
      moveAdvantage g opponent = leftAdvantage g opponent g.rowMove ∧
      moveScores g opponent = leftScores g opponent g.rowMove) ∧
    (g.columnMove = 0 →
      moveAdvantage g opponent = rightAdvantage g opponent g.rowMove ∧
      moveScores g opponent = rightScores g opponent g.rowMove) ∧
    (¬ (occ g.board (slot g 0).1 (slot g 0).2 = some '.' ∧
        occ g.board (slot g 1).1 (slot g 1).2 ≠ some '.' ∧
        occ g.board (slot g (lineLen g - 1)).1 (slot g (lineLen g - 1)).2 = some '.') →
      moveAdvantage g opponent = some false) ∧
    (occ g.board (slot g 0).1 (slot g 0).2 = some '.' →
      occ g.board (slot g 1).1 (slot g 1).2 ≠ some '.' →
      occ g.board (slot g (lineLen g - 1)).1 (slot g (lineLen g - 1)).2 = some '.' →
      ∃ k : Int, 2 ≤ k ∧ k ≤ lineLen g - 1 ∧
        occ g.board (slot g k).1 (slot g k).2 = some '.' ∧
        (∀ i : Int, 1 ≤ i → i < k → occ g.board (slot g i).1 (slot g i).2 ≠ some '.') ∧
        moveScores g opponent =
          some (scoreIfNotPushed g opponent k, scoreIfPushed g opponent k) ∧
        moveAdvantage g opponent =
          some (decide (scoreIfPushed g opponent k < scoreIfNotPushed g opponent k))) := by
  have hr3 := hb.1
  have hc3 := hb.2.1
  obtain ⟨hfail, hpre⟩ := move_evaluation g opponent hb hon hopp
  refine ⟨fun h => ?_, fun h => ?_, fun h => ?_, fun h => ?_, hfail, fun h0 h1 hL => ?_⟩
  · have n1 : ¬ g.rowMove = g.rows - 1 := by omega
    unfold moveAdvantage moveScores
    rw [if_neg n1, if_pos h, if_neg n1, if_pos h]
    exact ⟨rfl, rfl⟩
  · unfold moveAdvantage moveScores
    rw [if_pos h, if_pos h]
    exact ⟨rfl, rfl⟩
  · have hrow : 0 < g.rowMove ∧ g.rowMove < g.rows - 1 := by
      rcases hon with ⟨_, h2, h3⟩ | ⟨_, h2, h3⟩
      · omega
      · exact ⟨h2, h3⟩
    have n1 : ¬ g.rowMove = g.rows - 1 := by omega
    have n2 : ¬ g.rowMove = 0 := by omega
    unfold moveAdvantage moveScores
    rw [if_neg n1, if_neg n2, if_pos h, if_neg n1, if_neg n2, if_pos h]
    exact ⟨rfl, rfl⟩
  · have hrow : 0 < g.rowMove ∧ g.rowMove < g.rows - 1 := by
      rcases hon with ⟨_, h2, h3⟩ | ⟨_, h2, h3⟩
      · omega
      · exact ⟨h2, h3⟩
    have n1 : ¬ g.rowMove = g.rows - 1 := by omega
    have n2 : ¬ g.rowMove = 0 := by omega
    have n3 : ¬ g.columnMove = g.columns - 1 := by omega
    unfold moveAdvantage moveScores
    rw [if_neg n1, if_neg n2, if_neg n3, if_neg n1, if_neg n2, if_neg n3]
    exact ⟨rfl, rfl⟩
  · obtain ⟨k, hk1, hk2, hempty, hfull, _⟩ := push_first_empty g hb hon h1 hL
    exact ⟨k, hk1, hk2, hempty, hfull, hpre h0 h1 hL k hk1 hk2 hempty hfull⟩

/-- The push evaluation on column 1 of the board with the mover's own stone
next to the top edge: the first Empty slot is the bottom border cell, the sums
are 9 and 0 and the line is advantageous. -/
theorem push_evaluation_witness :
    PlayBoard (withMove ownStoneGame 0 1) ∧ OnBorder (withMove ownStoneGame 0 1) ∧
    scoreIfNotPushed (withMove ownStoneGame 0 1) 'X' 3 = 9 ∧
    scoreIfPushed (withMove ownStoneGame 0 1) 'X' 3 = 0 ∧
    moveAdvantage (withMove ownStoneGame 0 1) 'X' = some true ∧
    (moveAdvantage (withMove ownStoneGame 0 1) 'X' = downAdvantage (withMove ownStoneGame 0 1)
        'X' (2 * (withMove ownStoneGame 0 1).columnMove + 1) ∧
      moveScores (withMove ownStoneGame 0 1) 'X' = downScores (withMove ownStoneGame 0 1)
        'X' (2 * (withMove ownStoneGame 0 1).columnMove + 1)) :=
  ⟨by decide, by decide, by decide, by decide, by decide,
    (push_evaluation (withMove ownStoneGame 0 1) 'X' (by decide) (by decide) (by decide)).1
      (by decide)⟩


/-! ### The effect of a push on the scores -/

/-- Claim C25 (amended): after every successful push - `play_move` changes the
state for a move naming a non-corner border cell - the mover's occupancy marker
stands in the slot of the targeted line next to the triggering edge, the slot
vacated by the shift: row 1 for a trigger in row 0 (push down), row `rows - 2`
for a trigger in the last row (push up), column 1 for a trigger in column 0
(push right), column `columns - 2` for a trigger in the last column (push
left). -/
theorem push_places_mover_at_trigger (re ce : String) (g g2 : Game) (hb : PlayBoard g)
    (hon : OnBorder g) (h : play_move re ce g = some g2) (happlied : g2 ≠ g) :
    occ g2.board (slot g 1).1 (slot g 1).2 = some g.currentPlayer ∧
    (g.rowMove = 0 → occ g2.board 1 g.columnMove = some g.currentPlayer) ∧
    (g.rowMove = g.rows - 1 →
      occ g2.board (g.rows - 2) g.columnMove = some g.currentPlayer) ∧
    (g.columnMove = 0 → occ g2.board g.rowMove 1 = some g.currentPlayer) ∧
    (g.columnMove = g.columns - 1 →
      occ g2.board g.rowMove (g.columns - 2) = some g.currentPlayer) := by
  have hr3 := hb.1
  have hc3 := hb.2.1
  have hocc : occ g2.board (slot g 1).1 (slot g 1).2 = some g.currentPlayer := by
    rcases play_move_cases re ce g g2 hb h with h1 | ⟨hint, _⟩ |
      ⟨_, _, _, k, _, _, _, _, b2, h1, hpushed, _⟩
    · exact absurd h1 happlied
    · exact absurd hint (not_interior_guard hon)
    · rw [h1]
      exact hpushed.1
  refine ⟨hocc, ?_⟩
  rcases slot_cases hb hon with ⟨h1, h2, h3, _, h5⟩ | ⟨h1, h2, h3, _, h5⟩ |
    ⟨h1, h2, h3, _, h5⟩ | ⟨h1, h2, h3, _, h5⟩ <;>
  · rw [h5] at hocc
    simp only at hocc
    refine ⟨fun e => ?_, fun e => ?_, fun e => ?_, fun e => ?_⟩ <;>
    first
      | (exfalso; omega)
      | (convert hocc using 2 <;> omega)

/-- Witness for C25 (amended): the push up on column 1 of the sample board is
applied, and in the state it returns the mover `O` stands on `(2, 1)`, next to
the bottom edge that triggered the push. -/
theorem push_places_mover_at_trigger_witness :
    PlayBoard (sampleMove 3 1) ∧ OnBorder (sampleMove 3 1) ∧
    play_move "" "" (sampleMove 3 1) =
      some { sampleMove 3 1 with
             currentPlayer := 'X',
             board := ["  0X0.0.  ".toList, "0.1X2.3O0.".toList, "0.4O5O6.0.".toList,
               "  0.0.0.  ".toList] } ∧
    occ ["  0X0.0.  ".toList, "0.1X2.3O0.".toList, "0.4O5O6.0.".toList,
      "  0.0.0.  ".toList] 2 1 = some 'O' :=
  ⟨by decide, by decide, by decide,
    (push_places_mover_at_trigger "" "" (sampleMove 3 1)
      { sampleMove 3 1 with
        currentPlayer := 'X',
        board := ["  0X0.0.  ".toList, "0.1X2.3O0.".toList, "0.4O5O6.0.".toList,
          "  0.0.0.  ".toList] }
      (by decide) (by decide) (by decide) (by decide)).2.2.1 (by decide)⟩

end Push2310
